import Mathlib

/-!
AnimCurveTool: the gait-phase reference model.

A shallow embedding of `Plugins/AnimCurveTool/Source/AnimCurveTool` (`AnimCurveTool.h`,
`AnimCurveTool.cpp`).

Conventions of the embedding

* C++ `float` values are rationals (`ℚ`); every finite `float` is one.  Comparisons and copies
  are the same on both sides.  The arithmetic of `GetRatioFromTime` and `GetTimeFromRatio` is
  given twice: exactly (`GetRatioFromTime`, `GetTimeFromRatio`), and with the result of every
  operation rounded (`GetRatioFromTimeRounded`, `GetTimeFromRatioRounded`), `roundFloat32` being
  the rounding of the program.  The test of the stabilization walk rounds its subtraction.  A
  division whose divisor is zero has no rational value (the C++ result is an infinity or a
  NaN), so the operations that divide return `Option` and yield `none` there.
* `TArray<T>` is `List T`; `Add` appends at the end; `operator[]` outside the bounds is a failed
  check in the engine, so an operation whose first access is out of bounds returns `none`.
* `UAnimSequence*` keys are natural numbers (object identity); the objects live in a heap list.
* `FName` is `String`, `INDEX_NONE` is `-1`, `int32` is `Int`.  The frame indices that
  `GetContactTimeFromTurning` keeps in a `float` (`TurningPoints`, `t`) are integers here; they
  are the same values for every index below `2 ^ 24`.
* `RefreshCacheData` and `RefreshSyncMarkerDataFromAuthored` are engine code: on an animation
  whose markers and events all point at existing tracks they rebuild derived data and may
  reorder the authored lists.  The embedding keeps the authored lists in insertion order and
  treats both calls as the identity.
* A method that can leave this model (a failed bounds check, a ratio with no rational value)
  returns `Option`, and `none` is propagated by its callers.
-/

/-! ## Data model (`AnimCurveTool.h`) -/

/-- The movement direction tag: `enum Direction {l, r, f, b, lf, rf, lb, rb}`. -/
inductive Direction where
  | l | r | f | b | lf | rf | lb | rb
deriving DecidableEq, Repr

/-- The struct `FootInterval`: a reference interval between two foot contacts. -/
structure FootInterval where
  Left : ℚ
  Right : ℚ
  IsOrderLeftRight : Bool
  IsWrapped : Bool
deriving DecidableEq, Repr

/-- The constructor `FootInterval(LeftSide, RightSide, Order)`. -/
def FootInterval.new (LeftSide RightSide : ℚ) (Order : Bool) : FootInterval :=
  { Left := LeftSide, Right := RightSide, IsOrderLeftRight := Order,
    IsWrapped := decide (LeftSide > RightSide) }

/-- The class `SGMarkerReference`.  `PlayLength` stands for `AnimSequence->GetPlayLength()`,
the only thing the interval arithmetic reads from the animation. -/
structure SGMarkerReference where
  PlayLength : ℚ
  Dir : Direction
  bIsValid : Bool
  LeftMarkers : List ℚ
  RightMarkers : List ℚ
  Intervals : List FootInterval
deriving DecidableEq, Repr

/-! ## Construction of a reference (`SGMarkerReference::SGMarkerReference`) -/

/-- The loop of the branch `LeftMarkers[0] < RightMarkers[0]` (lines 47-59). -/
def SGMarkerReference.loopLeftFirst (LeftMarkers RightMarkers : List ℚ) : List FootInterval :=
  (List.range LeftMarkers.length).foldl (fun Intervals i =>
    let Intervals :=
      Intervals ++ [FootInterval.new (LeftMarkers.getD i 0) (RightMarkers.getD i 0) true]
    if i = LeftMarkers.length - 1 then
      Intervals ++ [FootInterval.new (RightMarkers.getD i 0) (LeftMarkers.getD 0 0) false]
    else
      Intervals ++ [FootInterval.new (RightMarkers.getD i 0) (LeftMarkers.getD (i + 1) 0) false])
    []

/-- The loop of the other branch (lines 63-75). -/
def SGMarkerReference.loopRightFirst (LeftMarkers RightMarkers : List ℚ) : List FootInterval :=
  (List.range LeftMarkers.length).foldl (fun Intervals i =>
    let Intervals :=
      Intervals ++ [FootInterval.new (RightMarkers.getD i 0) (LeftMarkers.getD i 0) false]
    if i = LeftMarkers.length - 1 then
      Intervals ++ [FootInterval.new (LeftMarkers.getD i 0) (RightMarkers.getD 0 0) true]
    else
      Intervals ++ [FootInterval.new (LeftMarkers.getD i 0) (RightMarkers.getD (i + 1) 0) true])
    []

/-- The constructor `SGMarkerReference::SGMarkerReference`, from the point where the two calls
of `GetContactTimeFromTurning` have returned `LeftContacts` and `RightContacts`: both lists are
sorted, the validity test is made, and the intervals are built. -/
def SGMarkerReference.construct (PlayLength : ℚ) (Dir : Direction)
    (LeftContacts RightContacts : List ℚ) : SGMarkerReference :=
  let LeftMarkers := LeftContacts.insertionSort (· ≤ ·)
  let RightMarkers := RightContacts.insertionSort (· ≤ ·)
  if LeftMarkers.length = 0 ∨ RightMarkers.length = 0
      ∨ LeftMarkers.length ≠ RightMarkers.length then
    { PlayLength := PlayLength, Dir := Dir, bIsValid := false,
      LeftMarkers := LeftMarkers, RightMarkers := RightMarkers, Intervals := [] }
  else
    { PlayLength := PlayLength, Dir := Dir, bIsValid := true,
      LeftMarkers := LeftMarkers, RightMarkers := RightMarkers,
      Intervals :=
        if LeftMarkers.getD 0 0 < RightMarkers.getD 0 0 then
          SGMarkerReference.loopLeftFirst LeftMarkers RightMarkers
        else
          SGMarkerReference.loopRightFirst LeftMarkers RightMarkers }

/-! ## The arithmetic of `float` -/

/-- Rounding of a rational to the nearest integer, a tie going to the even one. -/
def roundHalfEven (q : ℚ) : Int :=
  if q - ⌊q⌋ < 1 / 2 then ⌊q⌋
  else if 1 / 2 < q - ⌊q⌋ then ⌊q⌋ + 1
  else if ⌊q⌋ % 2 = 0 then ⌊q⌋ else ⌊q⌋ + 1

/-- The power `2 ^ k` for an integer exponent. -/
def twoPow (k : Int) : ℚ :=
  if 0 ≤ k then (2 : ℚ) ^ k.toNat else 1 / (2 : ℚ) ^ (-k).toNat

/-- The number of binary digits of `n`, by halving at most `fuel` times. -/
def bitLength : Nat → Nat → Nat
  | 0, _ => 0
  | fuel + 1, n => if n = 0 then 0 else bitLength fuel (n / 2) + 1

/-- The binary exponent of a non-zero rational: the `e` with `2 ^ e ≤ |q| < 2 ^ (e + 1)`. -/
def binaryExponent (q : ℚ) : Int :=
  let e := (bitLength q.num.natAbs q.num.natAbs : Int) - (bitLength q.den q.den : Int)
  if twoPow e ≤ |q| then e else e - 1

/-- The `float` nearest to a rational: IEEE 754 binary32 (24 significant bits, least exponent
`-126`, gradual underflow), rounded to nearest with ties to even, as the result of a C++
`float` operation on `float` operands is.  Beyond the largest finite `float` the program holds
an infinity; here the value is still rounded to 24 bits, which compares with every finite value
as the infinity does. -/
def roundFloat32 (q : ℚ) : ℚ :=
  if q = 0 then 0
  else
    let e := max (binaryExponent q) (-126)
    (roundHalfEven (q / twoPow (e - 23)) : ℚ) * twoPow (e - 23)

/-! ## Time to phase ratio and back -/

/-- Division of two floats inside the rationals: no value when the divisor is zero. -/
def floatDiv (a b : ℚ) : Option ℚ :=
  if b = 0 then none else some (a / b)

/-- The scan of `GetRatioFromTime` (lines 125-134): start from the last interval, and let every
interval that strictly contains `Time` overwrite the target.  No value on an empty list. -/
def SGMarkerReference.findTarget (self : SGMarkerReference) (Time : ℚ) : Option FootInterval :=
  match self.Intervals.getLast? with
  | none => none
  | some last =>
    some (self.Intervals.foldl (fun target interval =>
      if Time > interval.Left ∧ Time < interval.Right then interval else target) last)

/-- The ratio computed from the target interval (lines 137-148). -/
def SGMarkerReference.ratioIn (self : SGMarkerReference) (target : FootInterval) (Time : ℚ) :
    Option (ℚ × Bool) :=
  if !target.IsWrapped then
    (floatDiv (Time - target.Left) (target.Right - target.Left)).map
      (fun RefRatio => (RefRatio, target.IsOrderLeftRight))
  else
    let Time := if Time < target.Left then Time + self.PlayLength else Time
    (floatDiv (Time - target.Left) (target.Right + self.PlayLength - target.Left)).map
      (fun RefRatio => (RefRatio, target.IsOrderLeftRight))

/-- The method `SGMarkerReference::GetRatioFromTime`; the pair is `(RefRatio, IsOrderLeftRight)`. -/
def SGMarkerReference.GetRatioFromTime (self : SGMarkerReference) (Time : ℚ) :
    Option (ℚ × Bool) :=
  match self.findTarget Time with
  | none => none
  | some target => self.ratioIn target Time

/-- The method `SGMarkerReference::GetTimeFromRatio`; the result is the array `Time`. -/
def SGMarkerReference.GetTimeFromRatio (self : SGMarkerReference) (RefRatio : ℚ)
    (IsOrderLeftRight : Bool) : List ℚ :=
  let Len := self.PlayLength
  self.Intervals.foldl (fun Time Interval =>
    if Interval.IsOrderLeftRight = IsOrderLeftRight then
      if !Interval.IsWrapped then
        Time ++ [Interval.Left + (Interval.Right - Interval.Left) * RefRatio]
      else
        let Loc := Interval.Left + (Interval.Right - Interval.Left + Len) * RefRatio
        Time ++ [if Loc > Len then Loc - Len else Loc]
    else Time) []

/-! ## The same two methods with rounded arithmetic

`fl` is the rounding applied to the result of every addition, subtraction, multiplication and
division, in the order in which the C++ expressions perform them (one rounding per operation:
no fused multiply-add and no wider intermediate format); `fl := roundFloat32` is the program,
and `fl := id` gives back the exact methods above. -/

/-- The ratio computed from the target interval (lines 137-148), every operation rounded. -/
def SGMarkerReference.ratioInRounded (fl : ℚ → ℚ) (self : SGMarkerReference)
    (target : FootInterval) (Time : ℚ) : Option (ℚ × Bool) :=
  if !target.IsWrapped then
    (floatDiv (fl (Time - target.Left)) (fl (target.Right - target.Left))).map
      (fun RefRatio => (fl RefRatio, target.IsOrderLeftRight))
  else
    let Time := if Time < target.Left then fl (Time + self.PlayLength) else Time
    (floatDiv (fl (Time - target.Left))
        (fl (fl (target.Right + self.PlayLength) - target.Left))).map
      (fun RefRatio => (fl RefRatio, target.IsOrderLeftRight))

/-- The method `SGMarkerReference::GetRatioFromTime`, every operation rounded. -/
def SGMarkerReference.GetRatioFromTimeRounded (fl : ℚ → ℚ) (self : SGMarkerReference)
    (Time : ℚ) : Option (ℚ × Bool) :=
  match self.findTarget Time with
  | none => none
  | some target => self.ratioInRounded fl target Time

/-- The method `SGMarkerReference::GetTimeFromRatio`, every operation rounded. -/
def SGMarkerReference.GetTimeFromRatioRounded (fl : ℚ → ℚ) (self : SGMarkerReference)
    (RefRatio : ℚ) (IsOrderLeftRight : Bool) : List ℚ :=
  let Len := self.PlayLength
  self.Intervals.foldl (fun Time Interval =>
    if Interval.IsOrderLeftRight = IsOrderLeftRight then
      if !Interval.IsWrapped then
        Time ++ [fl (Interval.Left + fl (fl (Interval.Right - Interval.Left) * RefRatio))]
      else
        let Loc :=
          fl (Interval.Left + fl (fl (fl (Interval.Right - Interval.Left) + Len) * RefRatio))
        Time ++ [if Loc > Len then fl (Loc - Len) else Loc]
    else Time) []

/-! ## Reading aids for the loops -/

/-- The two intervals emitted at step `i` of the left-first loop. -/
def SGMarkerReference.stepLeftFirst (L R : List ℚ) (i : Nat) : List FootInterval :=
  [FootInterval.new (L.getD i 0) (R.getD i 0) true,
   FootInterval.new (R.getD i 0) (L.getD (if i = L.length - 1 then 0 else i + 1) 0) false]

/-- The two intervals emitted at step `i` of the right-first loop. -/
def SGMarkerReference.stepRightFirst (L R : List ℚ) (i : Nat) : List FootInterval :=
  [FootInterval.new (R.getD i 0) (L.getD i 0) false,
   FootInterval.new (L.getD i 0) (R.getD (if i = L.length - 1 then 0 else i + 1) 0) true]

/-- The candidate time of one interval, in the words of the specification of `PhaseToTimes`:
non-wrapped `Left + (Right - Left) * ratio`; wrapped `Left + (Right - Left + duration) * ratio`,
reduced by `duration` when the result exceeds it. -/
def specCandidateTime (duration ratio : ℚ) (iv : FootInterval) : ℚ :=
  if iv.IsWrapped then
    if iv.Left + (iv.Right - iv.Left + duration) * ratio > duration then
      iv.Left + (iv.Right - iv.Left + duration) * ratio - duration
    else
      iv.Left + (iv.Right - iv.Left + duration) * ratio
  else
    iv.Left + (iv.Right - iv.Left) * ratio

/-- Every interval of the reference was made by the constructor of `FootInterval`, the only way
the program makes one: the wrap flag is the comparison of the two bounds. -/
def SGMarkerReference.IntervalsConstructed (self : SGMarkerReference) : Prop :=
  ∀ iv ∈ self.Intervals, iv.IsWrapped = decide (iv.Left > iv.Right)

instance (self : SGMarkerReference) : Decidable self.IntervalsConstructed :=
  inferInstanceAs (Decidable (∀ iv ∈ self.Intervals, iv.IsWrapped = decide (iv.Left > iv.Right)))

/-- The contact times of the two feet in the order of the loop: `A[0], B[0], A[1], B[1], ...`. -/
def interleave (A B : List ℚ) : List ℚ :=
  (A.zip B).flatMap (fun p => [p.1, p.2])

/-- The intervals of one loop of the constructor, by recursion on the two marker lists: the
foot `A` leads, `o` is the order flag of the intervals from `A` to `B`, and `first` closes the
cycle after the last marker of `B`. -/
def cycleFrom (o : Bool) (first : ℚ) : List ℚ → List ℚ → List FootInterval
  | [], _ => []
  | a :: A, B =>
    FootInterval.new a (B.getD 0 0) o
      :: FootInterval.new (B.getD 0 0) (A.headD first) (!o)
      :: cycleFrom o first A B.tail

/-- The reading of an interval as a set of times used by the tiling property: a non-wrapped
interval is `[Left, Right)`, a wrapped one is `[Left, duration) ∪ [0, Right)`. -/
def FootInterval.covers (duration : ℚ) (iv : FootInterval) (t : ℚ) : Bool :=
  if iv.IsWrapped then
    decide ((iv.Left ≤ t ∧ t < duration) ∨ (0 ≤ t ∧ t < iv.Right))
  else
    decide (iv.Left ≤ t ∧ t < iv.Right)

/-! ## Animations, tracks, markers and events -/

/-- The engine struct `FAnimSyncMarker`, with the members the tool reads and writes. -/
structure FAnimSyncMarker where
  MarkerName : String
  Time : ℚ
  TrackIndex : Int
deriving DecidableEq, Repr

/-- The engine struct `FAnimNotifyEvent`: `NotifyClass` stands for `Notify->GetClass()` and
`Time` for `GetTime()`, the time it was linked at. -/
structure FAnimNotifyEvent where
  NotifyClass : String
  Time : ℚ
  TrackIndex : Int
deriving DecidableEq, Repr

/-- The engine class `UAnimSequence`, with the members the tool reads and writes.  A notify track
is represented by its `TrackName`. -/
structure UAnimSequence where
  Name : String
  SequenceLength : ℚ
  AnimNotifyTracks : List String
  AuthoredSyncMarkers : List FAnimSyncMarker
  Notifies : List FAnimNotifyEvent
deriving DecidableEq, Repr

/-- The constant `INDEX_NONE`. -/
def INDEX_NONE : Int := -1

/-- The engine function `FMath::IsNearlyEqual(A, B, ErrorTolerance)`. -/
def IsNearlyEqual (A B ErrorTolerance : ℚ) : Bool :=
  decide (|A - B| ≤ ErrorTolerance)

/-- The engine function `FMath::IsWithinInclusive(TestValue, MinValue, MaxValue)`. -/
def IsWithinInclusive (TestValue MinValue MaxValue : ℚ) : Bool :=
  decide (MinValue ≤ TestValue ∧ TestValue ≤ MaxValue)

/-- The method `FAnimCurveToolModule::GetTrackIndexForAnimationNotifyTrackName`: the index of the
first track of that name, or `INDEX_NONE`. -/
def GetTrackIndexForAnimationNotifyTrackName (AnimationSequence : UAnimSequence)
    (NotifyTrackName : String) : Int :=
  match AnimationSequence.AnimNotifyTracks.findIdx? (fun Track => Track == NotifyTrackName) with
  | some i => (i : Int)
  | none => INDEX_NONE

/-- The method `FAnimCurveToolModule::RemoveAnimationNotifyTrack`. -/
def RemoveAnimationNotifyTrack (AnimationSequence : UAnimSequence) (NotifyTrackName : String) :
    UAnimSequence :=
  let TrackIndexToDelete :=
    GetTrackIndexForAnimationNotifyTrackName AnimationSequence NotifyTrackName
  if TrackIndexToDelete ≠ INDEX_NONE then
    let Notifies := AnimationSequence.Notifies.filter
      (fun Notify => !(Notify.TrackIndex == TrackIndexToDelete))
    let AuthoredSyncMarkers := AnimationSequence.AuthoredSyncMarkers.filter
      (fun Marker => !(Marker.TrackIndex == TrackIndexToDelete))
    let Notifies := Notifies.map (fun Notify =>
      if Notify.TrackIndex > TrackIndexToDelete then
        { Notify with TrackIndex := Notify.TrackIndex - 1 }
      else Notify)
    let AuthoredSyncMarkers := AuthoredSyncMarkers.map (fun SyncMarker =>
      if SyncMarker.TrackIndex > TrackIndexToDelete then
        { SyncMarker with TrackIndex := SyncMarker.TrackIndex - 1 }
      else SyncMarker)
    { AnimationSequence with
      Notifies := Notifies
      AuthoredSyncMarkers := AuthoredSyncMarkers
      AnimNotifyTracks := AnimationSequence.AnimNotifyTracks.eraseIdx TrackIndexToDelete.toNat }
  else
    AnimationSequence

/-- The method `FAnimCurveToolModule::AddAnimationNotifyTrack` (the colour is not kept). -/
def AddAnimationNotifyTrack (AnimationSequence : UAnimSequence) (NotifyTrackName : String) :
    UAnimSequence :=
  let AnimationSequence :=
    if GetTrackIndexForAnimationNotifyTrackName AnimationSequence NotifyTrackName ≠ INDEX_NONE
    then RemoveAnimationNotifyTrack AnimationSequence NotifyTrackName
    else AnimationSequence
  { AnimationSequence with
    AnimNotifyTracks := AnimationSequence.AnimNotifyTracks ++ [NotifyTrackName] }

/-- The method `FAnimCurveToolModule::AddAnimationSyncMarker`.  It indexes `AnimNotifyTracks` by
the track index of the new marker, so there is no result when the named track is missing. -/
def AddAnimationSyncMarker (AnimationSequence : UAnimSequence) (MarkerName : String) (Time : ℚ)
    (TrackName : String) : Option UAnimSequence :=
  if IsWithinInclusive Time 0 AnimationSequence.SequenceLength then
    let TrackIndex := GetTrackIndexForAnimationNotifyTrackName AnimationSequence TrackName
    if TrackIndex = INDEX_NONE then none
    else
      some { AnimationSequence with
        AuthoredSyncMarkers := AnimationSequence.AuthoredSyncMarkers ++
          [{ MarkerName := MarkerName, Time := Time, TrackIndex := TrackIndex }] }
  else
    some AnimationSequence

/-- The method `FAnimCurveToolModule::AddContactMarker`. -/
def AddContactMarker (AnimSequence : UAnimSequence) (TrackName MarkerName : String)
    (MarkerTime : ℚ) : Option UAnimSequence :=
  let AnimSequence :=
    if GetTrackIndexForAnimationNotifyTrackName AnimSequence TrackName ≠ INDEX_NONE
    then AnimSequence
    else AddAnimationNotifyTrack AnimSequence TrackName
  AddAnimationSyncMarker AnimSequence MarkerName MarkerTime TrackName

/-- The method `FAnimCurveToolModule::AddAnimationNotifyEvent`, as far as the sequence goes. -/
def AddAnimationNotifyEvent (AnimationSequence : UAnimSequence) (NotifyTrackName : String)
    (StartTime : ℚ) (NotifyClass : String) : UAnimSequence :=
  let bIsValidTrackName :=
    GetTrackIndexForAnimationNotifyTrackName AnimationSequence NotifyTrackName ≠ INDEX_NONE
  let bIsValidTime := IsWithinInclusive StartTime 0 AnimationSequence.SequenceLength
  if bIsValidTrackName ∧ bIsValidTime = true then
    { AnimationSequence with
      Notifies := AnimationSequence.Notifies ++
        [{ NotifyClass := NotifyClass, Time := StartTime,
           TrackIndex :=
             GetTrackIndexForAnimationNotifyTrackName AnimationSequence NotifyTrackName }] }
  else
    AnimationSequence

/-! ## Transplantation (`FAnimCurveToolModule::SyncReferenceGroup`) -/

/-- The class `FAnimCurveToolModule`, with the members the reference group uses: the two foot
bone names and the selected animations (addresses), with the values `InitializeMembers` and the
default constructors give them, and the map `AnimReferenceGroup`, in iteration order, keyed by
the address of the animation. -/
structure FAnimCurveToolModule where
  FootLeft : String := "LeftToeBase"
  FootRight : String := "RightToeBase"
  SelectedAnimGroup : List Nat := []
  AnimReferenceGroup : List (Nat × SGMarkerReference) := []
deriving DecidableEq, Repr

/-- The inner loop over `SyncTime` for one source marker (lines 1112-1123). -/
def syncMarkerTimes (TrackIndex : Int) (TrackName MarkerName : String) (SyncTime : List ℚ)
    (Anim : UAnimSequence) : Option UAnimSequence :=
  SyncTime.foldlM (fun Anim Time =>
    let ExistedAtTime := Anim.AuthoredSyncMarkers.foldl (fun ExistedAtTime s =>
      if s.TrackIndex = TrackIndex then ExistedAtTime || IsNearlyEqual s.Time Time (1 / 100)
      else ExistedAtTime) false
    if !ExistedAtTime then AddContactMarker Anim TrackName MarkerName Time
    else some Anim) Anim

/-- The inner loop over `SyncTime` for one source event (lines 1133-1144). -/
def syncNotifyTimes (TrackIndex : Int) (TrackName NotifyClass : String) (SyncTime : List ℚ)
    (Anim : UAnimSequence) : UAnimSequence :=
  SyncTime.foldl (fun Anim Time =>
    let ExistedAtTime := Anim.Notifies.foldl (fun ExistedAtTime n =>
      if n.TrackIndex = TrackIndex then ExistedAtTime || IsNearlyEqual n.Time Time (1 / 100)
      else ExistedAtTime) false
    if !ExistedAtTime then AddAnimationNotifyEvent Anim TrackName Time NotifyClass
    else Anim) Anim

/-- The body of the loop over the group for one target animation (lines 1095-1146);
`RefReference` is `AnimReferenceGroup[RefAnimSequence]` and `Reference` is
`AnimReferenceGroup[Anim.Key]`. -/
def syncOneAnimation (RefReference Reference : SGMarkerReference) (TrackIndex : Int)
    (TrackName : String) (AllMarkers : List FAnimSyncMarker) (AllNotifies : List FAnimNotifyEvent)
    (Anim : UAnimSequence) : Option UAnimSequence := do
  let Anim : UAnimSequence :=
    { Anim with
      Notifies := Anim.Notifies.filter (fun Notify => !(Notify.TrackIndex == TrackIndex))
      AuthoredSyncMarkers :=
        Anim.AuthoredSyncMarkers.filter (fun Marker => !(Marker.TrackIndex == TrackIndex)) }
  let Anim ← AllMarkers.foldlM (fun Anim m => do
    let (RefRatio, bOrderIsLeftRight) ← RefReference.GetRatioFromTime m.Time
    let SyncTime := Reference.GetTimeFromRatio RefRatio bOrderIsLeftRight
    syncMarkerTimes TrackIndex TrackName m.MarkerName SyncTime Anim) Anim
  AllNotifies.foldlM (fun Anim e => do
    let (RefRatio, bOrderIsLeftRight) ← RefReference.GetRatioFromTime e.Time
    let SyncTime := Reference.GetTimeFromRatio RefRatio bOrderIsLeftRight
    pure (syncNotifyTimes TrackIndex TrackName e.NotifyClass SyncTime Anim)) Anim

/-- The method `FAnimCurveToolModule::SyncReferenceGroup`.  `Heap` holds the animation objects,
an address being a position in it; the result is the heap after the call.  There is no result
when an address of the group is not in the heap, or when a step has none. -/
def FAnimCurveToolModule.SyncReferenceGroup (self : FAnimCurveToolModule)
    (Heap : List UAnimSequence) (RefAnimSequence : Nat) (TrackName : String) :
    Option (List UAnimSequence) :=
  match self.AnimReferenceGroup.lookup RefAnimSequence with
  | none => some Heap
  | some RefReference =>
    match Heap[RefAnimSequence]? with
    | none => none
    | some RefAnim =>
      if GetTrackIndexForAnimationNotifyTrackName RefAnim TrackName = INDEX_NONE then some Heap
      else
        let TrackIndex := GetTrackIndexForAnimationNotifyTrackName RefAnim TrackName
        let AllMarkers := RefAnim.AuthoredSyncMarkers.filter (fun m => m.TrackIndex == TrackIndex)
        let AllNotifies := RefAnim.Notifies.filter (fun e => e.TrackIndex == TrackIndex)
        self.AnimReferenceGroup.foldlM (fun Heap Anim =>
          match Heap[Anim.1]? with
          | none => none
          | some Target =>
            (syncOneAnimation RefReference Anim.2 TrackIndex TrackName AllMarkers AllNotifies
              Target).map (fun Target => Heap.set Anim.1 Target)) Heap

/-! ## Concrete animations used in the evaluations below -/

/-- The reference of the wrap example: contacts `[1, 5]` and `[3, 7]`, play length `8`. -/
def walkReference : SGMarkerReference :=
  SGMarkerReference.construct 8 Direction.f [1, 5] [3, 7]

/-- A source animation with one track `T` carrying a marker and an event in each of its two
left-then-right intervals, both at ratio one half. -/
def twoCycleSource : UAnimSequence :=
  { Name := "Walk_F", SequenceLength := 8, AnimNotifyTracks := ["T"],
    AuthoredSyncMarkers :=
      [{ MarkerName := "m", Time := 2, TrackIndex := 0 },
       { MarkerName := "m", Time := 6, TrackIndex := 0 }],
    Notifies :=
      [{ NotifyClass := "c", Time := 2, TrackIndex := 0 },
       { NotifyClass := "c", Time := 6, TrackIndex := 0 }] }

/-- A source animation with one track `T` carrying one marker and one event. -/
def oneMarkerSource : UAnimSequence :=
  { Name := "Walk_F", SequenceLength := 8, AnimNotifyTracks := ["T"],
    AuthoredSyncMarkers := [{ MarkerName := "m", Time := 2, TrackIndex := 0 }],
    Notifies := [{ NotifyClass := "c", Time := 2, TrackIndex := 0 }] }

/-- A target animation whose track `T` is its second track, with no marker and no event. -/
def shiftedTarget : UAnimSequence :=
  { Name := "Run_F", SequenceLength := 8, AnimNotifyTracks := ["A", "T"],
    AuthoredSyncMarkers := [], Notifies := [] }

/-- A group of two animations, at the addresses `0` and `1`, with the same reference. -/
def twoAnimationModule : FAnimCurveToolModule :=
  { AnimReferenceGroup := [(0, walkReference), (1, walkReference)] }

/-! ## Reading aids for the track indices -/

/-- The track index of a marker or event after the track at index `k` is removed, for an index
other than `k`: one less when it is greater than `k`, the same otherwise. -/
def shiftTrackIndex (k i : Int) : Int :=
  if i > k then i - 1 else i

/-- The name of the track that the track index `i` refers to, if there is one. -/
def UAnimSequence.trackNameAt (self : UAnimSequence) (i : Int) : Option String :=
  if 0 ≤ i then self.AnimNotifyTracks[i.toNat]? else none

/-- An animation with three tracks, each carrying one marker and one event. -/
def threeTrackAnimation : UAnimSequence :=
  { Name := "Walk_F", SequenceLength := 8, AnimNotifyTracks := ["A", "T", "B"],
    AuthoredSyncMarkers :=
      [{ MarkerName := "a", Time := 1, TrackIndex := 0 },
       { MarkerName := "t", Time := 2, TrackIndex := 1 },
       { MarkerName := "b", Time := 3, TrackIndex := 2 }],
    Notifies :=
      [{ NotifyClass := "a", Time := 1, TrackIndex := 0 },
       { NotifyClass := "t", Time := 2, TrackIndex := 1 },
       { NotifyClass := "b", Time := 3, TrackIndex := 2 }] }

/-! ## Direction of an animation (`SGMarkerReference::GetAnimDirection`) -/

/-- The engine method `FString::EndsWith(InSuffix)` for a non-empty suffix, with its default
search case `ESearchCase::IgnoreCase`. -/
def FString.EndsWith (self InSuffix : String) : Bool :=
  (InSuffix.data.map Char.toUpper).isSuffixOf (self.data.map Char.toUpper)

/-- The method `SGMarkerReference::GetAnimDirection`, from the name of the animation
(`AnimSequence->GetName()`). -/
def SGMarkerReference.GetAnimDirection (AnimName : String) : Direction :=
  if FString.EndsWith AnimName "FL" then Direction.lf
  else if FString.EndsWith AnimName "FR" then Direction.rf
  else if FString.EndsWith AnimName "BL" then Direction.lb
  else if FString.EndsWith AnimName "BR" then Direction.rb
  else if FString.EndsWith AnimName "F" then Direction.f
  else if FString.EndsWith AnimName "B" then Direction.b
  else if FString.EndsWith AnimName "R" then Direction.r
  else if FString.EndsWith AnimName "L" then Direction.l
  else Direction.f

/-! ## Reading aids for the phase of a time -/

/-- The length of an interval as `GetRatioFromTime` divides by it (lines 139 and 146):
`Right - Left`, and `Right + duration - Left` for a wrapped interval. -/
def FootInterval.span (duration : ℚ) (iv : FootInterval) : ℚ :=
  if iv.IsWrapped then iv.Right + duration - iv.Left else iv.Right - iv.Left

/-- A time lies inside an interval: `Left ≤ t < Right` for a non-wrapped interval, `t ≥ Left` or
`t < Right` for a wrapped one. -/
def FootInterval.inside (iv : FootInterval) (t : ℚ) : Bool :=
  if iv.IsWrapped then decide (t ≥ iv.Left ∨ t < iv.Right)
  else decide (iv.Left ≤ t ∧ t < iv.Right)

/-- A target animation whose track `T` is its second track and already carries a marker and an
event at time `4`. -/
def staleTarget : UAnimSequence :=
  { Name := "Run_F", SequenceLength := 8, AnimNotifyTracks := ["A", "T"],
    AuthoredSyncMarkers := [{ MarkerName := "old", Time := 4, TrackIndex := 1 }],
    Notifies := [{ NotifyClass := "old", Time := 4, TrackIndex := 1 }] }

/-! ## Filling and clearing the reference group -/

/-- What the construction of a reference reads besides the members of `UAnimSequence` kept
here: the raw bone index of a bone in the skeleton of the animation (engine data), and the
contact times that `SGMarkerReference::GetContactTimeFromTurning` returns for a bone, given the
direction tag of the reference. -/
structure ContactDetection where
  FindRawBoneIndex : UAnimSequence → String → Int
  GetContactTimeFromTurning : Direction → UAnimSequence → String → List ℚ

/-- The constructor `SGMarkerReference::SGMarkerReference(Anim, LeftFoot, RightFoot)` as a
whole: direction tag, the two detections, then `construct`. -/
def SGMarkerReference.fromAnimation (Detection : ContactDetection) (Anim : UAnimSequence)
    (LeftFoot RightFoot : String) : SGMarkerReference :=
  let Dir := SGMarkerReference.GetAnimDirection Anim.Name
  SGMarkerReference.construct Anim.SequenceLength Dir
    (Detection.GetContactTimeFromTurning Dir Anim LeftFoot)
    (Detection.GetContactTimeFromTurning Dir Anim RightFoot)

/-- The body of the loop of `AddToReferenceGroup` for one animation (lines 1016-1034).  There is
no result when the address is not in the heap. -/
def FAnimCurveToolModule.addOneReference (self : FAnimCurveToolModule)
    (Detection : ContactDetection) (Heap : List UAnimSequence)
    (ReferenceGroup : List (Nat × SGMarkerReference)) (Anim : Nat) :
    Option (List (Nat × SGMarkerReference)) :=
  if ReferenceGroup.lookup Anim = none then
    match Heap[Anim]? with
    | none => none
    | some AnimObject =>
      if Detection.FindRawBoneIndex AnimObject self.FootLeft = INDEX_NONE then
        some ReferenceGroup
      else if Detection.FindRawBoneIndex AnimObject self.FootRight = INDEX_NONE then
        some ReferenceGroup
      else
        let ref :=
          SGMarkerReference.fromAnimation Detection AnimObject self.FootLeft self.FootRight
        if ref.bIsValid then some (ReferenceGroup ++ [(Anim, ref)])
        else some ReferenceGroup
  else some ReferenceGroup

/-- The method `FAnimCurveToolModule::AddToReferenceGroup`, on the map it is given; the update
of the preview text is left out. -/
def FAnimCurveToolModule.AddToReferenceGroup (self : FAnimCurveToolModule)
    (Detection : ContactDetection) (Heap : List UAnimSequence) (AnimSequences : List Nat)
    (ReferenceGroup : List (Nat × SGMarkerReference)) :
    Option (List (Nat × SGMarkerReference)) :=
  AnimSequences.foldlM (self.addOneReference Detection Heap) ReferenceGroup

/-- The method `FAnimCurveToolModule::AddAllReferenceGroup`. -/
def FAnimCurveToolModule.AddAllReferenceGroup (self : FAnimCurveToolModule)
    (Detection : ContactDetection) (Heap : List UAnimSequence) : Option FAnimCurveToolModule :=
  (self.AddToReferenceGroup Detection Heap self.SelectedAnimGroup self.AnimReferenceGroup).map
    (fun ReferenceGroup => { self with AnimReferenceGroup := ReferenceGroup })

/-- The method `FAnimCurveToolModule::ClearReferenceGroup`. -/
def FAnimCurveToolModule.ClearReferenceGroup (self : FAnimCurveToolModule) :
    FAnimCurveToolModule :=
  { self with AnimReferenceGroup := [] }

/-- Every reference stored in the reference-group map is valid. -/
def FAnimCurveToolModule.AllReferencesValid (self : FAnimCurveToolModule) : Prop :=
  ∀ entry ∈ self.AnimReferenceGroup, entry.2.bIsValid = true

instance (self : FAnimCurveToolModule) : Decidable self.AllReferencesValid :=
  inferInstanceAs (Decidable (∀ entry ∈ self.AnimReferenceGroup, entry.2.bIsValid = true))

/-- A detection for the evaluations: every bone exists; the animation `Walk_F` has the contacts
`[1, 5]` on the left foot and `[3, 7]` on the right foot, any other animation has none. -/
def walkOnlyDetection : ContactDetection :=
  { FindRawBoneIndex := fun _ _ => 0,
    GetContactTimeFromTurning := fun _ Anim BoneName =>
      if Anim.Name = "Walk_F" then (if BoneName = "LeftToeBase" then [1, 5] else [3, 7])
      else [] }

/-! ## Contact detection (`SGMarkerReference::GetContactTimeFromTurning`) -/

/-- The engine struct `FVector`, the location of a bone transform. -/
structure FVector where
  X : ℚ
  Y : ℚ
  Z : ℚ
deriving DecidableEq, Repr

/-- The method `SGMarkerReference::IsTurningPoint`, on the locations of the three transforms;
`Dir` is the member of the reference. -/
def SGMarkerReference.IsTurningPoint (Dir : Direction) (l c n : FVector) : Bool :=
  if Dir = Direction.l then
    decide (l.X < c.X ∧ c.X > n.X)
  else if Dir = Direction.r then
    decide (l.X > c.X ∧ c.X < n.X)
  else if Dir = Direction.f ∨ Dir = Direction.lf ∨ Dir = Direction.rf then
    decide (l.Y < c.Y ∧ c.Y > n.Y)
  else
    decide (l.Y > c.Y ∧ c.Y < n.Y)

/-- What the detection reads from an animation: `GetNumberOfFrames()`, `GetTimeAtFrame(Frame)`
(engine), and the location of `GetBoneTMRelativeToRoot(AnimationSequence, BoneName, Frame)`. -/
structure FrameData where
  GetNumberOfFrames : UAnimSequence → Int
  GetTimeAtFrame : UAnimSequence → Int → ℚ
  BoneLocation : UAnimSequence → String → Int → FVector

/-- The first loop of `GetContactTimeFromTurning` (lines 186-199): the array `TurningPoints`,
`NumFrame` being `GetNumberOfFrames() - 1` and `Location` the bone location at a frame. -/
def SGMarkerReference.turningPoints (Dir : Direction) (NumFrame : Int) (Location : Int → FVector) :
    List Int :=
  (List.range NumFrame.toNat).foldl (fun TurningPoints (i : Nat) =>
    let l : Int := if (i : Int) = 0 then NumFrame - 1 else (i : Int) - 1
    let n : Int := if (i : Int) = NumFrame - 1 then 0 else (i : Int) + 1
    if SGMarkerReference.IsTurningPoint Dir (Location l) (Location i) (Location n) then
      TurningPoints ++ [(i : Int)]
    else TurningPoints) []

/-- The `while (true)` loop of `GetContactTimeFromTurning` (lines 205-223) from the frame `t`,
with at most `fuel` passes through its body: the frame `n` whose time is recorded, if the loop
reaches its `break` within these passes.  `Height` is the `Z` of the bone location; the drop
compared with `Threshold` is the `float` difference of the two heights (line 212). -/
def SGMarkerReference.stabilize (Height : Int → ℚ) (NumFrame : Int) : Nat → Int → Option Int
  | 0, _ => none
  | fuel + 1, t =>
    let n : Int := if t = NumFrame - 1 then 0 else t + 1
    if roundFloat32 (Height t - Height n) < 1 / 4 then some n
    else SGMarkerReference.stabilize Height NumFrame fuel n

/-- The method `SGMarkerReference::GetContactTimeFromTurning`, each `while` loop being given
`fuel` passes. -/
def SGMarkerReference.GetContactTimeFromTurning (Frames : FrameData) (fuel : Nat)
    (Dir : Direction) (AnimationSequence : UAnimSequence) (BoneName : String) :
    Option (List ℚ) :=
  let NumFrame := Frames.GetNumberOfFrames AnimationSequence - 1
  let TurningPoints := SGMarkerReference.turningPoints Dir NumFrame
    (Frames.BoneLocation AnimationSequence BoneName)
  TurningPoints.foldlM (fun Results t =>
    (SGMarkerReference.stabilize (fun k => (Frames.BoneLocation AnimationSequence BoneName k).Z)
      NumFrame fuel t).map
      (fun n => Results ++ [Frames.GetTimeAtFrame AnimationSequence n])) []

/-- The predecessor of a frame in the cycle of `NumFrame` frames (line 188). -/
def prevFrame (NumFrame i : Int) : Int :=
  if i = 0 then NumFrame - 1 else i - 1

/-- The successor of a frame in the cycle of `NumFrame` frames (lines 189 and 207). -/
def nextFrame (NumFrame i : Int) : Int :=
  if i = NumFrame - 1 then 0 else i + 1

/-- The index triples `(l, i, n)` that the first loop of `GetContactTimeFromTurning` computes,
one per pass, for an animation of `NumberOfFrames` frames. -/
def examinedFrames (NumberOfFrames : Int) : List (Int × Int × Int) :=
  (List.range (NumberOfFrames - 1).toNat).map (fun (i : Nat) =>
    (prevFrame (NumberOfFrames - 1) i, (i : Int), nextFrame (NumberOfFrames - 1) i))

/-- Bone locations of an animation of four frames for the evaluations: `Y` is `0, 1, 0, 5` at
the frames `0, 1, 2, 3`, and `X`, `Z` are `0`. -/
def peakAtLastFrame (k : Int) : FVector :=
  if k = 1 then { X := 0, Y := 1, Z := 0 }
  else if k = 3 then { X := 0, Y := 5, Z := 0 }
  else { X := 0, Y := 0, Z := 0 }

/-- Frame heights for the evaluations: `3, 2, 1` at the frames `0, 1, 2`, and `0` elsewhere. -/
def fallingHeights (k : Int) : ℚ :=
  if k = 0 then 3 else if k = 1 then 2 else if k = 2 then 1 else 0

/-- Frame data for the evaluations: five frames at the times `0, 2, 4, 6, 8`, so a cycle of
four frames; the bone moves forward to a peak of `Y` at the frame `1`, and its height is `3`
at the frame `1`, `2` at the frame `2`, and `0` at the frames `3` and `0`. -/
def fourFrameCycle : FrameData :=
  { GetNumberOfFrames := fun _ => 5,
    GetTimeAtFrame := fun _ Frame => 2 * (Frame : ℚ),
    BoneLocation := fun _ _ k =>
      if k = 1 then { X := 0, Y := 1, Z := 3 }
      else if k = 2 then { X := 0, Y := 0, Z := 2 }
      else { X := 0, Y := 0, Z := 0 } }

/-- Frame data for the evaluations, as `fourFrameCycle` but with the heights `0.35f` at the
frame `1` and `0.1f` at the other frames (the `float` values nearest to `0.35` and `0.1`). -/
def quarterDropCycle : FrameData :=
  { GetNumberOfFrames := fun _ => 5,
    GetTimeAtFrame := fun _ Frame => 2 * (Frame : ℚ),
    BoneLocation := fun _ _ k =>
      if k = 1 then { X := 0, Y := 1, Z := 11744051 / 33554432 }
      else { X := 0, Y := 0, Z := 13421773 / 134217728 } }

/-- The detection of `GetContactTimeFromTurning` as the construction of a reference uses it,
every walk being given as many passes as the cycle has frames (this is enough for every walk
to end, so the empty list is never used for a missing result). -/
def ContactDetection.ofFrames (Frames : FrameData)
    (FindRawBoneIndex : UAnimSequence → String → Int) : ContactDetection :=
  { FindRawBoneIndex := FindRawBoneIndex,
    GetContactTimeFromTurning := fun Dir Anim BoneName =>
      (SGMarkerReference.GetContactTimeFromTurning Frames
        (Frames.GetNumberOfFrames Anim - 1).toNat Dir Anim BoneName).getD [] }

/-- A time is contained in an interval, bounds excluded: `Left < t < Right` for a non-wrapped
interval, `t > Left` or `t < Right` for a wrapped one. -/
def FootInterval.strictlyContains (iv : FootInterval) (t : ℚ) : Bool :=
  if iv.IsWrapped then decide (t > iv.Left ∨ t < iv.Right)
  else decide (iv.Left < t ∧ t < iv.Right)

/-- A target animation whose track `T` is its second track; its first track `A` carries a
marker and an event at time `4`. -/
def bystanderTarget : UAnimSequence :=
  { Name := "Run_F", SequenceLength := 8, AnimNotifyTracks := ["A", "T"],
    AuthoredSyncMarkers := [{ MarkerName := "keep", Time := 4, TrackIndex := 0 }],
    Notifies := [{ NotifyClass := "keep", Time := 4, TrackIndex := 0 }] }

/-! ## Auxiliary facts about the loops -/

theorem foldl_append_flatMap {ι α : Type} (f : ι → List α) (l : List ι) (init : List α) :
    l.foldl (fun acc i => acc ++ f i) init = init ++ l.flatMap f := by
  induction l generalizing init with
  | nil => simp
  | cons a l ih => simp [List.foldl_cons, ih, List.flatMap_cons, List.append_assoc]

theorem loopLeftFirst_eq (L R : List ℚ) :
    SGMarkerReference.loopLeftFirst L R
      = (List.range L.length).flatMap (SGMarkerReference.stepLeftFirst L R) := by
  unfold SGMarkerReference.loopLeftFirst
  have h := foldl_append_flatMap (SGMarkerReference.stepLeftFirst L R) (List.range L.length) []
  simp only [List.nil_append] at h
  rw [← h]
  congr 1
  funext acc i
  unfold SGMarkerReference.stepLeftFirst
  by_cases hi : i = L.length - 1 <;> simp [hi]

theorem loopRightFirst_eq (L R : List ℚ) :
    SGMarkerReference.loopRightFirst L R
      = (List.range L.length).flatMap (SGMarkerReference.stepRightFirst L R) := by
  unfold SGMarkerReference.loopRightFirst
  have h := foldl_append_flatMap (SGMarkerReference.stepRightFirst L R) (List.range L.length) []
  simp only [List.nil_append] at h
  rw [← h]
  congr 1
  funext acc i
  unfold SGMarkerReference.stepRightFirst
  by_cases hi : i = L.length - 1 <;> simp [hi]

theorem flatMap_pair_length {ι α : Type} (f g : ι → α) (l : List ι) :
    (l.flatMap (fun a => [f a, g a])).length = 2 * l.length := by
  induction l with
  | nil => simp
  | cons a l ih => simp [List.flatMap_cons, ih]; omega

theorem flatMap_pair_get_even {ι α : Type} (f g : ι → α) (l : List ι) (i : Nat) :
    (l.flatMap (fun a => [f a, g a]))[2 * i]? = (l[i]?).map f := by
  induction l generalizing i with
  | nil => simp
  | cons a l ih =>
    cases i with
    | zero => simp [List.flatMap_cons]
    | succ j =>
      have : 2 * (j + 1) = (2 * j) + 1 + 1 := by omega
      simp [List.flatMap_cons, this, ih]

theorem flatMap_pair_get_odd {ι α : Type} (f g : ι → α) (l : List ι) (i : Nat) :
    (l.flatMap (fun a => [f a, g a]))[2 * i + 1]? = (l[i]?).map g := by
  induction l generalizing i with
  | nil => simp
  | cons a l ih =>
    cases i with
    | zero => simp [List.flatMap_cons]
    | succ j =>
      have : 2 * (j + 1) + 1 = (2 * j + 1) + 1 + 1 := by omega
      simp [List.flatMap_cons, this, ih]

theorem construct_valid (d : ℚ) (dir : Direction) (L R : List ℚ)
    (hL : L.Sorted (· ≤ ·)) (hR : R.Sorted (· ≤ ·)) (hne : L ≠ []) (hlen : L.length = R.length) :
    SGMarkerReference.construct d dir L R =
      { PlayLength := d, Dir := dir, bIsValid := true, LeftMarkers := L, RightMarkers := R,
        Intervals :=
          if L.getD 0 0 < R.getD 0 0 then SGMarkerReference.loopLeftFirst L R
          else SGMarkerReference.loopRightFirst L R } := by
  have hL0 : L.length ≠ 0 := by
    intro h; exact hne (List.length_eq_zero.mp h)
  have hR0 : R.length ≠ 0 := by omega
  unfold SGMarkerReference.construct
  simp only [hL.insertionSort_eq, hR.insertionSort_eq]
  rw [if_neg]
  simp [hL0, hR0, hlen]

/-- C1: for ascending, non-empty contact lists `L` and `R` of equal length `n`, the constructor
emits exactly `2 * n` intervals; when `L[0] < R[0]` they are `(L[i], R[i])` left-then-right at
position `2 * i` and `(R[i], L[(i + 1) mod n])` right-then-left at position `2 * i + 1`, so the
last one is `(R[n-1], L[0])`; otherwise they are `(R[i], L[i])` and `(L[i], R[(i + 1) mod n])`,
the last one being `(L[n-1], R[0])`. -/
theorem construct_intervals_enumerated (d : ℚ) (dir : Direction) (L R : List ℚ)
    (hL : L.Sorted (· ≤ ·)) (hR : R.Sorted (· ≤ ·)) (hne : L ≠ []) (hlen : L.length = R.length) :
    (SGMarkerReference.construct d dir L R).Intervals.length = 2 * L.length ∧
    (L.getD 0 0 < R.getD 0 0 → ∀ i, i < L.length →
      (SGMarkerReference.construct d dir L R).Intervals[2 * i]?
        = some (FootInterval.new (L.getD i 0) (R.getD i 0) true) ∧
      (SGMarkerReference.construct d dir L R).Intervals[2 * i + 1]?
        = some (FootInterval.new (R.getD i 0) (L.getD ((i + 1) % L.length) 0) false)) ∧
    (¬ L.getD 0 0 < R.getD 0 0 → ∀ i, i < L.length →
      (SGMarkerReference.construct d dir L R).Intervals[2 * i]?
        = some (FootInterval.new (R.getD i 0) (L.getD i 0) false) ∧
      (SGMarkerReference.construct d dir L R).Intervals[2 * i + 1]?
        = some (FootInterval.new (L.getD i 0) (R.getD ((i + 1) % R.length) 0) true)) := by
  rw [construct_valid d dir L R hL hR hne hlen]
  have hmod : ∀ i, i < L.length →
      (if i = L.length - 1 then 0 else i + 1) = (i + 1) % L.length := by
    intro i hi
    by_cases h : i = L.length - 1
    · have h1 : L.length - 1 + 1 = L.length := by omega
      rw [if_pos h, h, h1, Nat.mod_self]
    · rw [if_neg h, Nat.mod_eq_of_lt (by omega)]
  refine ⟨?_, ?_, ?_⟩
  · by_cases h : L.getD 0 0 < R.getD 0 0
    · simp only [h, if_true, loopLeftFirst_eq]
      unfold SGMarkerReference.stepLeftFirst
      rw [flatMap_pair_length, List.length_range]
    · simp only [h, if_false, loopRightFirst_eq]
      unfold SGMarkerReference.stepRightFirst
      rw [flatMap_pair_length, List.length_range]
  · intro h i hi
    simp only [h, if_true, loopLeftFirst_eq]
    unfold SGMarkerReference.stepLeftFirst
    rw [flatMap_pair_get_even, flatMap_pair_get_odd, List.getElem?_range hi]
    simp [hmod i hi]
  · intro h i hi
    simp only [h, if_false, loopRightFirst_eq]
    unfold SGMarkerReference.stepRightFirst
    rw [flatMap_pair_get_even, flatMap_pair_get_odd, List.getElem?_range hi]
    rw [← hlen, ← hmod i hi]
    simp

/-- The wrap example of C1: `L = [1, 5]`, `R = [3, 7]` give `(1,3)`, `(3,5)`, `(5,7)`, `(7,1)`,
only the last one wrapped. -/
theorem construct_intervals_enumerated_witness :
    ([1, 5] : List ℚ).Sorted (· ≤ ·) ∧ ([3, 7] : List ℚ).Sorted (· ≤ ·) ∧
    (SGMarkerReference.construct 8 Direction.f [1, 5] [3, 7]).Intervals
      = [{ Left := 1, Right := 3, IsOrderLeftRight := true, IsWrapped := false },
         { Left := 3, Right := 5, IsOrderLeftRight := false, IsWrapped := false },
         { Left := 5, Right := 7, IsOrderLeftRight := true, IsWrapped := false },
         { Left := 7, Right := 1, IsOrderLeftRight := false, IsWrapped := true }] ∧
    (SGMarkerReference.construct 8 Direction.f [1, 5] [3, 7]).Intervals.length = 2 * 2 :=
  ⟨by decide, by decide, by decide,
    (construct_intervals_enumerated 8 Direction.f [1, 5] [3, 7] (by decide) (by decide)
      (by decide) (by decide)).1⟩

theorem construct_guard_iff (L R : List ℚ) :
    ((List.insertionSort (· ≤ ·) L).length = 0 ∨ (List.insertionSort (· ≤ ·) R).length = 0
      ∨ (List.insertionSort (· ≤ ·) L).length ≠ (List.insertionSort (· ≤ ·) R).length)
      ↔ (L = [] ∨ R = [] ∨ L.length ≠ R.length) := by
  simp only [List.length_insertionSort, List.length_eq_zero]

theorem construct_of_guard (d : ℚ) (dir : Direction) (L R : List ℚ)
    (h : L = [] ∨ R = [] ∨ L.length ≠ R.length) :
    (SGMarkerReference.construct d dir L R).bIsValid = false ∧
    (SGMarkerReference.construct d dir L R).Intervals = [] := by
  unfold SGMarkerReference.construct
  rw [if_pos ((construct_guard_iff L R).mpr h)]
  exact ⟨rfl, rfl⟩

theorem construct_of_not_guard (d : ℚ) (dir : Direction) (L R : List ℚ)
    (h : ¬ (L = [] ∨ R = [] ∨ L.length ≠ R.length)) :
    (SGMarkerReference.construct d dir L R).bIsValid = true := by
  unfold SGMarkerReference.construct
  rw [if_neg (fun hk => h ((construct_guard_iff L R).mp hk))]

/-- C3: the constructed reference is valid if and only if both contact lists are non-empty and
of equal length, and whenever either list is empty or the lengths differ the reference is
invalid and its interval list is empty. -/
theorem construct_validity_gate (d : ℚ) (dir : Direction) (L R : List ℚ) :
    ((SGMarkerReference.construct d dir L R).bIsValid = true
      ↔ (L ≠ [] ∧ R ≠ [] ∧ L.length = R.length)) ∧
    ((L = [] ∨ R = [] ∨ L.length ≠ R.length) →
      (SGMarkerReference.construct d dir L R).bIsValid = false ∧
      (SGMarkerReference.construct d dir L R).Intervals = []) := by
  refine ⟨?_, construct_of_guard d dir L R⟩
  by_cases h : (L = [] ∨ R = [] ∨ L.length ≠ R.length)
  · have hv := (construct_of_guard d dir L R h).1
    constructor
    · intro hc
      rw [hv] at hc
      cases hc
    · rintro ⟨h1, h2, h3⟩
      rcases h with h | h | h
      · exact absurd h h1
      · exact absurd h h2
      · exact absurd h3 h
  · constructor
    · intro _
      push_neg at h
      exact h
    · intro _
      exact construct_of_not_guard d dir L R h

/-! ## `GetTimeFromRatio` -/

theorem getTimeFromRatio_foldl (Len ratio : ℚ) (flag : Bool) (l : List FootInterval)
    (init : List ℚ) :
    l.foldl (fun Time Interval =>
      if Interval.IsOrderLeftRight = flag then
        if !Interval.IsWrapped then
          Time ++ [Interval.Left + (Interval.Right - Interval.Left) * ratio]
        else
          let Loc := Interval.Left + (Interval.Right - Interval.Left + Len) * ratio
          Time ++ [if Loc > Len then Loc - Len else Loc]
      else Time) init
    = init ++ (l.filter (fun iv => iv.IsOrderLeftRight == flag)).map
        (specCandidateTime Len ratio) := by
  induction l generalizing init with
  | nil => simp
  | cons iv l ih =>
    rw [List.foldl_cons, ih]
    by_cases hf : iv.IsOrderLeftRight = flag
    · by_cases hw : iv.IsWrapped = true
      · simp [hf, hw, specCandidateTime, List.filter_cons]
      · simp [hf, hw, specCandidateTime, List.filter_cons]
    · simp [hf, List.filter_cons]

theorem getTimeFromRatio_eq (ref : SGMarkerReference) (ratio : ℚ) (flag : Bool) :
    ref.GetTimeFromRatio ratio flag
      = (ref.Intervals.filter (fun iv => iv.IsOrderLeftRight == flag)).map
          (specCandidateTime ref.PlayLength ratio) := by
  unfold SGMarkerReference.GetTimeFromRatio
  have h := getTimeFromRatio_foldl ref.PlayLength ratio flag ref.Intervals []
  simpa using h

/-- C7: `GetTimeFromRatio` returns, in interval order, one candidate per interval whose
`IsOrderLeftRight` equals the requested flag, the candidate being `Left + (Right - Left) * ratio`
for a non-wrapped interval and `Left + (Right - Left + duration) * ratio`, less `duration` when
that exceeds `duration`, for a wrapped one. -/
theorem getTimeFromRatio_candidates (ref : SGMarkerReference) (ratio : ℚ) (flag : Bool) :
    ref.GetTimeFromRatio ratio flag
      = (ref.Intervals.filter (fun iv => iv.IsOrderLeftRight == flag)).map
          (specCandidateTime ref.PlayLength ratio) :=
  getTimeFromRatio_eq ref ratio flag

/-! ## The scan of `GetRatioFromTime` -/

theorem scan_spec (p : FootInterval → Prop) [DecidablePred p] (l : List FootInterval)
    (init : FootInterval) :
    ((∃ iv ∈ l, p iv) →
        l.foldl (fun target interval => if p interval then interval else target) init ∈ l
        ∧ p (l.foldl (fun target interval => if p interval then interval else target) init))
    ∧ ((¬ ∃ iv ∈ l, p iv) →
        l.foldl (fun target interval => if p interval then interval else target) init = init) := by
  induction l generalizing init with
  | nil => simp
  | cons a l ih =>
    rw [List.foldl_cons]
    constructor
    · intro hex
      by_cases hl : ∃ iv ∈ l, p iv
      · have := (ih (if p a then a else init)).1 hl
        exact ⟨List.mem_cons_of_mem _ this.1, this.2⟩
      · have h2 := (ih (if p a then a else init)).2 hl
        rw [h2]
        have hpa : p a := by
          obtain ⟨iv, hiv, hp⟩ := hex
          rcases List.mem_cons.mp hiv with h | h
          · exact h ▸ hp
          · exact absurd ⟨iv, h, hp⟩ hl
        simp [hpa]
    · intro hne
      have hl : ¬ ∃ iv ∈ l, p iv := by
        rintro ⟨iv, hiv, hp⟩
        exact hne ⟨iv, List.mem_cons_of_mem _ hiv, hp⟩
      have hpa : ¬ p a := fun hp => hne ⟨a, List.mem_cons_self _ _, hp⟩
      rw [(ih (if p a then a else init)).2 hl]
      simp [hpa]

theorem findTarget_of_contains (ref : SGMarkerReference) (t : ℚ)
    (h : ∃ iv ∈ ref.Intervals, t > iv.Left ∧ t < iv.Right) :
    ∃ target, ref.findTarget t = some target ∧ target ∈ ref.Intervals
      ∧ t > target.Left ∧ t < target.Right := by
  unfold SGMarkerReference.findTarget
  cases hlast : ref.Intervals.getLast? with
  | none =>
    obtain ⟨iv, hiv, _⟩ := h
    rw [List.getLast?_eq_none_iff] at hlast
    rw [hlast] at hiv
    cases hiv
  | some last =>
    have := (scan_spec (fun iv => t > iv.Left ∧ t < iv.Right) ref.Intervals last).1 h
    exact ⟨_, rfl, this.1, this.2⟩

theorem findTarget_of_not_contains (ref : SGMarkerReference) (t : ℚ)
    (h : ¬ ∃ iv ∈ ref.Intervals, t > iv.Left ∧ t < iv.Right) :
    ref.findTarget t = ref.Intervals.getLast? := by
  unfold SGMarkerReference.findTarget
  cases hlast : ref.Intervals.getLast? with
  | none => rfl
  | some last =>
    have := (scan_spec (fun iv => t > iv.Left ∧ t < iv.Right) ref.Intervals last).2 h
    simp only [this]

/-- C6: for the interval `target` selected by the scan, `GetRatioFromTime` returns the flag of
`target` and the ratio `(Time - Left) / (Right - Left)` when `target` is not wrapped, and
`(t' - Left) / (Right + duration - Left)` with `t' = Time + duration` if `Time < Left` and
`t' = Time` otherwise when it is wrapped (the divisor being non-zero); with a zero divisor
there is no rational ratio. -/
theorem getRatioFromTime_formula (ref : SGMarkerReference) (Time : ℚ) (target : FootInterval)
    (hsel : ref.findTarget Time = some target) :
    (target.IsWrapped = false → target.Right - target.Left ≠ 0 →
      ref.GetRatioFromTime Time
        = some ((Time - target.Left) / (target.Right - target.Left), target.IsOrderLeftRight)) ∧
    (target.IsWrapped = true → target.Right + ref.PlayLength - target.Left ≠ 0 →
      ref.GetRatioFromTime Time
        = some (((if Time < target.Left then Time + ref.PlayLength else Time) - target.Left)
                  / (target.Right + ref.PlayLength - target.Left), target.IsOrderLeftRight)) ∧
    (target.IsWrapped = false → target.Right - target.Left = 0 →
      ref.GetRatioFromTime Time = none) ∧
    (target.IsWrapped = true → target.Right + ref.PlayLength - target.Left = 0 →
      ref.GetRatioFromTime Time = none) := by
  unfold SGMarkerReference.GetRatioFromTime
  rw [hsel]
  refine ⟨?_, ?_, ?_, ?_⟩
  · intro hw hd
    simp [SGMarkerReference.ratioIn, hw, floatDiv, hd]
  · intro hw hd
    simp [SGMarkerReference.ratioIn, hw, floatDiv, hd]
  · intro hw hd
    simp [SGMarkerReference.ratioIn, hw, floatDiv, hd]
  · intro hw hd
    simp [SGMarkerReference.ratioIn, hw, floatDiv, hd]

/-- The example of C6: the query `7.5` uses the wrapped interval `(7, 1)` and returns the ratio
`0.25` with the flag right-then-left. -/
theorem getRatioFromTime_formula_witness :
    (SGMarkerReference.construct 8 Direction.f [1, 5] [3, 7]).findTarget (15 / 2)
      = some { Left := 7, Right := 1, IsOrderLeftRight := false, IsWrapped := true } ∧
    (SGMarkerReference.construct 8 Direction.f [1, 5] [3, 7]).GetRatioFromTime (15 / 2)
      = some (1 / 4, false) := by
  have hsel : (SGMarkerReference.construct 8 Direction.f [1, 5] [3, 7]).findTarget (15 / 2)
      = some { Left := 7, Right := 1, IsOrderLeftRight := false, IsWrapped := true } := by
    decide!
  refine ⟨hsel, ?_⟩
  have h := (getRatioFromTime_formula _ _ _ hsel).2.1 rfl (by decide!)
  rw [h]
  decide!

/-- C2: ratio round trip.  For every reference whose intervals were made by the `FootInterval`
constructor and every time `t` strictly inside some non-wrapped interval, `GetRatioFromTime t`
yields a pair `(ratio, flag)`, and the list `GetTimeFromRatio ratio flag` of the same reference
contains `t` exactly. -/
theorem ratio_round_trip (ref : SGMarkerReference) (hc : ref.IntervalsConstructed) (t : ℚ)
    (hin : ∃ iv ∈ ref.Intervals, iv.IsWrapped = false ∧ iv.Left < t ∧ t < iv.Right) :
    ∃ ratio flag, ref.GetRatioFromTime t = some (ratio, flag)
      ∧ t ∈ ref.GetTimeFromRatio ratio flag := by
  obtain ⟨iv, hiv, _, h1, h2⟩ := hin
  obtain ⟨target, hsel, hmem, hl, hr⟩ := findTarget_of_contains ref t ⟨iv, hiv, h1, h2⟩
  have hw : target.IsWrapped = false := by
    rw [hc target hmem]
    simp only [decide_eq_false_iff_not, not_lt, gt_iff_lt]
    linarith
  have hd : target.Right - target.Left ≠ 0 := by
    intro h0
    linarith
  refine ⟨(t - target.Left) / (target.Right - target.Left), target.IsOrderLeftRight, ?_, ?_⟩
  · unfold SGMarkerReference.GetRatioFromTime
    rw [hsel]
    simp [SGMarkerReference.ratioIn, hw, floatDiv, hd]
  · rw [getTimeFromRatio_eq, List.mem_map]
    refine ⟨target, ?_, ?_⟩
    · rw [List.mem_filter]
      exact ⟨hmem, by simp⟩
    · unfold specCandidateTime
      simp only [hw]
      field_simp

/-- The round trip at `t = 2` on the wrap example. -/
theorem ratio_round_trip_witness :
    (SGMarkerReference.construct 8 Direction.f [1, 5] [3, 7]).IntervalsConstructed ∧
    (∃ iv ∈ (SGMarkerReference.construct 8 Direction.f [1, 5] [3, 7]).Intervals,
      iv.IsWrapped = false ∧ iv.Left < 2 ∧ 2 < iv.Right) ∧
    (∃ ratio flag,
      (SGMarkerReference.construct 8 Direction.f [1, 5] [3, 7]).GetRatioFromTime 2
        = some (ratio, flag)
      ∧ (2 : ℚ) ∈ (SGMarkerReference.construct 8 Direction.f [1, 5] [3, 7]).GetTimeFromRatio
          ratio flag) :=
  have hc : (SGMarkerReference.construct 8 Direction.f [1, 5] [3, 7]).IntervalsConstructed := by
    decide
  have hin : ∃ iv ∈ (SGMarkerReference.construct 8 Direction.f [1, 5] [3, 7]).Intervals,
      iv.IsWrapped = false ∧ iv.Left < 2 ∧ 2 < iv.Right :=
    ⟨{ Left := 1, Right := 3, IsOrderLeftRight := true, IsWrapped := false },
      by decide, rfl, by decide, by decide⟩
  ⟨hc, hin, ratio_round_trip _ hc 2 hin⟩

/-! ## Counting the intervals of one order -/

theorem flatMap_pair_countP {ι α : Type} (p : α → Bool) (f g : ι → α) (l : List ι) :
    (l.flatMap (fun a => [f a, g a])).countP p
      = l.countP (fun a => p (f a)) + l.countP (fun a => p (g a)) := by
  induction l with
  | nil => simp
  | cons a l ih =>
    simp only [List.flatMap_cons, List.countP_append, ih, List.countP_cons, List.countP_nil]
    omega

theorem loopLeftFirst_countP (L R : List ℚ) (flag : Bool) :
    (SGMarkerReference.loopLeftFirst L R).countP (fun iv => iv.IsOrderLeftRight == flag)
      = L.length := by
  rw [loopLeftFirst_eq]
  unfold SGMarkerReference.stepLeftFirst
  rw [flatMap_pair_countP]
  cases flag <;> simp [FootInterval.new]

theorem loopRightFirst_countP (L R : List ℚ) (flag : Bool) :
    (SGMarkerReference.loopRightFirst L R).countP (fun iv => iv.IsOrderLeftRight == flag)
      = L.length := by
  rw [loopRightFirst_eq]
  unfold SGMarkerReference.stepRightFirst
  rw [flatMap_pair_countP]
  cases flag <;> simp [FootInterval.new]

theorem construct_intervals_of_valid (d : ℚ) (dir : Direction) (L R : List ℚ)
    (hvalid : (SGMarkerReference.construct d dir L R).bIsValid = true) :
    (SGMarkerReference.construct d dir L R).Intervals
        = SGMarkerReference.loopLeftFirst (L.insertionSort (· ≤ ·)) (R.insertionSort (· ≤ ·))
    ∨ (SGMarkerReference.construct d dir L R).Intervals
        = SGMarkerReference.loopRightFirst (L.insertionSort (· ≤ ·)) (R.insertionSort (· ≤ ·)) := by
  unfold SGMarkerReference.construct at hvalid ⊢
  simp only [] at hvalid ⊢
  split
  · rename_i hg
    rw [if_pos hg] at hvalid
    cases hvalid
  · split
    · exact Or.inl rfl
    · exact Or.inr rfl

theorem getTimeFromRatio_length_eq (ref : SGMarkerReference) (ratio : ℚ) (flag : Bool) :
    (ref.GetTimeFromRatio ratio flag).length
      = ref.Intervals.countP (fun iv => iv.IsOrderLeftRight == flag) := by
  rw [getTimeFromRatio_eq, List.length_map, List.countP_eq_length_filter]

/-- C8: the number of timestamps returned by `GetTimeFromRatio` equals the number of intervals
whose `IsOrderLeftRight` equals the flag, and a valid reference built from `n` contacts per foot
yields exactly `n` timestamps for either flag. -/
theorem getTimeFromRatio_one_per_matching_interval (ref : SGMarkerReference) (ratio : ℚ)
    (flag : Bool) (d : ℚ) (dir : Direction) (L R : List ℚ)
    (hvalid : (SGMarkerReference.construct d dir L R).bIsValid = true) :
    (ref.GetTimeFromRatio ratio flag).length
      = ref.Intervals.countP (fun iv => iv.IsOrderLeftRight == flag) ∧
    ((SGMarkerReference.construct d dir L R).GetTimeFromRatio ratio flag).length = L.length ∧
    ((SGMarkerReference.construct d dir L R).GetTimeFromRatio ratio flag).length = R.length := by
  have hg : ¬ (L = [] ∨ R = [] ∨ L.length ≠ R.length) := by
    intro hg
    rw [(construct_of_guard d dir L R hg).1] at hvalid
    cases hvalid
  push_neg at hg
  have hlen : ((SGMarkerReference.construct d dir L R).GetTimeFromRatio ratio flag).length
      = L.length := by
    rw [getTimeFromRatio_length_eq]
    rcases construct_intervals_of_valid d dir L R hvalid with h | h
    · rw [h, loopLeftFirst_countP, List.length_insertionSort]
    · rw [h, loopRightFirst_countP, List.length_insertionSort]
  exact ⟨getTimeFromRatio_length_eq ref ratio flag, hlen, hg.2.2 ▸ hlen⟩

/-- Two contacts per foot give two timestamps. -/
theorem getTimeFromRatio_one_per_matching_interval_witness :
    (SGMarkerReference.construct 8 Direction.f [1, 5] [3, 7]).bIsValid = true ∧
    ((SGMarkerReference.construct 8 Direction.f [1, 5] [3, 7]).GetTimeFromRatio (1 / 2)
      true).length = 2 :=
  ⟨by decide,
    (getTimeFromRatio_one_per_matching_interval
      (SGMarkerReference.construct 8 Direction.f [1, 5] [3, 7]) (1 / 2) true 8 Direction.f
      [1, 5] [3, 7] (by decide)).2.1⟩

/-! ## The loops as a cycle of intervals -/

theorem flatMap_range_succ {α : Type} (f : Nat → List α) (n : Nat) :
    (List.range (n + 1)).flatMap f = f 0 ++ (List.range n).flatMap (fun i => f (i + 1)) := by
  rw [List.range_succ_eq_map, List.flatMap_cons, List.flatMap_map]

theorem flatMap_range_congr {α : Type} (f g : Nat → List α) (n : Nat)
    (h : ∀ i, i < n → f i = g i) :
    (List.range n).flatMap f = (List.range n).flatMap g := by
  unfold List.flatMap
  congr 1
  apply List.map_congr_left
  intro i hi
  exact h i (List.mem_range.mp hi)

theorem flatMap_range_eq_cycleFrom (o : Bool) (first : ℚ) (A B : List ℚ) :
    (List.range A.length).flatMap (fun i =>
      [FootInterval.new (A.getD i 0) (B.getD i 0) o,
       FootInterval.new (B.getD i 0) (if i + 1 = A.length then first else A.getD (i + 1) 0) (!o)])
    = cycleFrom o first A B := by
  induction A generalizing B with
  | nil => simp [cycleFrom]
  | cons a A ih =>
    rw [List.length_cons, flatMap_range_succ, cycleFrom, ← ih B.tail]
    have h0 : (if 0 + 1 = A.length + 1 then first else (a :: A).getD (0 + 1) 0)
        = A.headD first := by
      cases A <;> simp
    have hstep : ∀ i : Nat,
        [FootInterval.new ((a :: A).getD (i + 1) 0) (B.getD (i + 1) 0) o,
         FootInterval.new (B.getD (i + 1) 0)
           (if i + 1 + 1 = A.length + 1 then first else (a :: A).getD (i + 1 + 1) 0) (!o)]
        = [FootInterval.new (A.getD i 0) (B.tail.getD i 0) o,
           FootInterval.new (B.tail.getD i 0)
             (if i + 1 = A.length then first else A.getD (i + 1) 0) (!o)] := by
      intro i
      have hB : B.getD (i + 1) 0 = B.tail.getD i 0 := by
        cases B <;> simp
      have hc : (i + 1 + 1 = A.length + 1) = (i + 1 = A.length) := by
        apply propext
        omega
      simp only [hB, hc, List.getD_cons_succ]
    simp only [hstep, h0]
    simp

theorem loopLeftFirst_eq_cycleFrom (L R : List ℚ) :
    SGMarkerReference.loopLeftFirst L R = cycleFrom true (L.getD 0 0) L R := by
  rw [loopLeftFirst_eq, ← flatMap_range_eq_cycleFrom]
  apply flatMap_range_congr
  intro i hi
  unfold SGMarkerReference.stepLeftFirst
  by_cases h : i = L.length - 1
  · have h1 : i + 1 = L.length := by omega
    rw [if_pos h, if_pos h1]
    simp
  · have h1 : ¬ i + 1 = L.length := by omega
    simp [h, h1]

theorem loopRightFirst_eq_cycleFrom (L R : List ℚ) (hlen : L.length = R.length) :
    SGMarkerReference.loopRightFirst L R = cycleFrom false (R.getD 0 0) R L := by
  rw [loopRightFirst_eq, ← flatMap_range_eq_cycleFrom, hlen]
  apply flatMap_range_congr
  intro i hi
  unfold SGMarkerReference.stepRightFirst
  by_cases h : i = L.length - 1
  · have h1 : i + 1 = R.length := by omega
    rw [if_pos h, if_pos h1]
    simp
  · have h1 : ¬ i + 1 = R.length := by omega
    simp [h, h1]

/-! ## Tiling of the cycle -/

theorem covers_new_of_lt (d t l r : ℚ) (o : Bool) (h : l < r) :
    (FootInterval.new l r o).covers d t = decide (l ≤ t ∧ t < r) := by
  have hw : (FootInterval.new l r o).IsWrapped = false := by
    simp only [FootInterval.new, decide_eq_false_iff_not, not_lt, gt_iff_lt]
    exact le_of_lt h
  unfold FootInterval.covers
  rw [hw]
  simp [FootInterval.new]

theorem covers_new_of_gt (d t l r : ℚ) (o : Bool) (h : r < l) :
    (FootInterval.new l r o).covers d t = decide ((l ≤ t ∧ t < d) ∨ (0 ≤ t ∧ t < r)) := by
  have hw : (FootInterval.new l r o).IsWrapped = true := by
    simp only [FootInterval.new, decide_eq_true_eq, gt_iff_lt]
    exact h
  unfold FootInterval.covers
  rw [hw]
  simp [FootInterval.new]

theorem interleave_cons_cons (a b : ℚ) (A B : List ℚ) :
    interleave (a :: A) (b :: B) = a :: b :: interleave A B := by
  simp [interleave, List.zip_cons_cons, List.flatMap_cons]

theorem cycleFrom_countP_covers (o : Bool) (first d t : ℚ) (ht0 : 0 ≤ t) (htd : t < d)
    (A : List ℚ) :
    ∀ (a : ℚ) (B : List ℚ), (a :: A).length = B.length →
      (interleave (a :: A) B).Sorted (· < ·) → first ≤ a →
      (cycleFrom o first (a :: A) B).countP (fun iv => iv.covers d t)
        = (if a ≤ t then 1 else 0) + (if t < first then 1 else 0) := by
  induction A with
  | nil =>
    intro a B hlen hs hfa
    match B, hlen with
    | [b], _ =>
      rw [interleave_cons_cons] at hs
      have hab : a < b := by
        have := List.rel_of_sorted_cons hs b (List.mem_cons_self _ _)
        exact this
      have hfb : first < b := lt_of_le_of_lt hfa hab
      simp only [cycleFrom, List.getD_cons_zero, List.headD_nil, List.countP_cons,
        List.countP_nil, covers_new_of_lt d t a b o hab, covers_new_of_gt d t b first (!o) hfb,
        decide_eq_true_eq]
      by_cases h1 : a ≤ t <;> by_cases h2 : t < b <;> by_cases h3 : t < first <;>
        by_cases h4 : b ≤ t <;> simp [h1, h2, h3, h4, ht0, htd] <;> linarith
  | cons a' A' ih =>
    intro a B hlen hs hfa
    match B, hlen with
    | b :: b' :: B', hlen =>
      rw [interleave_cons_cons] at hs
      have hab : a < b := List.rel_of_sorted_cons hs b (List.mem_cons_self _ _)
      have hs1 := List.Sorted.of_cons hs
      rw [interleave_cons_cons] at hs1
      have hba : b < a' := List.rel_of_sorted_cons hs1 a' (List.mem_cons_self _ _)
      have hs2 := List.Sorted.of_cons hs1
      rw [← interleave_cons_cons] at hs2
      have hlen2 : (a' :: A').length = (b' :: B').length := by
        simp only [List.length_cons] at hlen ⊢
        omega
      have hfa2 : first ≤ a' := by linarith
      have hrec := ih a' (b' :: B') hlen2 hs2 hfa2
      rw [cycleFrom, List.countP_cons, List.countP_cons]
      simp only [List.getD_cons_zero, List.headD_cons, List.tail_cons]
      rw [hrec]
      simp only [covers_new_of_lt d t a b o hab, covers_new_of_lt d t b a' (!o) hba]
      by_cases h1 : a ≤ t <;> by_cases h2 : t < b <;> by_cases h3 : t < first <;>
        by_cases h4 : b ≤ t <;> by_cases h5 : a' ≤ t <;> by_cases h6 : t < a' <;>
        simp [h1, h2, h3, h4, h5, h6] <;> linarith

theorem cycleFrom_countP_covers_self (o : Bool) (d t : ℚ) (ht0 : 0 ≤ t) (htd : t < d)
    (A B : List ℚ) (hne : A ≠ []) (hlen : A.length = B.length)
    (hs : (interleave A B).Sorted (· < ·)) :
    (cycleFrom o (A.getD 0 0) A B).countP (fun iv => iv.covers d t) = 1 := by
  match A, hne with
  | a :: A', _ =>
    rw [List.getD_cons_zero, cycleFrom_countP_covers o a d t ht0 htd A' a B hlen hs le_rfl]
    by_cases h : a ≤ t
    · have h2 : ¬ t < a := not_lt.mpr h
      simp [h, h2]
    · have h2 : t < a := not_le.mp h
      simp [h, h2]

theorem interleave_head_lt (A B : List ℚ) (hne : A ≠ []) (hlen : A.length = B.length)
    (hs : (interleave A B).Sorted (· < ·)) : A.getD 0 0 < B.getD 0 0 := by
  match A, B, hne, hlen with
  | a :: A', b :: B', _, _ =>
    rw [interleave_cons_cons] at hs
    simpa using List.rel_of_sorted_cons hs b (List.mem_cons_self _ _)

/-- The claim C4 as stated fails: for the sorted lists `[1, 2]` and `[3, 4]` within `[0, 8)` the
time `5/2` lies in two of the constructed intervals, `[1, 3)` and `[2, 4)`. -/
theorem tiling_fails_without_interleaving :
    ([1, 2] : List ℚ).Sorted (· ≤ ·) ∧ ([3, 4] : List ℚ).Sorted (· ≤ ·) ∧
    ([1, 2] : List ℚ) ≠ [] ∧ ([1, 2] : List ℚ).length = ([3, 4] : List ℚ).length ∧
    (∀ x ∈ ([1, 2] ++ [3, 4] : List ℚ), 0 ≤ x ∧ x < 8) ∧
    (SGMarkerReference.construct 8 Direction.f [1, 2] [3, 4]).bIsValid = true ∧
    ((0 : ℚ) ≤ 5 / 2 ∧ (5 / 2 : ℚ) < 8) ∧
    (SGMarkerReference.construct 8 Direction.f [1, 2] [3, 4]).Intervals.countP
      (fun iv => iv.covers 8 (5 / 2)) = 2 := by
  refine ⟨by decide, by decide, by decide, by decide, by decide, by decide, ?_, by decide!⟩
  constructor <;> norm_num

/-- The tiling for strictly interleaved contacts: when the contact lists are non-empty, sorted,
of equal length, within `[0, duration)` and strictly interleaved
(`L[0] < R[0] < L[1] < ... < R[n-1]`, or the same with the feet swapped), every time in
`[0, duration)` lies in exactly one constructed interval, a wrapped interval being read as
`[Left, duration) ∪ [0, Right)`. -/
theorem tiling_of_interleaved (d : ℚ) (dir : Direction) (L R : List ℚ)
    (hL : L.Sorted (· ≤ ·)) (hR : R.Sorted (· ≤ ·)) (hne : L ≠ []) (hlen : L.length = R.length)
    (_hrange : ∀ x ∈ L ++ R, 0 ≤ x ∧ x < d)
    (hint : (interleave L R).Sorted (· < ·) ∨ (interleave R L).Sorted (· < ·))
    (t : ℚ) (ht0 : 0 ≤ t) (htd : t < d) :
    (SGMarkerReference.construct d dir L R).Intervals.countP (fun iv => iv.covers d t) = 1 := by
  rw [construct_valid d dir L R hL hR hne hlen]
  have hneR : R ≠ [] := by
    intro h
    rw [h] at hlen
    exact hne (List.length_eq_zero.mp hlen)
  rcases hint with hs | hs
  · have hlt := interleave_head_lt L R hne hlen hs
    simp only [if_pos hlt, loopLeftFirst_eq_cycleFrom]
    exact cycleFrom_countP_covers_self true d t ht0 htd L R hne hlen hs
  · have hlt := interleave_head_lt R L hneR hlen.symm hs
    have hnlt : ¬ L.getD 0 0 < R.getD 0 0 := not_lt.mpr (le_of_lt hlt)
    simp only [if_neg hnlt, loopRightFirst_eq_cycleFrom L R hlen]
    exact cycleFrom_countP_covers_self false d t ht0 htd R L hneR hlen.symm hs

/-- The tiling at `t = 7.5` on the wrap example. -/
theorem tiling_of_interleaved_witness :
    ([1, 5] : List ℚ).Sorted (· ≤ ·) ∧ ([3, 7] : List ℚ).Sorted (· ≤ ·) ∧
    (interleave [1, 5] [3, 7]).Sorted (· < ·) ∧
    (∀ x ∈ ([1, 5] ++ [3, 7] : List ℚ), 0 ≤ x ∧ x < 8) ∧
    (SGMarkerReference.construct 8 Direction.f [1, 5] [3, 7]).Intervals.countP
      (fun iv => iv.covers 8 (15 / 2)) = 1 :=
  have hs : (interleave [1, 5] [3, 7]).Sorted (· < ·) := by decide
  have hr : ∀ x ∈ ([1, 5] ++ [3, 7] : List ℚ), 0 ≤ x ∧ x < 8 := by decide
  ⟨by decide, by decide, hs, hr,
    tiling_of_interleaved 8 Direction.f [1, 5] [3, 7] (by decide) (by decide) (by decide)
      (by decide) hr (Or.inl hs) (15 / 2) (by norm_num) (by norm_num)⟩

/-! ## Every constructed reference has constructor-made intervals -/

theorem cycleFrom_constructed (o : Bool) (first : ℚ) (A B : List ℚ) :
    ∀ iv ∈ cycleFrom o first A B, iv.IsWrapped = decide (iv.Left > iv.Right) := by
  induction A generalizing B with
  | nil => simp [cycleFrom]
  | cons a A ih =>
    intro iv hiv
    rw [cycleFrom] at hiv
    rcases List.mem_cons.mp hiv with h | h
    · rw [h]; rfl
    · rcases List.mem_cons.mp h with h | h
      · rw [h]; rfl
      · exact ih B.tail iv h

theorem construct_intervalsConstructed (d : ℚ) (dir : Direction) (L R : List ℚ) :
    (SGMarkerReference.construct d dir L R).IntervalsConstructed := by
  unfold SGMarkerReference.IntervalsConstructed
  by_cases hg : L = [] ∨ R = [] ∨ L.length ≠ R.length
  · rw [(construct_of_guard d dir L R hg).2]
    simp
  · have hv := construct_of_not_guard d dir L R hg
    push_neg at hg
    rcases construct_intervals_of_valid d dir L R hv with h | h
    · rw [h, loopLeftFirst_eq_cycleFrom]
      exact cycleFrom_constructed _ _ _ _
    · rw [h, loopRightFirst_eq_cycleFrom _ _ (by simp [List.length_insertionSort, hg.2.2])]
      exact cycleFrom_constructed _ _ _ _

/-! ## Evaluations at contact times and on tracks of different index -/

/-- C5, evaluated at a failing input: on the valid reference with contacts `[1, 5]`, `[3, 7]` and
play length `8`, the query times `3` and `1`, both in `[0, 8]`, get the ratios `2` and `1`, which
are not in `[0, 1)`. -/
theorem getRatioFromTime_at_contact_time :
    walkReference.bIsValid = true ∧ ((0 : ℚ) ≤ 3 ∧ (3 : ℚ) ≤ walkReference.PlayLength) ∧
    walkReference.GetRatioFromTime 3 = some (2, false) ∧
    walkReference.GetRatioFromTime 1 = some (1, false) := by
  decide!

/-- C9, evaluated at a failing input: the source has the track `T` at index `0` with markers and
events at the times `2` and `6`, which have the same ratio and flag; the target has `T` at index
`1`.  One call inserts the times `2` and `6` twice each on the track `T` of the target, although
the track already holds them when they are computed the second time. -/
theorem sync_inserts_twice_on_shifted_track :
    twoAnimationModule.SyncReferenceGroup [twoCycleSource, shiftedTarget] 0 "T"
      = some
        [twoCycleSource,
         { shiftedTarget with
           AuthoredSyncMarkers :=
             [{ MarkerName := "m", Time := 2, TrackIndex := 1 },
              { MarkerName := "m", Time := 6, TrackIndex := 1 },
              { MarkerName := "m", Time := 2, TrackIndex := 1 },
              { MarkerName := "m", Time := 6, TrackIndex := 1 }],
           Notifies :=
             [{ NotifyClass := "c", Time := 2, TrackIndex := 1 },
              { NotifyClass := "c", Time := 6, TrackIndex := 1 },
              { NotifyClass := "c", Time := 2, TrackIndex := 1 },
              { NotifyClass := "c", Time := 6, TrackIndex := 1 }] }] := by
  decide!

/-- C10, evaluated at a failing input: the source has the track `T` at index `0` with one marker
and one event at time `2`, the target has `T` at index `1`.  The first call leaves two markers
and two events on the track `T` of the target, the second call, with no edit in between, leaves
six of each. -/
theorem sync_second_run_adds_markers :
    twoAnimationModule.SyncReferenceGroup [oneMarkerSource, shiftedTarget] 0 "T"
      = some
        [twoCycleSource,
         { shiftedTarget with
           AuthoredSyncMarkers :=
             [{ MarkerName := "m", Time := 2, TrackIndex := 1 },
              { MarkerName := "m", Time := 6, TrackIndex := 1 }],
           Notifies :=
             [{ NotifyClass := "c", Time := 2, TrackIndex := 1 },
              { NotifyClass := "c", Time := 6, TrackIndex := 1 }] }] ∧
    twoAnimationModule.SyncReferenceGroup
        [twoCycleSource,
         { shiftedTarget with
           AuthoredSyncMarkers :=
             [{ MarkerName := "m", Time := 2, TrackIndex := 1 },
              { MarkerName := "m", Time := 6, TrackIndex := 1 }],
           Notifies :=
             [{ NotifyClass := "c", Time := 2, TrackIndex := 1 },
              { NotifyClass := "c", Time := 6, TrackIndex := 1 }] }] 0 "T"
      = some
        [twoCycleSource,
         { shiftedTarget with
           AuthoredSyncMarkers :=
             [{ MarkerName := "m", Time := 2, TrackIndex := 1 },
              { MarkerName := "m", Time := 6, TrackIndex := 1 },
              { MarkerName := "m", Time := 2, TrackIndex := 1 },
              { MarkerName := "m", Time := 6, TrackIndex := 1 },
              { MarkerName := "m", Time := 2, TrackIndex := 1 },
              { MarkerName := "m", Time := 6, TrackIndex := 1 }],
           Notifies :=
             [{ NotifyClass := "c", Time := 2, TrackIndex := 1 },
              { NotifyClass := "c", Time := 6, TrackIndex := 1 },
              { NotifyClass := "c", Time := 2, TrackIndex := 1 },
              { NotifyClass := "c", Time := 6, TrackIndex := 1 },
              { NotifyClass := "c", Time := 2, TrackIndex := 1 },
              { NotifyClass := "c", Time := 6, TrackIndex := 1 }] }] := by
  constructor <;> decide!

/-! ## Preconditions of the transplantation -/

theorem getTrackIndex_eq_none_iff (Anim : UAnimSequence) (TrackName : String) :
    GetTrackIndexForAnimationNotifyTrackName Anim TrackName = INDEX_NONE
      ↔ TrackName ∉ Anim.AnimNotifyTracks := by
  unfold GetTrackIndexForAnimationNotifyTrackName INDEX_NONE
  cases h : Anim.AnimNotifyTracks.findIdx? (fun Track => Track == TrackName) with
  | none =>
    rw [List.findIdx?_eq_none_iff] at h
    simp only [true_iff]
    intro hmem
    have := h TrackName hmem
    simp at this
  | some i =>
    have hi := List.findIdx?_eq_some_iff_getElem.mp h
    obtain ⟨hlt, hp, _⟩ := hi
    simp only [beq_iff_eq] at hp
    constructor
    · intro hc
      exfalso
      simp only at hc
      have : (0 : Int) ≤ (i : Int) := Int.ofNat_nonneg i
      omega
    · intro hn
      exact absurd (hp ▸ List.getElem_mem hlt) hn

/-- C11: if the source animation has no entry in the reference-group map, or the named track
does not exist on the source animation, `SyncReferenceGroup` returns and the heap of animations
(markers, events and tracks of every animation) is unchanged. -/
theorem sync_returns_unchanged_on_failed_precondition (self : FAnimCurveToolModule)
    (Heap : List UAnimSequence) (RefAnimSequence : Nat) (TrackName : String)
    (h : self.AnimReferenceGroup.lookup RefAnimSequence = none
      ∨ ∃ RefAnim, Heap[RefAnimSequence]? = some RefAnim
          ∧ TrackName ∉ RefAnim.AnimNotifyTracks) :
    self.SyncReferenceGroup Heap RefAnimSequence TrackName = some Heap := by
  unfold FAnimCurveToolModule.SyncReferenceGroup
  cases hl : self.AnimReferenceGroup.lookup RefAnimSequence with
  | none => rfl
  | some RefReference =>
    rcases h with h | ⟨RefAnim, hheap, htrack⟩
    · rw [hl] at h
      cases h
    · simp only [hheap]
      rw [if_pos ((getTrackIndex_eq_none_iff RefAnim TrackName).mpr htrack)]

/-- The address `7` is not in the group, and the source has no track `Missing`: both calls
return the heap as it was. -/
theorem sync_returns_unchanged_on_failed_precondition_witness :
    twoAnimationModule.AnimReferenceGroup.lookup 7 = none ∧
    twoAnimationModule.SyncReferenceGroup [oneMarkerSource, shiftedTarget] 7 "T"
      = some [oneMarkerSource, shiftedTarget] ∧
    twoAnimationModule.SyncReferenceGroup [oneMarkerSource, shiftedTarget] 0 "Missing"
      = some [oneMarkerSource, shiftedTarget] :=
  ⟨by decide,
    sync_returns_unchanged_on_failed_precondition twoAnimationModule
      [oneMarkerSource, shiftedTarget] 7 "T" (Or.inl (by decide)),
    sync_returns_unchanged_on_failed_precondition twoAnimationModule
      [oneMarkerSource, shiftedTarget] 0 "Missing"
      (Or.inr ⟨oneMarkerSource, rfl, by decide⟩)⟩

/-! ## Order flags and the closing interval of the cycle -/

theorem cycleFrom_head? (o : Bool) (first a : ℚ) (A B : List ℚ) :
    (cycleFrom o first (a :: A) B).head? = some (FootInterval.new a (B.getD 0 0) o) := by
  simp [cycleFrom]

theorem cycleFrom_getLast? (o : Bool) (first : ℚ) (A : List ℚ) :
    ∀ (a : ℚ) (B : List ℚ), (a :: A).length = B.length →
      (cycleFrom o first (a :: A) B).getLast?
        = some (FootInterval.new (B.getLastD 0) first (!o)) := by
  induction A with
  | nil =>
    intro a B hlen
    match B, hlen with
    | [b], _ => simp [cycleFrom]
  | cons a2 A2 ih =>
    intro a B hlen
    match B, hlen with
    | b :: b2 :: B2, hlen =>
      have hlen2 : (a2 :: A2).length = (b2 :: B2).length := by
        simp only [List.length_cons] at hlen ⊢
        omega
      have hrec := ih a2 (b2 :: B2) hlen2
      rw [cycleFrom, List.getLast?_cons_cons]
      simp only [List.tail_cons]
      have hne : cycleFrom o first (a2 :: A2) (b2 :: B2) ≠ [] := by
        simp [cycleFrom]
      obtain ⟨x, xs, hx⟩ := List.exists_cons_of_ne_nil hne
      rw [hx] at hrec ⊢
      rw [List.getLast?_cons_cons, hrec]
      simp [List.getLastD]

theorem sorted_head_le (l : List ℚ) (hs : l.Sorted (· ≤ ·)) (x : ℚ) (hx : x ∈ l) :
    l.getD 0 0 ≤ x := by
  match l, hs, hx with
  | a :: l2, hs, hx =>
    rcases List.mem_cons.mp hx with h | h
    · simp [h]
    · simpa using List.rel_of_sorted_cons hs x h

theorem sorted_le_getLast (l : List ℚ) (hs : l.Sorted (· ≤ ·)) (x : ℚ) (hx : x ∈ l) :
    x ≤ l.getLastD 0 := by
  induction l generalizing x with
  | nil => cases hx
  | cons a l2 ih =>
    cases l2 with
    | nil =>
      simp only [List.mem_singleton] at hx
      simp [hx]
    | cons b l3 =>
      have hs2 := List.Sorted.of_cons hs
      have hlast : (a :: b :: l3).getLastD 0 = (b :: l3).getLastD 0 := by
        simp [List.getLastD]
      rw [hlast]
      rcases List.mem_cons.mp hx with h | h
      · rw [h]
        have hab : a ≤ b := List.rel_of_sorted_cons hs b (List.mem_cons_self _ _)
        exact le_trans hab (ih hs2 b (List.mem_cons_self _ _))
      · exact ih hs2 x h

theorem construct_markers (d : ℚ) (dir : Direction) (L R : List ℚ) :
    (SGMarkerReference.construct d dir L R).LeftMarkers = L.insertionSort (· ≤ ·) ∧
    (SGMarkerReference.construct d dir L R).RightMarkers = R.insertionSort (· ≤ ·) ∧
    (SGMarkerReference.construct d dir L R).PlayLength = d := by
  unfold SGMarkerReference.construct
  simp only []
  split <;> exact ⟨rfl, rfl, rfl⟩

theorem construct_cycle (d : ℚ) (dir : Direction) (L R : List ℚ)
    (hvalid : (SGMarkerReference.construct d dir L R).bIsValid = true) :
    L.insertionSort (· ≤ ·) ≠ [] ∧
    (L.insertionSort (· ≤ ·)).length = (R.insertionSort (· ≤ ·)).length ∧
    (((L.insertionSort (· ≤ ·)).getD 0 0 < (R.insertionSort (· ≤ ·)).getD 0 0 ∧
        (SGMarkerReference.construct d dir L R).Intervals
          = cycleFrom true ((L.insertionSort (· ≤ ·)).getD 0 0)
              (L.insertionSort (· ≤ ·)) (R.insertionSort (· ≤ ·))) ∨
     (¬ (L.insertionSort (· ≤ ·)).getD 0 0 < (R.insertionSort (· ≤ ·)).getD 0 0 ∧
        (SGMarkerReference.construct d dir L R).Intervals
          = cycleFrom false ((R.insertionSort (· ≤ ·)).getD 0 0)
              (R.insertionSort (· ≤ ·)) (L.insertionSort (· ≤ ·)))) := by
  have hg : ¬ (L = [] ∨ R = [] ∨ L.length ≠ R.length) := by
    intro hg
    rw [(construct_of_guard d dir L R hg).1] at hvalid
    cases hvalid
  push_neg at hg
  have hlen : (L.insertionSort (· ≤ ·)).length = (R.insertionSort (· ≤ ·)).length := by
    rw [List.length_insertionSort, List.length_insertionSort]
    exact hg.2.2
  have hne : L.insertionSort (· ≤ ·) ≠ [] := by
    intro h
    have h2 := congrArg List.length h
    rw [List.length_insertionSort] at h2
    exact hg.1 (List.length_eq_zero.mp h2)
  refine ⟨hne, hlen, ?_⟩
  have hguard : ¬ ((L.insertionSort (· ≤ ·)).length = 0 ∨ (R.insertionSort (· ≤ ·)).length = 0
      ∨ (L.insertionSort (· ≤ ·)).length ≠ (R.insertionSort (· ≤ ·)).length) := by
    intro hk
    rcases (construct_guard_iff L R).mp hk with h | h | h
    · exact hg.1 h
    · exact hg.2.1 h
    · exact h hg.2.2
  unfold SGMarkerReference.construct
  simp only []
  rw [if_neg hguard]
  by_cases hlt : (L.insertionSort (· ≤ ·)).getD 0 0 < (R.insertionSort (· ≤ ·)).getD 0 0
  · left
    refine ⟨hlt, ?_⟩
    simp only [if_pos hlt]
    exact loopLeftFirst_eq_cycleFrom _ _
  · right
    refine ⟨hlt, ?_⟩
    simp only [if_neg hlt]
    exact loopRightFirst_eq_cycleFrom _ _ hlen

/-- The claim C14 as stated fails: the contact lists `[2]` and `[2]` give a valid reference
whose final interval is `(2, 2)`, which is not wrapped. -/
theorem final_interval_not_wrapped_on_equal_contacts :
    (SGMarkerReference.construct 8 Direction.f [2] [2]).bIsValid = true ∧
    (SGMarkerReference.construct 8 Direction.f [2] [2]).Intervals.getLast?
      = some { Left := 2, Right := 2, IsOrderLeftRight := true, IsWrapped := false } := by
  decide

/-- C14, amended: for every valid reference in which some left contact time differs from the
first right contact time, the final interval of the interval list has `IsWrapped = true`, its
right bound being smaller than its left bound. -/
theorem final_interval_wrapped (d : ℚ) (dir : Direction) (L R : List ℚ)
    (hvalid : (SGMarkerReference.construct d dir L R).bIsValid = true)
    (hdiff : ∃ x ∈ (SGMarkerReference.construct d dir L R).LeftMarkers,
      x ≠ (SGMarkerReference.construct d dir L R).RightMarkers.getD 0 0) :
    ∃ last, (SGMarkerReference.construct d dir L R).Intervals.getLast? = some last ∧
      last.IsWrapped = true ∧ last.Right < last.Left := by
  obtain ⟨hne, hlen, hcases⟩ := construct_cycle d dir L R hvalid
  obtain ⟨hLm, hRm, _⟩ := construct_markers d dir L R
  rw [hLm, hRm] at hdiff
  have hsL : (L.insertionSort (· ≤ ·)).Sorted (· ≤ ·) := List.sorted_insertionSort _ L
  have hsR : (R.insertionSort (· ≤ ·)).Sorted (· ≤ ·) := List.sorted_insertionSort _ R
  have hneR : R.insertionSort (· ≤ ·) ≠ [] := by
    intro h
    rw [h] at hlen
    exact hne (List.length_eq_zero.mp hlen)
  obtain ⟨a, A, hA⟩ := List.exists_cons_of_ne_nil hne
  obtain ⟨b, B, hB⟩ := List.exists_cons_of_ne_nil hneR
  rcases hcases with ⟨hlt, hI⟩ | ⟨hlt, hI⟩
  · have hlast : b ≤ (R.insertionSort (· ≤ ·)).getLastD 0 :=
      sorted_le_getLast _ hsR b (hB ▸ List.mem_cons_self _ _)
    have hgt : (L.insertionSort (· ≤ ·)).getD 0 0 < (R.insertionSort (· ≤ ·)).getLastD 0 := by
      rw [hB] at hlt
      simp only [List.getD_cons_zero] at hlt
      exact lt_of_lt_of_le hlt hlast
    rw [hI]
    rw [hA] at hlen ⊢
    rw [cycleFrom_getLast? true _ A a _ hlen]
    rw [hA] at hgt
    exact ⟨_, rfl, decide_eq_true hgt, hgt⟩
  · obtain ⟨x, hx, hxne⟩ := hdiff
    have h1 : (L.insertionSort (· ≤ ·)).getD 0 0 ≤ x := sorted_head_le _ hsL x hx
    have h2 : x ≤ (L.insertionSort (· ≤ ·)).getLastD 0 := sorted_le_getLast _ hsL x hx
    have h3 : (R.insertionSort (· ≤ ·)).getD 0 0 ≤ (L.insertionSort (· ≤ ·)).getD 0 0 :=
      not_lt.mp hlt
    have hgt : (R.insertionSort (· ≤ ·)).getD 0 0 < (L.insertionSort (· ≤ ·)).getLastD 0 := by
      have : (R.insertionSort (· ≤ ·)).getD 0 0 < x :=
        lt_of_le_of_ne (le_trans h3 h1) (Ne.symm hxne)
      exact lt_of_lt_of_le this h2
    rw [hI]
    rw [hB] at hlen ⊢
    rw [cycleFrom_getLast? false _ B b _ hlen.symm]
    rw [hB] at hgt
    exact ⟨_, rfl, decide_eq_true hgt, hgt⟩

/-- The final interval of the wrap example is wrapped. -/
theorem final_interval_wrapped_witness :
    (SGMarkerReference.construct 8 Direction.f [1, 5] [3, 7]).bIsValid = true ∧
    (∃ x ∈ (SGMarkerReference.construct 8 Direction.f [1, 5] [3, 7]).LeftMarkers,
      x ≠ (SGMarkerReference.construct 8 Direction.f [1, 5] [3, 7]).RightMarkers.getD 0 0) ∧
    (∃ last, (SGMarkerReference.construct 8 Direction.f [1, 5] [3, 7]).Intervals.getLast?
        = some last ∧ last.IsWrapped = true ∧ last.Right < last.Left) :=
  have hdiff : ∃ x ∈ (SGMarkerReference.construct 8 Direction.f [1, 5] [3, 7]).LeftMarkers,
      x ≠ (SGMarkerReference.construct 8 Direction.f [1, 5] [3, 7]).RightMarkers.getD 0 0 :=
    ⟨1, by decide, by decide⟩
  ⟨by decide, hdiff,
    final_interval_wrapped 8 Direction.f [1, 5] [3, 7] (by decide) hdiff⟩

/-! ## Track indices when a track is removed -/

theorem getTrackIndex_spec (Anim : UAnimSequence) (TrackName : String)
    (hk : GetTrackIndexForAnimationNotifyTrackName Anim TrackName ≠ INDEX_NONE) :
    ∃ j : Nat, GetTrackIndexForAnimationNotifyTrackName Anim TrackName = (j : Int)
      ∧ Anim.AnimNotifyTracks[j]? = some TrackName
      ∧ ∀ i, i < j → Anim.AnimNotifyTracks[i]? ≠ some TrackName := by
  unfold GetTrackIndexForAnimationNotifyTrackName at hk ⊢
  cases h : Anim.AnimNotifyTracks.findIdx? (fun Track => Track == TrackName) with
  | none =>
    rw [h] at hk
    exact absurd rfl hk
  | some j =>
    obtain ⟨hlt, hp, hbefore⟩ := List.findIdx?_eq_some_iff_getElem.mp h
    simp only [beq_iff_eq] at hp
    refine ⟨j, rfl, ?_, ?_⟩
    · rw [List.getElem?_eq_getElem hlt, hp]
    · intro i hi hc
      have hil : i < Anim.AnimNotifyTracks.length := by omega
      rw [List.getElem?_eq_getElem hil] at hc
      have := hbefore i hi
      simp only [Option.some.injEq] at hc
      simp [hc] at this

theorem removeTrack_eq (Anim : UAnimSequence) (TrackName : String) (j : Nat)
    (hj : GetTrackIndexForAnimationNotifyTrackName Anim TrackName = (j : Int)) :
    RemoveAnimationNotifyTrack Anim TrackName =
      { Anim with
        Notifies := (Anim.Notifies.filter (fun e => e.TrackIndex != (j : Int))).map
          (fun e => { e with TrackIndex := shiftTrackIndex j e.TrackIndex })
        AuthoredSyncMarkers :=
          (Anim.AuthoredSyncMarkers.filter (fun m => m.TrackIndex != (j : Int))).map
            (fun m => { m with TrackIndex := shiftTrackIndex j m.TrackIndex })
        AnimNotifyTracks := Anim.AnimNotifyTracks.eraseIdx j } := by
  unfold RemoveAnimationNotifyTrack
  have hne : (j : Int) ≠ INDEX_NONE := by
    unfold INDEX_NONE
    omega
  simp only [hj, if_pos hne, Int.toNat_ofNat]
  congr 1
  · apply congrArg₂
    · funext e
      unfold shiftTrackIndex
      split <;> rfl
    · congr 1
  · apply congrArg₂
    · funext m
      unfold shiftTrackIndex
      split <;> rfl
    · congr 1

theorem trackNameAt_eraseIdx (Anim Out : UAnimSequence) (j : Nat)
    (hout : Out.AnimNotifyTracks = Anim.AnimNotifyTracks.eraseIdx j) (i : Int) (hi : i ≠ (j : Int)) :
    Out.trackNameAt (shiftTrackIndex j i) = Anim.trackNameAt i := by
  unfold UAnimSequence.trackNameAt shiftTrackIndex
  rw [hout]
  by_cases hgt : i > (j : Int)
  · have h0 : (0 : Int) ≤ i - 1 := by omega
    have h1 : (0 : Int) ≤ i := by omega
    rw [if_pos hgt, if_pos h0, if_pos h1, List.getElem?_eraseIdx]
    have h2 : ¬ (i - 1).toNat < j := by omega
    rw [if_neg h2]
    congr 1
    omega
  · rw [if_neg hgt]
    by_cases h0 : (0 : Int) ≤ i
    · rw [if_pos h0, if_pos h0, List.getElem?_eraseIdx]
      have h2 : i.toNat < j := by omega
      rw [if_pos h2]
    · rw [if_neg h0, if_neg h0]

/-- C15: when `RemoveAnimationNotifyTrack` deletes the track at index `k`, the markers and
events that remain are those whose track index is not `k`, in the same order, with the index
decremented by one when it is greater than `k` and unchanged when it is less than `k`; and the
new index refers to the track of the same name as the old index did before the removal. -/
theorem removeTrack_index_consistency (Anim : UAnimSequence) (TrackName : String) (k : Int)
    (hk : GetTrackIndexForAnimationNotifyTrackName Anim TrackName = k)
    (hne : k ≠ INDEX_NONE) :
    (RemoveAnimationNotifyTrack Anim TrackName).AuthoredSyncMarkers
      = (Anim.AuthoredSyncMarkers.filter (fun m => m.TrackIndex != k)).map
          (fun m => { m with TrackIndex := shiftTrackIndex k m.TrackIndex }) ∧
    (RemoveAnimationNotifyTrack Anim TrackName).Notifies
      = (Anim.Notifies.filter (fun e => e.TrackIndex != k)).map
          (fun e => { e with TrackIndex := shiftTrackIndex k e.TrackIndex }) ∧
    (∀ i : Int,
      (i > k → shiftTrackIndex k i = i - 1) ∧
      (i < k → shiftTrackIndex k i = i) ∧
      (i ≠ k →
        (RemoveAnimationNotifyTrack Anim TrackName).trackNameAt (shiftTrackIndex k i)
          = Anim.trackNameAt i)) := by
  obtain ⟨j, hj, _, _⟩ := getTrackIndex_spec Anim TrackName (hk ▸ hne)
  have hkj : k = (j : Int) := by rw [← hk, hj]
  rw [removeTrack_eq Anim TrackName j hj, hkj]
  refine ⟨rfl, rfl, ?_⟩
  intro i
  refine ⟨?_, ?_, ?_⟩
  · intro h
    unfold shiftTrackIndex
    rw [if_pos h]
  · intro h
    unfold shiftTrackIndex
    rw [if_neg (by omega)]
  · intro h
    exact trackNameAt_eraseIdx Anim _ j rfl i h

/-- Removing the middle track `T` of three: the marker on `T` goes, the marker on `B` moves from
index `2` to index `1`, which is the index of `B` afterwards. -/
theorem removeTrack_index_consistency_witness :
    GetTrackIndexForAnimationNotifyTrackName threeTrackAnimation "T" = 1 ∧
    (RemoveAnimationNotifyTrack threeTrackAnimation "T").AuthoredSyncMarkers
      = [{ MarkerName := "a", Time := 1, TrackIndex := 0 },
         { MarkerName := "b", Time := 3, TrackIndex := 1 }] ∧
    (RemoveAnimationNotifyTrack threeTrackAnimation "T").AnimNotifyTracks = ["A", "B"] ∧
    (RemoveAnimationNotifyTrack threeTrackAnimation "T").trackNameAt (shiftTrackIndex 1 2)
      = threeTrackAnimation.trackNameAt 2 :=
  ⟨by decide, by decide, by decide,
    ((removeTrack_index_consistency threeTrackAnimation "T" 1 (by decide) (by decide)).2.2
      2).2.2 (by decide)⟩

/-! ## Direction classification -/

theorem endsWith_exclusive (s p q : String) (hlen : p.data.length = q.data.length)
    (hne : p.data.map Char.toUpper ≠ q.data.map Char.toUpper)
    (hp : FString.EndsWith s p = true) : FString.EndsWith s q = false := by
  unfold FString.EndsWith at hp ⊢
  rw [List.isSuffixOf_iff_suffix] at hp
  cases hq : (q.data.map Char.toUpper).isSuffixOf (s.data.map Char.toUpper) with
  | false => rfl
  | true =>
    rw [List.isSuffixOf_iff_suffix] at hq
    exfalso
    apply hne
    have hle : (p.data.map Char.toUpper).length ≤ (q.data.map Char.toUpper).length := by
      simp [hlen]
    have hsuf := List.suffix_of_suffix_length_le hp hq hle
    exact hsuf.eq_of_length (by simp [hlen])

theorem endsWith_not_of_not_suffix (s p q : String)
    (hlen : p.data.length ≤ q.data.length)
    (hns : (p.data.map Char.toUpper).isSuffixOf (q.data.map Char.toUpper) = false)
    (hp : FString.EndsWith s p = true) : FString.EndsWith s q = false := by
  unfold FString.EndsWith at hp ⊢
  rw [List.isSuffixOf_iff_suffix] at hp
  cases hq : (q.data.map Char.toUpper).isSuffixOf (s.data.map Char.toUpper) with
  | false => rfl
  | true =>
    rw [List.isSuffixOf_iff_suffix] at hq
    exfalso
    have hle : (p.data.map Char.toUpper).length ≤ (q.data.map Char.toUpper).length := by
      simpa using hlen
    have hsuf := List.suffix_of_suffix_length_le hp hq hle
    rw [← List.isSuffixOf_iff_suffix, hns] at hsuf
    cases hsuf

/-- C17: `GetAnimDirection` tests the four diagonal suffixes before the four cardinal ones.  A
name ending in `FL`, `FR`, `BL` or `BR` is classified as that diagonal (left-forward,
right-forward, left-backward, right-backward) and not as the cardinal direction of its last
letter.  A name ending in `F` is classified as forward and one ending in `B` as backward; a name
ending in `R` but not in `FR` or `BR` is classified as right, and a name ending in `L` but not
in `FL` or `BL` as left.  A name matching none of the eight suffixes is classified as forward. -/
theorem getAnimDirection_diagonal_first (AnimName : String) :
    (FString.EndsWith AnimName "FL" = true →
      SGMarkerReference.GetAnimDirection AnimName = Direction.lf) ∧
    (FString.EndsWith AnimName "FR" = true →
      SGMarkerReference.GetAnimDirection AnimName = Direction.rf) ∧
    (FString.EndsWith AnimName "BL" = true →
      SGMarkerReference.GetAnimDirection AnimName = Direction.lb) ∧
    (FString.EndsWith AnimName "BR" = true →
      SGMarkerReference.GetAnimDirection AnimName = Direction.rb) ∧
    (FString.EndsWith AnimName "FL" = false ∧ FString.EndsWith AnimName "FR" = false ∧
      FString.EndsWith AnimName "BL" = false ∧ FString.EndsWith AnimName "BR" = false ∧
      FString.EndsWith AnimName "F" = false ∧ FString.EndsWith AnimName "B" = false ∧
      FString.EndsWith AnimName "R" = false ∧ FString.EndsWith AnimName "L" = false →
      SGMarkerReference.GetAnimDirection AnimName = Direction.f) ∧
    (FString.EndsWith AnimName "F" = true →
      SGMarkerReference.GetAnimDirection AnimName = Direction.f) ∧
    (FString.EndsWith AnimName "B" = true →
      SGMarkerReference.GetAnimDirection AnimName = Direction.b) ∧
    (FString.EndsWith AnimName "R" = true → FString.EndsWith AnimName "FR" = false →
      FString.EndsWith AnimName "BR" = false →
      SGMarkerReference.GetAnimDirection AnimName = Direction.r) ∧
    (FString.EndsWith AnimName "L" = true → FString.EndsWith AnimName "FL" = false →
      FString.EndsWith AnimName "BL" = false →
      SGMarkerReference.GetAnimDirection AnimName = Direction.l) ∧
    ((FString.EndsWith AnimName "FL" = true ∨ FString.EndsWith AnimName "BL" = true) →
      FString.EndsWith AnimName "L" = true
        ∧ SGMarkerReference.GetAnimDirection AnimName ≠ Direction.l) ∧
    ((FString.EndsWith AnimName "FR" = true ∨ FString.EndsWith AnimName "BR" = true) →
      FString.EndsWith AnimName "R" = true
        ∧ SGMarkerReference.GetAnimDirection AnimName ≠ Direction.r) := by
  have hFL : FString.EndsWith AnimName "FL" = true →
      SGMarkerReference.GetAnimDirection AnimName = Direction.lf := by
    intro h
    unfold SGMarkerReference.GetAnimDirection
    rw [if_pos h]
  have hFR : FString.EndsWith AnimName "FR" = true →
      SGMarkerReference.GetAnimDirection AnimName = Direction.rf := by
    intro h
    have h1 := endsWith_exclusive AnimName "FR" "FL" (by decide) (by decide) h
    unfold SGMarkerReference.GetAnimDirection
    simp [h, h1]
  have hBL : FString.EndsWith AnimName "BL" = true →
      SGMarkerReference.GetAnimDirection AnimName = Direction.lb := by
    intro h
    have h1 := endsWith_exclusive AnimName "BL" "FL" (by decide) (by decide) h
    have h2 := endsWith_exclusive AnimName "BL" "FR" (by decide) (by decide) h
    unfold SGMarkerReference.GetAnimDirection
    simp [h, h1, h2]
  have hBR : FString.EndsWith AnimName "BR" = true →
      SGMarkerReference.GetAnimDirection AnimName = Direction.rb := by
    intro h
    have h1 := endsWith_exclusive AnimName "BR" "FL" (by decide) (by decide) h
    have h2 := endsWith_exclusive AnimName "BR" "FR" (by decide) (by decide) h
    have h3 := endsWith_exclusive AnimName "BR" "BL" (by decide) (by decide) h
    unfold SGMarkerReference.GetAnimDirection
    simp [h, h1, h2, h3]
  have hsuffix : ∀ p q : String,
      (q.data.map Char.toUpper).isSuffixOf (p.data.map Char.toUpper) = true →
      FString.EndsWith AnimName p = true → FString.EndsWith AnimName q = true := by
    intro p q hqp hp
    unfold FString.EndsWith at hp ⊢
    rw [List.isSuffixOf_iff_suffix] at hp hqp ⊢
    exact hqp.trans hp
  refine ⟨hFL, hFR, hBL, hBR, ?_, ?_, ?_, ?_, ?_, ?_, ?_⟩
  · rintro ⟨h1, h2, h3, h4, h5, h6, h7, h8⟩
    unfold SGMarkerReference.GetAnimDirection
    simp [h1, h2, h3, h4, h5, h6, h7, h8]
  · intro h
    have h1 := endsWith_not_of_not_suffix AnimName "F" "FL" (by decide) (by decide) h
    have h2 := endsWith_not_of_not_suffix AnimName "F" "FR" (by decide) (by decide) h
    have h3 := endsWith_not_of_not_suffix AnimName "F" "BL" (by decide) (by decide) h
    have h4 := endsWith_not_of_not_suffix AnimName "F" "BR" (by decide) (by decide) h
    unfold SGMarkerReference.GetAnimDirection
    simp [h, h1, h2, h3, h4]
  · intro h
    have h1 := endsWith_not_of_not_suffix AnimName "B" "FL" (by decide) (by decide) h
    have h2 := endsWith_not_of_not_suffix AnimName "B" "FR" (by decide) (by decide) h
    have h3 := endsWith_not_of_not_suffix AnimName "B" "BL" (by decide) (by decide) h
    have h4 := endsWith_not_of_not_suffix AnimName "B" "BR" (by decide) (by decide) h
    have h5 := endsWith_exclusive AnimName "B" "F" (by decide) (by decide) h
    unfold SGMarkerReference.GetAnimDirection
    simp [h, h1, h2, h3, h4, h5]
  · intro h h2 h4
    have h1 := endsWith_not_of_not_suffix AnimName "R" "FL" (by decide) (by decide) h
    have h3 := endsWith_not_of_not_suffix AnimName "R" "BL" (by decide) (by decide) h
    have h5 := endsWith_exclusive AnimName "R" "F" (by decide) (by decide) h
    have h6 := endsWith_exclusive AnimName "R" "B" (by decide) (by decide) h
    unfold SGMarkerReference.GetAnimDirection
    simp [h, h1, h2, h3, h4, h5, h6]
  · intro h h1 h3
    have h2 := endsWith_not_of_not_suffix AnimName "L" "FR" (by decide) (by decide) h
    have h4 := endsWith_not_of_not_suffix AnimName "L" "BR" (by decide) (by decide) h
    have h5 := endsWith_exclusive AnimName "L" "F" (by decide) (by decide) h
    have h6 := endsWith_exclusive AnimName "L" "B" (by decide) (by decide) h
    have h7 := endsWith_exclusive AnimName "L" "R" (by decide) (by decide) h
    unfold SGMarkerReference.GetAnimDirection
    simp [h, h1, h2, h3, h4, h5, h6, h7]
  · intro h
    rcases h with h | h
    · exact ⟨hsuffix "FL" "L" (by decide) h, by rw [hFL h]; decide⟩
    · exact ⟨hsuffix "BL" "L" (by decide) h, by rw [hBL h]; decide⟩
  · intro h
    rcases h with h | h
    · exact ⟨hsuffix "FR" "R" (by decide) h, by rw [hFR h]; decide⟩
    · exact ⟨hsuffix "BR" "R" (by decide) h, by rw [hBR h]; decide⟩

/-- The name `Walk_FL` ends in both `FL` and `L` and is classified as left-forward; `Walk_F`,
`Walk_B`, `Walk_R` and `Walk_L` are classified as forward, backward, right and left; the
suffix test ignores the case, so `walk_bl` is left-backward; `Idle` matches no suffix and is
classified as forward. -/
theorem getAnimDirection_diagonal_first_witness :
    FString.EndsWith "Walk_FL" "FL" = true ∧ FString.EndsWith "Walk_FL" "L" = true ∧
    SGMarkerReference.GetAnimDirection "Walk_FL" = Direction.lf ∧
    SGMarkerReference.GetAnimDirection "Idle" = Direction.f ∧
    SGMarkerReference.GetAnimDirection "Walk_F" = Direction.f ∧
    SGMarkerReference.GetAnimDirection "Walk_B" = Direction.b ∧
    SGMarkerReference.GetAnimDirection "Walk_R" = Direction.r ∧
    SGMarkerReference.GetAnimDirection "Walk_L" = Direction.l ∧
    SGMarkerReference.GetAnimDirection "walk_bl" = Direction.lb :=
  ⟨by decide, by decide, (getAnimDirection_diagonal_first "Walk_FL").1 (by decide), by decide,
    (getAnimDirection_diagonal_first "Walk_F").2.2.2.2.2.1 (by decide),
    (getAnimDirection_diagonal_first "Walk_B").2.2.2.2.2.2.1 (by decide),
    (getAnimDirection_diagonal_first "Walk_R").2.2.2.2.2.2.2.1 (by decide) (by decide)
      (by decide),
    (getAnimDirection_diagonal_first "Walk_L").2.2.2.2.2.2.2.2.1 (by decide) (by decide)
      (by decide),
    (getAnimDirection_diagonal_first "walk_bl").2.2.1 (by decide)⟩

/-! ## Which interval the scan selects -/

theorem scan_last_spec (p : FootInterval → Prop) [DecidablePred p] (l : List FootInterval)
    (init : FootInterval) :
    (∃ before after,
        l = before ++ l.foldl (fun target interval => if p interval then interval else target)
              init :: after
        ∧ p (l.foldl (fun target interval => if p interval then interval else target) init)
        ∧ ∀ y ∈ after, ¬ p y)
    ∨ ((∀ y ∈ l, ¬ p y)
        ∧ l.foldl (fun target interval => if p interval then interval else target) init
            = init) := by
  induction l generalizing init with
  | nil => right; simp
  | cons a l ih =>
    rw [List.foldl_cons]
    rcases ih (if p a then a else init) with ⟨before, after, hl, hp, hafter⟩ | ⟨hnone, hr⟩
    · left
      refine ⟨a :: before, after, ?_, hp, hafter⟩
      rw [List.cons_append, ← hl]
    · by_cases hpa : p a
      · left
        rw [hr, if_pos hpa]
        exact ⟨[], l, rfl, hpa, hnone⟩
      · right
        rw [hr, if_neg hpa]
        refine ⟨?_, rfl⟩
        intro y hy
        rcases List.mem_cons.mp hy with h | h
        · rw [h]; exact hpa
        · exact hnone y h

/-! ## Where the reconstructed times lie -/

theorem specCandidateTime_inside (d ratio : ℚ) (h0 : 0 ≤ ratio) (h1 : ratio < 1)
    (iv : FootInterval) (hpos : 0 < iv.span d) :
    iv.inside (specCandidateTime d ratio iv) = true := by
  unfold FootInterval.span at hpos
  unfold FootInterval.inside specCandidateTime
  by_cases hw : iv.IsWrapped = true
  · simp only [hw, if_true] at hpos ⊢
    have hprod : 0 ≤ (iv.Right - iv.Left + d) * ratio :=
      mul_nonneg (by linarith) h0
    have hlt : (iv.Right - iv.Left + d) * ratio < iv.Right - iv.Left + d := by
      have : (iv.Right - iv.Left + d) * ratio < (iv.Right - iv.Left + d) * 1 :=
        mul_lt_mul_of_pos_left h1 (by linarith)
      linarith
    split
    · apply decide_eq_true
      right
      linarith
    · apply decide_eq_true
      left
      linarith
  · have hw2 : iv.IsWrapped = false := by
      cases h : iv.IsWrapped
      · rfl
      · exact absurd h hw
    simp only [hw2, Bool.false_eq_true, if_false] at hpos ⊢
    have hprod : 0 ≤ (iv.Right - iv.Left) * ratio := mul_nonneg (le_of_lt hpos) h0
    have hlt : (iv.Right - iv.Left) * ratio < iv.Right - iv.Left := by
      have : (iv.Right - iv.Left) * ratio < (iv.Right - iv.Left) * 1 :=
        mul_lt_mul_of_pos_left h1 hpos
      linarith
    apply decide_eq_true
    constructor <;> linarith

/-- C13, amended to exact arithmetic and to intervals of positive length: in exact arithmetic,
for every reference, every flag and every ratio in `[0, 1)`, each time returned by
`GetTimeFromRatio` is the candidate of an interval of that reference whose `IsOrderLeftRight`
equals the flag, and it lies inside that interval when the interval has positive length
(`Right - Left`, and `Right + duration - Left` for a wrapped interval).  So when all intervals
have positive length, each returned time lies inside an interval whose `IsOrderLeftRight` equals
the flag. -/
theorem getTimeFromRatio_inside_matching_interval (ref : SGMarkerReference)
    (ratio : ℚ) (h0 : 0 ≤ ratio) (h1 : ratio < 1) (flag : Bool) :
    (∀ t ∈ ref.GetTimeFromRatio ratio flag,
      ∃ iv ∈ ref.Intervals, iv.IsOrderLeftRight = flag
        ∧ t = specCandidateTime ref.PlayLength ratio iv
        ∧ (0 < iv.span ref.PlayLength → iv.inside t = true)) ∧
    ((∀ iv ∈ ref.Intervals, 0 < iv.span ref.PlayLength) →
      ∀ t ∈ ref.GetTimeFromRatio ratio flag,
        ∃ iv ∈ ref.Intervals, iv.IsOrderLeftRight = flag ∧ iv.inside t = true) := by
  have hfirst : ∀ t ∈ ref.GetTimeFromRatio ratio flag,
      ∃ iv ∈ ref.Intervals, iv.IsOrderLeftRight = flag
        ∧ t = specCandidateTime ref.PlayLength ratio iv
        ∧ (0 < iv.span ref.PlayLength → iv.inside t = true) := by
    intro t ht
    rw [getTimeFromRatio_eq, List.mem_map] at ht
    obtain ⟨iv, hiv, hcand⟩ := ht
    rw [List.mem_filter] at hiv
    refine ⟨iv, hiv.1, by simpa using hiv.2, hcand.symm, ?_⟩
    intro hpos
    rw [← hcand]
    exact specCandidateTime_inside ref.PlayLength ratio h0 h1 iv hpos
  refine ⟨hfirst, ?_⟩
  intro hpos t ht
  obtain ⟨iv, hiv, hflag, _, hin⟩ := hfirst t ht
  exact ⟨iv, hiv, hflag, hin (hpos iv hiv)⟩

/-- The right-then-left times of ratio one half on the wrap example; no operation rounds
there, and the `float` arithmetic gives the same times. -/
theorem getTimeFromRatio_inside_matching_interval_witness :
    (∀ iv ∈ walkReference.Intervals, 0 < iv.span walkReference.PlayLength) ∧
    (∀ t ∈ walkReference.GetTimeFromRatio (1 / 2) false,
      ∃ iv ∈ walkReference.Intervals, iv.IsOrderLeftRight = false ∧ iv.inside t = true) ∧
    walkReference.GetTimeFromRatio (1 / 2) false = [4, 8] ∧
    walkReference.GetTimeFromRatioRounded roundFloat32 (1 / 2) false = [4, 8] :=
  have hpos : ∀ iv ∈ walkReference.Intervals, 0 < iv.span walkReference.PlayLength := by
    decide!
  ⟨hpos,
    (getTimeFromRatio_inside_matching_interval walkReference (1 / 2) (by norm_num)
      (by norm_num) false).2 hpos,
    by decide!, by decide!⟩

/-! ## Old markers on a track of different index -/

/-- C16, evaluated at a failing input: the source has the track `T` at index `0` with one marker
and one event at time `2`; the target has `T` at index `1`, carrying a marker and an event at
time `4`.  After the call the track `T` of the target still carries the old marker and the old
event at time `4`, next to the inserted ones at the times `2` and `6`. -/
theorem sync_keeps_old_markers_on_shifted_track :
    twoAnimationModule.SyncReferenceGroup [oneMarkerSource, staleTarget] 0 "T"
      = some
        [twoCycleSource,
         { staleTarget with
           AuthoredSyncMarkers :=
             [{ MarkerName := "old", Time := 4, TrackIndex := 1 },
              { MarkerName := "m", Time := 2, TrackIndex := 1 },
              { MarkerName := "m", Time := 6, TrackIndex := 1 }],
           Notifies :=
             [{ NotifyClass := "old", Time := 4, TrackIndex := 1 },
              { NotifyClass := "c", Time := 2, TrackIndex := 1 },
              { NotifyClass := "c", Time := 6, TrackIndex := 1 }] }] := by
  decide!

/-! ## Only valid references enter the reference group -/

theorem addOneReference_cases (self : FAnimCurveToolModule) (Detection : ContactDetection)
    (Heap : List UAnimSequence) (G G2 : List (Nat × SGMarkerReference)) (a : Nat)
    (h : self.addOneReference Detection Heap G a = some G2) :
    G2 = G ∨ (G.lookup a = none ∧ ∃ AnimObject, Heap[a]? = some AnimObject
      ∧ (SGMarkerReference.fromAnimation Detection AnimObject self.FootLeft
            self.FootRight).bIsValid = true
      ∧ G2 = G ++ [(a, SGMarkerReference.fromAnimation Detection AnimObject self.FootLeft
            self.FootRight)]) := by
  unfold FAnimCurveToolModule.addOneReference at h
  split at h
  · rename_i hl
    split at h
    · cases h
    · rename_i AnimObject hobj
      split at h
      · left; simpa using h.symm
      · split at h
        · left; simpa using h.symm
        · simp only [] at h
          split at h
          · rename_i hv
            right
            exact ⟨hl, AnimObject, hobj, hv, by simpa using h.symm⟩
          · left; simpa using h.symm
  · left; simpa using h.symm

theorem addOneReference_progress (self : FAnimCurveToolModule) (Detection : ContactDetection)
    (Heap : List UAnimSequence) (G : List (Nat × SGMarkerReference)) (a : Nat)
    (ha : a < Heap.length) : ∃ G2, self.addOneReference Detection Heap G a = some G2 := by
  unfold FAnimCurveToolModule.addOneReference
  rw [List.getElem?_eq_getElem ha]
  simp only []
  split
  · split
    · exact ⟨_, rfl⟩
    · split
      · exact ⟨_, rfl⟩
      · split <;> exact ⟨_, rfl⟩
  · exact ⟨_, rfl⟩

theorem addToReferenceGroup_valid (self : FAnimCurveToolModule) (Detection : ContactDetection)
    (Heap : List UAnimSequence) (AnimSequences : List Nat) :
    ∀ (G out : List (Nat × SGMarkerReference)),
      (∀ entry ∈ G, entry.2.bIsValid = true) →
      self.AddToReferenceGroup Detection Heap AnimSequences G = some out →
      ∀ entry ∈ out, entry.2.bIsValid = true := by
  unfold FAnimCurveToolModule.AddToReferenceGroup
  induction AnimSequences with
  | nil =>
    intro G out hG hout
    simp only [List.foldlM_nil, pure, Option.some.injEq] at hout
    rw [← hout]
    exact hG
  | cons a rest ih =>
    intro G out hG hout
    rw [List.foldlM_cons] at hout
    cases hstep : self.addOneReference Detection Heap G a with
    | none =>
      simp only [hstep, bind, Option.bind] at hout
      cases hout
    | some G2 =>
      simp only [hstep, bind, Option.bind] at hout
      apply ih G2 out ?_ hout
      rcases addOneReference_cases self Detection Heap G G2 a hstep with h | ⟨_, obj, _, hv, h⟩
      · rw [h]; exact hG
      · rw [h]
        intro entry hentry
        rcases List.mem_append.mp hentry with h1 | h1
        · exact hG entry h1
        · simp only [List.mem_singleton] at h1
          rw [h1]
          exact hv

theorem addToReferenceGroup_progress (self : FAnimCurveToolModule)
    (Detection : ContactDetection) (Heap : List UAnimSequence) (AnimSequences : List Nat)
    (hheap : ∀ a ∈ AnimSequences, a < Heap.length) :
    ∀ G : List (Nat × SGMarkerReference),
      ∃ out, self.AddToReferenceGroup Detection Heap AnimSequences G = some out := by
  unfold FAnimCurveToolModule.AddToReferenceGroup
  induction AnimSequences with
  | nil =>
    intro G
    exact ⟨G, rfl⟩
  | cons a rest ih =>
    intro G
    obtain ⟨G2, hG2⟩ := addOneReference_progress self Detection Heap G a
      (hheap a (List.mem_cons_self _ _))
    obtain ⟨out, hout⟩ := ih (fun x hx => hheap x (List.mem_cons_of_mem _ hx)) G2
    refine ⟨out, ?_⟩
    rw [List.foldlM_cons]
    simp only [hG2, bind, Option.bind]
    exact hout

theorem addToReferenceGroup_excludes (self : FAnimCurveToolModule)
    (Detection : ContactDetection) (Heap : List UAnimSequence) (Anim : Nat)
    (AnimObject : UAnimSequence) (hobj : Heap[Anim]? = some AnimObject)
    (hinvalid : (SGMarkerReference.fromAnimation Detection AnimObject self.FootLeft
      self.FootRight).bIsValid = false)
    (AnimSequences : List Nat) :
    ∀ (G out : List (Nat × SGMarkerReference)),
      G.lookup Anim = none →
      self.AddToReferenceGroup Detection Heap AnimSequences G = some out →
      out.lookup Anim = none := by
  unfold FAnimCurveToolModule.AddToReferenceGroup
  induction AnimSequences with
  | nil =>
    intro G out hG hout
    simp only [List.foldlM_nil, pure, Option.some.injEq] at hout
    rw [← hout]
    exact hG
  | cons a rest ih =>
    intro G out hG hout
    rw [List.foldlM_cons] at hout
    cases hstep : self.addOneReference Detection Heap G a with
    | none =>
      simp only [hstep, bind, Option.bind] at hout
      cases hout
    | some G2 =>
      simp only [hstep, bind, Option.bind] at hout
      apply ih G2 out ?_ hout
      rcases addOneReference_cases self Detection Heap G G2 a hstep with h | ⟨_, obj, ho, hv, h⟩
      · rw [h]; exact hG
      · rw [h, List.lookup_append, hG]
        have hne : ¬ (Anim = a) := by
          intro heq
          rw [← heq, hobj] at ho
          simp only [Option.some.injEq] at ho
          rw [← ho, hinvalid] at hv
          cases hv
        have hb : (Anim == a) = false := by simpa using hne
        simp [List.lookup_cons, hb]

theorem foldlM_set_frame (f : UAnimSequence → Nat × SGMarkerReference → Option UAnimSequence)
    (Anim : Nat) (G : List (Nat × SGMarkerReference)) :
    ∀ (H H2 : List UAnimSequence), (∀ e ∈ G, e.1 ≠ Anim) →
      G.foldlM (fun Heap e =>
        match Heap[e.1]? with
        | none => none
        | some Target => (f Target e).map (fun Target => Heap.set e.1 Target)) H = some H2 →
      H2[Anim]? = H[Anim]? := by
  induction G with
  | nil =>
    intro H H2 _ h
    simp only [List.foldlM_nil, pure, Option.some.injEq] at h
    rw [h]
  | cons e rest ih =>
    intro H H2 hne h
    rw [List.foldlM_cons] at h
    cases hobj : H[e.1]? with
    | none =>
      simp only [hobj, bind, Option.bind] at h
      cases h
    | some Target =>
      cases hf : f Target e with
      | none =>
        simp only [hobj, hf, Option.map, bind, Option.bind] at h
        cases h
      | some Target2 =>
        simp only [hobj, hf, Option.map, bind, Option.bind] at h
        rw [ih _ H2 (fun x hx => hne x (List.mem_cons_of_mem _ hx)) h]
        exact List.getElem?_set_ne (hne e (List.mem_cons_self _ _))

theorem sync_frame_outside_group (self : FAnimCurveToolModule) (Anim : Nat)
    (hout : self.AnimReferenceGroup.lookup Anim = none)
    (Heap Heap2 : List UAnimSequence) (RefAnimSequence : Nat) (TrackName : String)
    (h : self.SyncReferenceGroup Heap RefAnimSequence TrackName = some Heap2) :
    Heap2[Anim]? = Heap[Anim]? := by
  have hkeys : ∀ e ∈ self.AnimReferenceGroup, e.1 ≠ Anim := by
    intro e he heq
    rw [List.lookup_eq_none_iff] at hout
    have := hout e he
    simp [heq] at this
  unfold FAnimCurveToolModule.SyncReferenceGroup at h
  split at h
  · simp only [Option.some.injEq] at h
    rw [h]
  · split at h
    · cases h
    · split at h
      · simp only [Option.some.injEq] at h
        rw [h]
      · exact foldlM_set_frame _ Anim _ Heap Heap2 hkeys h

theorem sync_source_outside_group (self : FAnimCurveToolModule) (Anim : Nat)
    (hout : self.AnimReferenceGroup.lookup Anim = none)
    (Heap : List UAnimSequence) (TrackName : String) :
    self.SyncReferenceGroup Heap Anim TrackName = some Heap := by
  unfold FAnimCurveToolModule.SyncReferenceGroup
  rw [hout]

theorem fromAnimation_invalid (Detection : ContactDetection) (AnimObject : UAnimSequence)
    (LeftFoot RightFoot : String)
    (h : Detection.GetContactTimeFromTurning
            (SGMarkerReference.GetAnimDirection AnimObject.Name) AnimObject LeftFoot = []
        ∨ Detection.GetContactTimeFromTurning
            (SGMarkerReference.GetAnimDirection AnimObject.Name) AnimObject RightFoot = []
        ∨ (Detection.GetContactTimeFromTurning
            (SGMarkerReference.GetAnimDirection AnimObject.Name) AnimObject LeftFoot).length
          ≠ (Detection.GetContactTimeFromTurning
            (SGMarkerReference.GetAnimDirection AnimObject.Name) AnimObject RightFoot).length) :
    (SGMarkerReference.fromAnimation Detection AnimObject LeftFoot RightFoot).bIsValid
      = false := by
  unfold SGMarkerReference.fromAnimation
  exact (construct_of_guard _ _ _ _ h).1

/-- C18: every reference stored in the reference-group map is valid.  This holds for the map of
a new module (empty), is preserved by `AddAllReferenceGroup` (which returns whenever the selected
addresses are in the heap) and by `ClearReferenceGroup`; and an animation outside the map whose
feet yield zero contacts or differing contact counts stays outside the map, so that
`SyncReferenceGroup` with it as source changes nothing and with any source leaves it unchanged. -/
theorem invalid_references_excluded (self : FAnimCurveToolModule)
    (Detection : ContactDetection) (Heap : List UAnimSequence) :
    ({} : FAnimCurveToolModule).AllReferencesValid ∧
    (self.AllReferencesValid →
      ∀ out, self.AddAllReferenceGroup Detection Heap = some out → out.AllReferencesValid) ∧
    ((∀ a ∈ self.SelectedAnimGroup, a < Heap.length) →
      ∃ out, self.AddAllReferenceGroup Detection Heap = some out) ∧
    self.ClearReferenceGroup.AllReferencesValid ∧
    (∀ (Anim : Nat) (AnimObject : UAnimSequence) (out : FAnimCurveToolModule),
      Heap[Anim]? = some AnimObject →
      self.AnimReferenceGroup.lookup Anim = none →
      (Detection.GetContactTimeFromTurning
            (SGMarkerReference.GetAnimDirection AnimObject.Name) AnimObject self.FootLeft = []
        ∨ Detection.GetContactTimeFromTurning
            (SGMarkerReference.GetAnimDirection AnimObject.Name) AnimObject self.FootRight = []
        ∨ (Detection.GetContactTimeFromTurning
            (SGMarkerReference.GetAnimDirection AnimObject.Name) AnimObject
              self.FootLeft).length
          ≠ (Detection.GetContactTimeFromTurning
            (SGMarkerReference.GetAnimDirection AnimObject.Name) AnimObject
              self.FootRight).length) →
      self.AddAllReferenceGroup Detection Heap = some out →
      out.AnimReferenceGroup.lookup Anim = none ∧
      (∀ (Heap2 : List UAnimSequence) (TrackName : String),
        out.SyncReferenceGroup Heap2 Anim TrackName = some Heap2) ∧
      (∀ (Heap2 Heap3 : List UAnimSequence) (RefAnimSequence : Nat) (TrackName : String),
        out.SyncReferenceGroup Heap2 RefAnimSequence TrackName = some Heap3 →
        Heap3[Anim]? = Heap2[Anim]?)) := by
  refine ⟨?_, ?_, ?_, ?_, ?_⟩
  · intro entry hentry
    cases hentry
  · intro hvalid out hout
    unfold FAnimCurveToolModule.AddAllReferenceGroup at hout
    cases hG : self.AddToReferenceGroup Detection Heap self.SelectedAnimGroup
        self.AnimReferenceGroup with
    | none =>
      rw [hG] at hout
      cases hout
    | some G =>
      rw [hG] at hout
      simp only [Option.map, Option.some.injEq] at hout
      rw [← hout]
      exact addToReferenceGroup_valid self Detection Heap _ _ G hvalid hG
  · intro hheap
    obtain ⟨G, hG⟩ := addToReferenceGroup_progress self Detection Heap _ hheap
      self.AnimReferenceGroup
    unfold FAnimCurveToolModule.AddAllReferenceGroup
    rw [hG]
    exact ⟨_, rfl⟩
  · intro entry hentry
    cases hentry
  · intro Anim AnimObject out hobj hlook hcontacts hout
    unfold FAnimCurveToolModule.AddAllReferenceGroup at hout
    cases hG : self.AddToReferenceGroup Detection Heap self.SelectedAnimGroup
        self.AnimReferenceGroup with
    | none =>
      rw [hG] at hout
      cases hout
    | some G =>
      rw [hG] at hout
      simp only [Option.map, Option.some.injEq] at hout
      have hnone : out.AnimReferenceGroup.lookup Anim = none := by
        rw [← hout]
        exact addToReferenceGroup_excludes self Detection Heap Anim AnimObject hobj
          (fromAnimation_invalid Detection AnimObject _ _ hcontacts) _ _ G hlook hG
      refine ⟨hnone, ?_, ?_⟩
      · intro Heap2 TrackName
        exact sync_source_outside_group out Anim hnone Heap2 TrackName
      · intro Heap2 Heap3 RefAnimSequence TrackName hsync
        exact sync_frame_outside_group out Anim hnone Heap2 Heap3 RefAnimSequence TrackName
          hsync

/-- Adding the two selected animations with `walkOnlyDetection`: `Walk_F` enters the map with a
valid reference, `Run_F`, whose feet yield no contact, does not. -/
theorem invalid_references_excluded_witness :
    ({ SelectedAnimGroup := [0, 1] } : FAnimCurveToolModule).AddAllReferenceGroup
        walkOnlyDetection [oneMarkerSource, shiftedTarget]
      = some { SelectedAnimGroup := [0, 1], AnimReferenceGroup := [(0, walkReference)] } ∧
    ({ SelectedAnimGroup := [0, 1], AnimReferenceGroup := [(0, walkReference)] } :
      FAnimCurveToolModule).AllReferencesValid :=
  have hout : ({ SelectedAnimGroup := [0, 1] } : FAnimCurveToolModule).AddAllReferenceGroup
        walkOnlyDetection [oneMarkerSource, shiftedTarget]
      = some { SelectedAnimGroup := [0, 1], AnimReferenceGroup := [(0, walkReference)] } := by
    decide
  ⟨hout,
    (invalid_references_excluded { SelectedAnimGroup := [0, 1] } walkOnlyDetection
      [oneMarkerSource, shiftedTarget]).2.1 (by decide) _ hout⟩

/-! ## The cycle of a strictly interleaved pair of contact lists -/

theorem cycleFrom_interleaved (o : Bool) (first : ℚ) (A : List ℚ) :
    ∀ (a : ℚ) (B : List ℚ), (a :: A).length = B.length →
      (interleave (a :: A) B).Sorted (· < ·) → first ≤ a →
      a < B.getLastD 0 ∧
      (∀ iv ∈ cycleFrom o first (a :: A) B,
        (iv.Left < iv.Right ∧ a ≤ iv.Left ∧ iv.Right ≤ B.getLastD 0)
        ∨ iv = FootInterval.new (B.getLastD 0) first (!o)) ∧
      (cycleFrom o first (a :: A) B).Pairwise (fun x y => x.Right ≤ y.Left) := by
  induction A with
  | nil =>
    intro a B hlen hs hfa
    match B, hlen with
    | [b], _ =>
      rw [interleave_cons_cons] at hs
      have hab : a < b := List.rel_of_sorted_cons hs b (List.mem_cons_self _ _)
      refine ⟨by simpa [List.getLastD] using hab, ?_, ?_⟩
      · intro iv hiv
        simp only [cycleFrom, List.getD_cons_zero, List.headD_nil, List.mem_cons,
          List.mem_singleton, List.not_mem_nil, or_false] at hiv
        rcases hiv with h | h
        · left
          rw [h]
          exact ⟨hab, le_rfl, by simp [FootInterval.new, List.getLastD]⟩
        · right
          rw [h]
          simp [List.getLastD]
      · simp [cycleFrom, FootInterval.new]
  | cons a2 A2 ih =>
    intro a B hlen hs hfa
    match B, hlen with
    | b :: b2 :: B2, hlen =>
      rw [interleave_cons_cons] at hs
      have hab : a < b := List.rel_of_sorted_cons hs b (List.mem_cons_self _ _)
      have hs1 := List.Sorted.of_cons hs
      rw [interleave_cons_cons] at hs1
      have hba : b < a2 := List.rel_of_sorted_cons hs1 a2 (List.mem_cons_self _ _)
      have hs2 := List.Sorted.of_cons hs1
      rw [← interleave_cons_cons] at hs2
      have hlen2 : (a2 :: A2).length = (b2 :: B2).length := by
        simp only [List.length_cons] at hlen ⊢
        omega
      obtain ⟨hM, hall, hpw⟩ := ih a2 (b2 :: B2) hlen2 hs2 (by linarith)
      have hlast : (b :: b2 :: B2).getLastD 0 = (b2 :: B2).getLastD 0 := by
        simp [List.getLastD]
      rw [hlast]
      have hleft : ∀ y ∈ cycleFrom o first (a2 :: A2) (b2 :: B2), a2 ≤ y.Left := by
        intro y hy
        rcases hall y hy with h | h
        · exact h.2.1
        · rw [h]
          exact le_of_lt hM
      refine ⟨by linarith, ?_, ?_⟩
      · intro iv hiv
        rw [cycleFrom] at hiv
        simp only [List.getD_cons_zero, List.headD_cons, List.tail_cons, List.mem_cons] at hiv
        rcases hiv with h | h | h
        · left
          rw [h]
          exact ⟨hab, le_rfl, by simp only [FootInterval.new]; linarith⟩
        · left
          rw [h]
          exact ⟨hba, by simp only [FootInterval.new]; linarith,
            by simp only [FootInterval.new]; linarith⟩
        · rcases hall iv h with h2 | h2
          · left
            exact ⟨h2.1, by linarith [h2.2.1], h2.2.2⟩
          · right
            exact h2
      · rw [cycleFrom]
        simp only [List.getD_cons_zero, List.headD_cons, List.tail_cons]
        refine List.Pairwise.cons ?_ (List.Pairwise.cons ?_ hpw)
        · intro y hy
          rcases List.mem_cons.mp hy with h | h
          · rw [h]
            simp [FootInterval.new]
          · have := hleft y h
            simp only [FootInterval.new]
            linarith
        · intro y hy
          exact hleft y hy

/-! ## Invertibility of the resampling -/

theorem strictly_inside_unique (l : List FootInterval)
    (hpw : l.Pairwise (fun x y => x.Right ≤ y.Left)) (u : ℚ) (x y : FootInterval)
    (hx : x ∈ l) (hy : y ∈ l) (hxu : x.Left < u ∧ u < x.Right) (hyu : y.Left < u ∧ u < y.Right) :
    x = y := by
  have hsym : Symmetric (fun x y : FootInterval =>
      (x.Left < u ∧ u < x.Right) → (y.Left < u ∧ u < y.Right) → x = y) := by
    intro p q h hq hp
    exact (h hp hq).symm
  have hpw2 : l.Pairwise (fun x y : FootInterval =>
      (x.Left < u ∧ u < x.Right) → (y.Left < u ∧ u < y.Right) → x = y) := by
    refine hpw.imp ?_
    intro p q hpq hp hq
    exfalso
    linarith [hp.2, hq.1]
  exact List.Pairwise.forall_of_forall hsym (fun _ _ _ _ => rfl) hpw2 hx hy hxu hyu

theorem cycle_invertible (ref : SGMarkerReference) (o : Bool) (a : ℚ) (A B : List ℚ)
    (hI : ref.Intervals = cycleFrom o a (a :: A) B)
    (hlen : (a :: A).length = B.length)
    (hs : (interleave (a :: A) B).Sorted (· < ·))
    (h0 : 0 ≤ a) (hM : B.getLastD 0 < ref.PlayLength)
    (r : ℚ) (hr0 : 0 < r) (hr1 : r < 1) (flag : Bool) :
    ∀ u ∈ ref.GetTimeFromRatio r flag, ref.GetRatioFromTime u = some (r, flag) := by
  obtain ⟨haM, hall, hpw⟩ := cycleFrom_interleaved o a A a B hlen hs le_rfl
  have hlastI := cycleFrom_getLast? o a A a B hlen
  have hcons := cycleFrom_constructed o a (a :: A) B
  rw [← hI] at hall hpw hlastI hcons
  intro u hu
  rw [getTimeFromRatio_eq, List.mem_map] at hu
  obtain ⟨iv, hiv, hcand⟩ := hu
  rw [List.mem_filter] at hiv
  obtain ⟨hmem, hflag⟩ := hiv
  have hflag2 : iv.IsOrderLeftRight = flag := by simpa using hflag
  rcases hall iv hmem with ⟨hlr, hlo, hhi⟩ | hfinal
  · -- a non-wrapped interval: the time is strictly inside it and inside no other
    have hw : iv.IsWrapped = false := by
      rw [hcons iv hmem]
      simp only [decide_eq_false_iff_not, not_lt, gt_iff_lt]
      exact le_of_lt hlr
    have hpos : 0 < iv.Right - iv.Left := by linarith
    have hu : u = iv.Left + (iv.Right - iv.Left) * r := by
      rw [← hcand]
      unfold specCandidateTime
      simp [hw]
    have hprod0 : 0 < (iv.Right - iv.Left) * r := mul_pos hpos hr0
    have hprod1 : (iv.Right - iv.Left) * r < iv.Right - iv.Left := by
      have : (iv.Right - iv.Left) * r < (iv.Right - iv.Left) * 1 :=
        mul_lt_mul_of_pos_left hr1 hpos
      linarith
    have hin : iv.Left < u ∧ u < iv.Right := by
      constructor <;> linarith
    obtain ⟨target, hsel, htmem, htl, htr⟩ :=
      findTarget_of_contains ref u ⟨iv, hmem, hin.1, hin.2⟩
    have heq : target = iv := strictly_inside_unique ref.Intervals hpw u target iv htmem hmem
      ⟨htl, htr⟩ hin
    unfold SGMarkerReference.GetRatioFromTime
    rw [hsel, heq]
    have hd : iv.Right - iv.Left ≠ 0 := ne_of_gt hpos
    simp only [SGMarkerReference.ratioIn, hw, Bool.not_false, if_true, floatDiv, hd, if_false,
      Option.map_some', hflag2, Option.some.injEq, Prod.mk.injEq, and_true]
    rw [hu]
    field_simp
  · -- the closing interval: the time is strictly inside no interval
    have hL : iv.Left = B.getLastD 0 := by rw [hfinal]; rfl
    have hR : iv.Right = a := by rw [hfinal]; rfl
    have hw : iv.IsWrapped = true := by
      rw [hcons iv hmem, hL, hR]
      exact decide_eq_true haM
    have hW : 0 < iv.Right - iv.Left + ref.PlayLength := by rw [hL, hR]; linarith
    have hprod0 : 0 < (iv.Right - iv.Left + ref.PlayLength) * r := mul_pos hW hr0
    have hprod1 : (iv.Right - iv.Left + ref.PlayLength) * r
        < iv.Right - iv.Left + ref.PlayLength := by
      have : (iv.Right - iv.Left + ref.PlayLength) * r
          < (iv.Right - iv.Left + ref.PlayLength) * 1 := mul_lt_mul_of_pos_left hr1 hW
      linarith
    have hnone : ¬ ∃ y ∈ ref.Intervals, u > y.Left ∧ u < y.Right := by
      rintro ⟨y, hy, hyl, hyr⟩
      have hybounds : a ≤ y.Left ∧ y.Right ≤ B.getLastD 0 := by
        rcases hall y hy with h | h
        · exact ⟨h.2.1, h.2.2⟩
        · rw [h]
          exact ⟨le_of_lt haM, le_of_lt haM⟩
      rw [← hcand] at hyl hyr
      unfold specCandidateTime at hyl hyr
      simp only [hw, if_true] at hyl hyr
      split at hyl
      · rw [hL, hR] at hyl hprod1
        linarith [hybounds.1]
      · rename_i hle
        rw [if_neg hle] at hyr
        rw [hL] at hyr hprod0
        linarith [hybounds.2]
    have hsel : ref.findTarget u = some iv := by
      rw [findTarget_of_not_contains ref u hnone, hlastI, hfinal]
    unfold SGMarkerReference.GetRatioFromTime
    rw [hsel]
    have hd : iv.Right + ref.PlayLength - iv.Left ≠ 0 := by
      have : iv.Right + ref.PlayLength - iv.Left = iv.Right - iv.Left + ref.PlayLength := by
        ring
      rw [this]
      exact ne_of_gt hW
    have hshift : (if u < iv.Left then u + ref.PlayLength else u)
        = iv.Left + (iv.Right - iv.Left + ref.PlayLength) * r := by
      rw [← hcand]
      unfold specCandidateTime
      simp only [hw, if_true]
      split
      · rename_i hgt
        have : iv.Left + (iv.Right - iv.Left + ref.PlayLength) * r - ref.PlayLength
            < iv.Left := by
          rw [hL, hR] at hprod1 ⊢
          linarith
        rw [if_pos this]
        ring
      · have : ¬ iv.Left + (iv.Right - iv.Left + ref.PlayLength) * r < iv.Left := by
          linarith
        rw [if_neg this]
    simp only [SGMarkerReference.ratioIn, hw, Bool.not_true, Bool.false_eq_true, if_false,
      floatDiv, hd, Option.map_some', hflag2, Option.some.injEq, Prod.mk.injEq, and_true]
    rw [hshift]
    field_simp
    ring

theorem getLastD_mem (l : List ℚ) (hne : l ≠ []) : l.getLastD 0 ∈ l := by
  obtain ⟨x, xs, hx⟩ := List.exists_cons_of_ne_nil hne
  rw [hx]
  show (x :: xs).getLast (List.cons_ne_nil x xs) ∈ x :: xs
  exact List.getLast_mem _

/-- C19, amended to exact arithmetic: in exact arithmetic, for every valid reference whose
contact lists are sorted, of equal length, within `[0, duration)` and strictly interleaved,
every flag and every ratio `r` with `0 < r < 1`, each time `u` returned by
`GetTimeFromRatio r flag` satisfies `GetRatioFromTime u = (r, flag)`. -/
theorem resampling_invertible (d : ℚ) (dir : Direction) (L R : List ℚ)
    (hL : L.Sorted (· ≤ ·)) (hR : R.Sorted (· ≤ ·)) (hne : L ≠ []) (hlen : L.length = R.length)
    (hrange : ∀ x ∈ L ++ R, 0 ≤ x ∧ x < d)
    (hint : (interleave L R).Sorted (· < ·) ∨ (interleave R L).Sorted (· < ·))
    (r : ℚ) (hr0 : 0 < r) (hr1 : r < 1) (flag : Bool) :
    ∀ u ∈ (SGMarkerReference.construct d dir L R).GetTimeFromRatio r flag,
      (SGMarkerReference.construct d dir L R).GetRatioFromTime u = some (r, flag) := by
  have hneR : R ≠ [] := by
    intro h
    rw [h] at hlen
    exact hne (List.length_eq_zero.mp hlen)
  have hv := construct_valid d dir L R hL hR hne hlen
  have hd : (SGMarkerReference.construct d dir L R).PlayLength = d :=
    (construct_markers d dir L R).2.2
  obtain ⟨a, A, hA⟩ := List.exists_cons_of_ne_nil hne
  obtain ⟨b, B, hB⟩ := List.exists_cons_of_ne_nil hneR
  rcases hint with hs | hs
  · have hlt := interleave_head_lt L R hne hlen hs
    have hI : (SGMarkerReference.construct d dir L R).Intervals
        = cycleFrom true a (a :: A) R := by
      rw [hv]
      simp only [if_pos hlt, loopLeftFirst_eq_cycleFrom]
      rw [hA]
      simp
    have h0 : 0 ≤ a := (hrange a (List.mem_append_left _ (hA ▸ List.mem_cons_self _ _))).1
    have hM : R.getLastD 0 < (SGMarkerReference.construct d dir L R).PlayLength := by
      rw [hd]
      exact (hrange _ (List.mem_append_right _ (getLastD_mem R hneR))).2
    exact cycle_invertible _ true a A R hI (hA ▸ hlen) (hA ▸ hs) h0 hM r hr0 hr1 flag
  · have hlt := interleave_head_lt R L hneR hlen.symm hs
    have hnlt : ¬ L.getD 0 0 < R.getD 0 0 := not_lt.mpr (le_of_lt hlt)
    have hI : (SGMarkerReference.construct d dir L R).Intervals
        = cycleFrom false b (b :: B) L := by
      rw [hv]
      simp only [if_neg hnlt, loopRightFirst_eq_cycleFrom L R hlen]
      rw [hB]
      simp
    have h0 : 0 ≤ b := (hrange b (List.mem_append_right _ (hB ▸ List.mem_cons_self _ _))).1
    have hM : L.getLastD 0 < (SGMarkerReference.construct d dir L R).PlayLength := by
      rw [hd]
      exact (hrange _ (List.mem_append_left _ (getLastD_mem L hne))).2
    exact cycle_invertible _ false b B L hI (hB ▸ hlen.symm) (hB ▸ hs) h0 hM r hr0 hr1 flag

/-- The right-then-left times of ratio three quarters on the wrap example map back to that
ratio; the second one comes from the wrapped interval. -/
theorem resampling_invertible_witness :
    ([1, 5] : List ℚ).Sorted (· ≤ ·) ∧ ([3, 7] : List ℚ).Sorted (· ≤ ·) ∧
    (interleave [1, 5] [3, 7]).Sorted (· < ·) ∧
    (∀ x ∈ ([1, 5] ++ [3, 7] : List ℚ), 0 ≤ x ∧ x < 8) ∧
    (SGMarkerReference.construct 8 Direction.f [1, 5] [3, 7]).GetTimeFromRatio (3 / 4) false
      = [9 / 2, 1 / 2] ∧
    (∀ u ∈ (SGMarkerReference.construct 8 Direction.f [1, 5] [3, 7]).GetTimeFromRatio
        (3 / 4) false,
      (SGMarkerReference.construct 8 Direction.f [1, 5] [3, 7]).GetRatioFromTime u
        = some (3 / 4, false)) ∧
    (SGMarkerReference.construct 8 Direction.f [1, 5] [3, 7]).GetTimeFromRatioRounded
      roundFloat32 (3 / 4) false = [9 / 2, 1 / 2] ∧
    (∀ u ∈ (SGMarkerReference.construct 8 Direction.f [1, 5] [3, 7]).GetTimeFromRatioRounded
        roundFloat32 (3 / 4) false,
      (SGMarkerReference.construct 8 Direction.f [1, 5] [3, 7]).GetRatioFromTimeRounded
        roundFloat32 u = some (3 / 4, false)) :=
  have hs : (interleave [1, 5] [3, 7]).Sorted (· < ·) := by decide
  have hr : ∀ x ∈ ([1, 5] ++ [3, 7] : List ℚ), 0 ≤ x ∧ x < 8 := by decide
  ⟨by decide, by decide, hs, hr, by decide!,
    resampling_invertible 8 Direction.f [1, 5] [3, 7] (by decide) (by decide) (by decide)
      (by decide) hr (Or.inl hs) (3 / 4) (by norm_num) (by norm_num) false,
    by decide!, by decide!⟩

/-! ## A time on an interval bound -/

theorem cycle_bound_not_strictly_inside (o : Bool) (a : ℚ) (A B : List ℚ)
    (hlen : (a :: A).length = B.length) (hs : (interleave (a :: A) B).Sorted (· < ·))
    (x : FootInterval) (hx : x ∈ cycleFrom o a (a :: A) B) (t : ℚ)
    (ht : t = x.Left ∨ t = x.Right) :
    ¬ ∃ y ∈ cycleFrom o a (a :: A) B, t > y.Left ∧ t < y.Right := by
  obtain ⟨haM, hall, hpw⟩ := cycleFrom_interleaved o a A a B hlen hs le_rfl
  rintro ⟨y, hy, hyl, hyr⟩
  have hyord : y.Left < y.Right := by linarith
  have hybounds : a ≤ y.Left ∧ y.Right ≤ B.getLastD 0 := by
    rcases hall y hy with h | h
    · exact ⟨h.2.1, h.2.2⟩
    · rw [h]
      exact ⟨le_of_lt haM, le_of_lt haM⟩
  rcases hall x hx with ⟨hxord, _, _⟩ | hxfinal
  · have hsym : Symmetric (fun p q : FootInterval =>
        p.Left < p.Right → q.Left < q.Right → (p = q ∨ p.Right ≤ q.Left ∨ q.Right ≤ p.Left)) := by
      intro p q h hq hp
      rcases h hp hq with h1 | h1 | h1
      · exact Or.inl h1.symm
      · exact Or.inr (Or.inr h1)
      · exact Or.inr (Or.inl h1)
    have hpw2 : (cycleFrom o a (a :: A) B).Pairwise (fun p q : FootInterval =>
        p.Left < p.Right → q.Left < q.Right → (p = q ∨ p.Right ≤ q.Left ∨ q.Right ≤ p.Left)) :=
      hpw.imp (fun hpq _ _ => Or.inr (Or.inl hpq))
    have hcases := List.Pairwise.forall_of_forall hsym (fun _ _ _ _ => Or.inl rfl) hpw2 hx hy
      hxord hyord
    rcases hcases with h | h | h
    · rw [h] at ht
      rcases ht with ht | ht <;> linarith
    · rcases ht with ht | ht <;> linarith
    · rcases ht with ht | ht <;> linarith
  · have hxl : x.Left = B.getLastD 0 := by rw [hxfinal]; rfl
    have hxr : x.Right = a := by rw [hxfinal]; rfl
    rcases ht with ht | ht
    · rw [hxl] at ht
      linarith [hybounds.2]
    · rw [hxr] at ht
      linarith [hybounds.1]

theorem construct_bound_uses_final (d : ℚ) (dir : Direction) (L R : List ℚ)
    (hL : L.Sorted (· ≤ ·)) (hR : R.Sorted (· ≤ ·)) (hne : L ≠ []) (hlen : L.length = R.length)
    (hint : (interleave L R).Sorted (· < ·) ∨ (interleave R L).Sorted (· < ·))
    (x : FootInterval) (hx : x ∈ (SGMarkerReference.construct d dir L R).Intervals) (t : ℚ)
    (ht : t = x.Left ∨ t = x.Right) :
    (SGMarkerReference.construct d dir L R).findTarget t
      = (SGMarkerReference.construct d dir L R).Intervals.getLast? := by
  apply findTarget_of_not_contains
  have hneR : R ≠ [] := by
    intro h
    rw [h] at hlen
    exact hne (List.length_eq_zero.mp hlen)
  have hv := construct_valid d dir L R hL hR hne hlen
  obtain ⟨a, A, hA⟩ := List.exists_cons_of_ne_nil hne
  obtain ⟨b, B, hB⟩ := List.exists_cons_of_ne_nil hneR
  rcases hint with hs | hs
  · have hlt := interleave_head_lt L R hne hlen hs
    have hI : (SGMarkerReference.construct d dir L R).Intervals
        = cycleFrom true a (a :: A) R := by
      rw [hv]
      simp only [if_pos hlt, loopLeftFirst_eq_cycleFrom]
      rw [hA]
      simp
    rw [hI] at hx ⊢
    exact cycle_bound_not_strictly_inside true a A R (hA ▸ hlen) (hA ▸ hs) x hx t ht
  · have hlt := interleave_head_lt R L hneR hlen.symm hs
    have hnlt : ¬ L.getD 0 0 < R.getD 0 0 := not_lt.mpr (le_of_lt hlt)
    have hI : (SGMarkerReference.construct d dir L R).Intervals
        = cycleFrom false b (b :: B) L := by
      rw [hv]
      simp only [if_neg hnlt, loopRightFirst_eq_cycleFrom L R hlen]
      rw [hB]
      simp
    rw [hI] at hx ⊢
    exact cycle_bound_not_strictly_inside false b B L (hB ▸ hlen.symm) (hB ▸ hs) x hx t ht

/-- The claim C20 as stated fails in its parenthesis: the contact lists `[1, 2]` and `[3, 4]`
(sorted, of equal length, within `[0, 8)`) give a valid reference with the intervals `(1, 3)`,
`(3, 2)`, `(2, 4)`, `(4, 1)`; the time `2` is a bound of the second and of the third interval
and lies strictly inside the first one, which is the interval used, not the final one. -/
theorem boundary_time_inside_other_interval :
    (SGMarkerReference.construct 8 Direction.f [1, 2] [3, 4]).bIsValid = true ∧
    (SGMarkerReference.construct 8 Direction.f [1, 2] [3, 4]).Intervals
      = [{ Left := 1, Right := 3, IsOrderLeftRight := true, IsWrapped := false },
         { Left := 3, Right := 2, IsOrderLeftRight := false, IsWrapped := true },
         { Left := 2, Right := 4, IsOrderLeftRight := true, IsWrapped := false },
         { Left := 4, Right := 1, IsOrderLeftRight := false, IsWrapped := true }] ∧
    (SGMarkerReference.construct 8 Direction.f [1, 2] [3, 4]).findTarget 2
      = some { Left := 1, Right := 3, IsOrderLeftRight := true, IsWrapped := false } ∧
    (SGMarkerReference.construct 8 Direction.f [1, 2] [3, 4]).Intervals.getLast?
      = some { Left := 4, Right := 1, IsOrderLeftRight := false, IsWrapped := true } ∧
    (SGMarkerReference.construct 8 Direction.f [1, 2] [3, 4]).GetRatioFromTime 2
      = some (1 / 2, true) := by
  refine ⟨by decide, by decide, by decide, by decide, by decide!⟩

/-- C20, amended in its parenthesis: the interval used by `GetRatioFromTime` is the last
interval in list order with `Left < time < Right`; when no interval strictly contains the time,
it is the final interval of the list.  On a non-empty list the scan always yields an interval.
The final interval is the one used exactly when it strictly contains the time or no interval
does; so a time equal to an interval bound uses the final interval unless another interval
strictly contains that bound, and in a reference built from strictly interleaved contacts no
interval strictly contains a bound. -/
theorem findTarget_selects_last_containing (ref : SGMarkerReference) (Time : ℚ) :
    (ref.Intervals ≠ [] → ∃ target, ref.findTarget Time = some target) ∧
    (∀ target, ref.findTarget Time = some target →
      (∃ before after, ref.Intervals = before ++ target :: after
          ∧ (target.Left < Time ∧ Time < target.Right)
          ∧ ∀ iv ∈ after, ¬ (iv.Left < Time ∧ Time < iv.Right))
      ∨ ((∀ iv ∈ ref.Intervals, ¬ (iv.Left < Time ∧ Time < iv.Right))
          ∧ ref.Intervals.getLast? = some target)) ∧
    (∀ final, ref.Intervals.getLast? = some final →
      (ref.findTarget Time = some final ↔
        (final.Left < Time ∧ Time < final.Right)
          ∨ ∀ iv ∈ ref.Intervals, ¬ (iv.Left < Time ∧ Time < iv.Right))) ∧
    (∀ (d : ℚ) (dir : Direction) (L R : List ℚ),
      L.Sorted (· ≤ ·) → R.Sorted (· ≤ ·) → L ≠ [] → L.length = R.length →
      ((interleave L R).Sorted (· < ·) ∨ (interleave R L).Sorted (· < ·)) →
      ∀ x ∈ (SGMarkerReference.construct d dir L R).Intervals,
        (Time = x.Left ∨ Time = x.Right) →
        (SGMarkerReference.construct d dir L R).findTarget Time
          = (SGMarkerReference.construct d dir L R).Intervals.getLast?) := by
  have hrule : ∀ target, ref.findTarget Time = some target →
      (∃ before after, ref.Intervals = before ++ target :: after
          ∧ (target.Left < Time ∧ Time < target.Right)
          ∧ ∀ iv ∈ after, ¬ (iv.Left < Time ∧ Time < iv.Right))
      ∨ ((∀ iv ∈ ref.Intervals, ¬ (iv.Left < Time ∧ Time < iv.Right))
          ∧ ref.Intervals.getLast? = some target) := by
    intro target ht
    unfold SGMarkerReference.findTarget at ht
    cases hlast : ref.Intervals.getLast? with
    | none =>
      rw [hlast] at ht
      cases ht
    | some last =>
      rw [hlast] at ht
      simp only [Option.some.injEq] at ht
      rcases scan_last_spec (fun iv => Time > iv.Left ∧ Time < iv.Right) ref.Intervals last with
        ⟨before, after, hl, hp, hafter⟩ | ⟨hnone, hr⟩
      · left
        rw [ht] at hl hp
        exact ⟨before, after, hl, hp, hafter⟩
      · right
        rw [ht] at hr
        rw [hr]
        exact ⟨hnone, rfl⟩
  refine ⟨?_, hrule, ?_, ?_⟩
  · intro hne
    unfold SGMarkerReference.findTarget
    cases hlast : ref.Intervals.getLast? with
    | none =>
      rw [List.getLast?_eq_none_iff] at hlast
      exact absurd hlast hne
    | some last => exact ⟨_, rfl⟩
  · intro final hfinal
    constructor
    · intro ht
      rcases hrule final ht with ⟨_, _, _, hp, _⟩ | ⟨hnone, _⟩
      · exact Or.inl hp
      · exact Or.inr hnone
    · intro h
      rcases h with hp | hnone
      · have hmem : final ∈ ref.Intervals := List.mem_of_mem_getLast? hfinal
        obtain ⟨target, ht, _, _⟩ := findTarget_of_contains ref Time ⟨final, hmem, hp.1, hp.2⟩
        rcases hrule target ht with ⟨before, after, hl, _, hafter⟩ | ⟨hnone, _⟩
        · cases after with
          | nil =>
            rw [hl, List.getLast?_append_cons, List.getLast?_singleton] at hfinal
            rw [ht, hfinal]
          | cons y ys =>
            exfalso
            have hfin : final ∈ y :: ys := by
              rw [hl, List.getLast?_append_cons, List.getLast?_cons_cons] at hfinal
              exact List.mem_of_mem_getLast? hfinal
            exact hafter final hfin hp
        · exact absurd hp (hnone final hmem)
      · rw [findTarget_of_not_contains ref Time (by
          rintro ⟨iv, hiv, h1, h2⟩
          exact hnone iv hiv ⟨h1, h2⟩), hfinal]
  · intro d dir L R hL hR hne hlen hint x hx ht
    exact construct_bound_uses_final d dir L R hL hR hne hlen hint x hx Time ht

/-- Witness for C20 (amended): on the wrap example the time `3`, a bound of the intervals
`(1, 3)` and `(3, 5)`, uses the final interval `(7, 1)`, and so does the time `0`. -/
theorem findTarget_selects_last_containing_witness :
    walkReference.findTarget 3 = walkReference.Intervals.getLast? ∧
    (walkReference.findTarget 0
        = some { Left := 7, Right := 1, IsOrderLeftRight := false, IsWrapped := true } ↔
      ((7 : ℚ) < 0 ∧ (0 : ℚ) < 1)
        ∨ ∀ iv ∈ walkReference.Intervals, ¬ (iv.Left < 0 ∧ 0 < iv.Right)) :=
  ⟨(findTarget_selects_last_containing walkReference 3).2.2.2 8 Direction.f [1, 5] [3, 7]
      (by decide) (by decide) (by decide) (by decide) (Or.inl (by decide))
      { Left := 1, Right := 3, IsOrderLeftRight := true, IsWrapped := false } (by decide)
      (Or.inr rfl),
   (findTarget_selects_last_containing walkReference 0).2.2.1
      { Left := 7, Right := 1, IsOrderLeftRight := false, IsWrapped := true } (by decide)⟩

/-! ## Turning points -/

/-- C21: `IsTurningPoint` holds exactly when the movement-axis coordinate of the current frame
is a strict local extremum: for the direction left a strict local maximum of `X`, for right a
strict local minimum of `X`, for forward, left-forward and right-forward a strict local maximum
of `Y`, for backward, left-backward and right-backward a strict local minimum of `Y`. -/
theorem isTurningPoint_rule (l c n : FVector) :
    (SGMarkerReference.IsTurningPoint Direction.l l c n = true ↔ l.X < c.X ∧ c.X > n.X) ∧
    (SGMarkerReference.IsTurningPoint Direction.r l c n = true ↔ l.X > c.X ∧ c.X < n.X) ∧
    (∀ Dir, Dir = Direction.f ∨ Dir = Direction.lf ∨ Dir = Direction.rf →
      (SGMarkerReference.IsTurningPoint Dir l c n = true ↔ l.Y < c.Y ∧ c.Y > n.Y)) ∧
    (∀ Dir, Dir = Direction.b ∨ Dir = Direction.lb ∨ Dir = Direction.rb →
      (SGMarkerReference.IsTurningPoint Dir l c n = true ↔ l.Y > c.Y ∧ c.Y < n.Y)) := by
  refine ⟨?_, ?_, ?_, ?_⟩
  · simp [SGMarkerReference.IsTurningPoint]
  · simp [SGMarkerReference.IsTurningPoint]
  · intro Dir hDir
    rcases hDir with h | h | h <;> subst h <;> simp [SGMarkerReference.IsTurningPoint]
  · intro Dir hDir
    rcases hDir with h | h | h <;> subst h <;> simp [SGMarkerReference.IsTurningPoint]

/-- A frame whose `Y` is higher than both neighbours is a turning point of a forward
animation, and is none of a backward one. -/
theorem isTurningPoint_rule_witness :
    SGMarkerReference.IsTurningPoint Direction.lf
      { X := 0, Y := 0, Z := 0 } { X := 0, Y := 1, Z := 0 } { X := 0, Y := 0, Z := 0 } = true ∧
    SGMarkerReference.IsTurningPoint Direction.b
      { X := 0, Y := 0, Z := 0 } { X := 0, Y := 1, Z := 0 } { X := 0, Y := 0, Z := 0 } = false :=
  ⟨((isTurningPoint_rule { X := 0, Y := 0, Z := 0 } { X := 0, Y := 1, Z := 0 }
      { X := 0, Y := 0, Z := 0 }).2.2.1 Direction.lf (Or.inr (Or.inl rfl))).mpr
      (by decide),
    by decide⟩

/-! ## The frames examined by the turning-point loop -/

theorem foldl_cond_append {ι α : Type} (p : ι → Bool) (g : ι → α) (l : List ι) (init : List α) :
    l.foldl (fun acc i => if p i then acc ++ [g i] else acc) init
      = init ++ (l.filter p).map g := by
  induction l generalizing init with
  | nil => simp
  | cons a l ih =>
    rw [List.foldl_cons, ih]
    by_cases h : p a = true
    · simp [h, List.filter_cons]
    · simp [h, List.filter_cons]

theorem turningPoints_eq (Dir : Direction) (N : Int) (Location : Int → FVector) :
    SGMarkerReference.turningPoints Dir (N - 1) Location
      = ((examinedFrames N).filter (fun p =>
          SGMarkerReference.IsTurningPoint Dir (Location p.1) (Location p.2.1)
            (Location p.2.2))).map (fun p => p.2.1) := by
  unfold SGMarkerReference.turningPoints examinedFrames prevFrame nextFrame
  have h := foldl_cond_append
    (fun i : Nat => SGMarkerReference.IsTurningPoint Dir
      (Location (if (i : Int) = 0 then N - 1 - 1 else (i : Int) - 1)) (Location i)
      (Location (if (i : Int) = N - 1 - 1 then 0 else (i : Int) + 1)))
    (fun i : Nat => (i : Int)) (List.range (N - 1).toNat) []
  simp only [List.nil_append] at h
  rw [h, List.filter_map, List.map_map]
  rfl

theorem mem_examinedFrames (N : Int) (p : Int × Int × Int) :
    p ∈ examinedFrames N ↔
      0 ≤ p.2.1 ∧ p.2.1 < N - 1 ∧ p.1 = prevFrame (N - 1) p.2.1
        ∧ p.2.2 = nextFrame (N - 1) p.2.1 := by
  unfold examinedFrames
  rw [List.mem_map]
  constructor
  · rintro ⟨i, hi, rfl⟩
    rw [List.mem_range] at hi
    refine ⟨Int.ofNat_nonneg i, ?_, rfl, rfl⟩
    simp only
    omega
  · rintro ⟨h0, h1, hl, hn⟩
    refine ⟨p.2.1.toNat, ?_, ?_⟩
    · rw [List.mem_range]
      omega
    · have hcast : ((p.2.1.toNat : Nat) : Int) = p.2.1 := Int.toNat_of_nonneg h0
      rw [hcast, ← hl, ← hn]

/-- The claim C22 as stated fails: for an animation of `N = 4` frames the loop makes three
passes, over the frames `0, 1, 2`; the frame `3 = N - 1` is not examined, and the predecessor
used for the frame `0` is the frame `2`, not `3`.  With `Y = 0, 1, 0, 5` the frame `3` is higher
than both the frames `2` and `0`, and the turning points of a forward animation are `[1]`. -/
theorem last_frame_not_examined :
    examinedFrames 4 = [(2, 0, 1), (0, 1, 2), (1, 2, 0)] ∧
    (∀ p ∈ examinedFrames 4, p.2.1 ≠ 3 ∧ p.1 ≠ 3 ∧ p.2.2 ≠ 3) ∧
    SGMarkerReference.IsTurningPoint Direction.f (peakAtLastFrame 2) (peakAtLastFrame 3)
      (peakAtLastFrame 0) = true ∧
    SGMarkerReference.turningPoints Direction.f (4 - 1) peakAtLastFrame = [1] := by
  decide

/-- C22, amended: for an animation of `N` frames the turning-point loop examines every frame
index `0..N-2` and no other, with the neighbours of the cycle of `N - 1` frames: the predecessor
of the frame `0` is the frame `N - 2` and the successor of the frame `N - 2` is the frame `0`;
a frame is in `TurningPoints` exactly when it is examined and `IsTurningPoint` holds of it and
these neighbours. -/
theorem turning_point_scan (N : Int) (Dir : Direction) (Location : Int → FVector) :
    (∀ i : Int, 0 ≤ i → i < N - 1 →
      (prevFrame (N - 1) i, i, nextFrame (N - 1) i) ∈ examinedFrames N) ∧
    (∀ p ∈ examinedFrames N, 0 ≤ p.2.1 ∧ p.2.1 < N - 1 ∧ p.1 = prevFrame (N - 1) p.2.1
      ∧ p.2.2 = nextFrame (N - 1) p.2.1) ∧
    prevFrame (N - 1) 0 = N - 2 ∧ nextFrame (N - 1) (N - 2) = 0 ∧
    (∀ i : Int, 0 < i → prevFrame (N - 1) i = i - 1) ∧
    (∀ i : Int, i < N - 2 → nextFrame (N - 1) i = i + 1) ∧
    (∀ i : Int, i ∈ SGMarkerReference.turningPoints Dir (N - 1) Location ↔
      0 ≤ i ∧ i < N - 1 ∧
      SGMarkerReference.IsTurningPoint Dir (Location (prevFrame (N - 1) i)) (Location i)
        (Location (nextFrame (N - 1) i)) = true) := by
  refine ⟨?_, ?_, ?_, ?_, ?_, ?_, ?_⟩
  · intro i h0 h1
    exact (mem_examinedFrames N _).mpr ⟨h0, h1, rfl, rfl⟩
  · intro p hp
    exact (mem_examinedFrames N p).mp hp
  · unfold prevFrame
    rw [if_pos rfl]
    omega
  · unfold nextFrame
    rw [if_pos (by omega)]
  · intro i hi
    unfold prevFrame
    rw [if_neg (by omega)]
  · intro i hi
    unfold nextFrame
    rw [if_neg (by omega)]
  · intro i
    rw [turningPoints_eq, List.mem_map]
    constructor
    · rintro ⟨p, hp, rfl⟩
      rw [List.mem_filter] at hp
      obtain ⟨h0, h1, hl, hn⟩ := (mem_examinedFrames N p).mp hp.1
      refine ⟨h0, h1, ?_⟩
      rw [← hl, ← hn]
      exact hp.2
    · rintro ⟨h0, h1, htp⟩
      refine ⟨(prevFrame (N - 1) i, i, nextFrame (N - 1) i), ?_, rfl⟩
      rw [List.mem_filter]
      exact ⟨(mem_examinedFrames N _).mpr ⟨h0, h1, rfl, rfl⟩, htp⟩

/-- Witness for C22 (amended): in the animation of four frames with `Y = 0, 1, 0, 5` the frame
`1` of a forward animation is examined with the neighbours `0` and `2`, and the turning points
are the examined frames that are strict local maxima of `Y`. -/
theorem turning_point_scan_witness :
    (prevFrame (4 - 1) 1, 1, nextFrame (4 - 1) 1) ∈ examinedFrames 4 ∧
    (∀ i : Int, i ∈ SGMarkerReference.turningPoints Direction.f (4 - 1) peakAtLastFrame ↔
      0 ≤ i ∧ i < 4 - 1 ∧
      SGMarkerReference.IsTurningPoint Direction.f (peakAtLastFrame (prevFrame (4 - 1) i))
        (peakAtLastFrame i) (peakAtLastFrame (nextFrame (4 - 1) i)) = true) :=
  ⟨(turning_point_scan 4 Direction.f peakAtLastFrame).1 1 (by decide) (by decide),
   (turning_point_scan 4 Direction.f peakAtLastFrame).2.2.2.2.2.2⟩

/-! ## The stabilization walk -/

theorem twoPow_pos (k : Int) : 0 < twoPow k := by
  unfold twoPow
  split <;> positivity

theorem roundHalfEven_nonpos (q : ℚ) (h : q < 0) : roundHalfEven q ≤ 0 := by
  have hlt : ⌊q⌋ < 0 := Int.floor_lt.mpr (by simpa using h)
  unfold roundHalfEven
  split_ifs <;> omega

theorem roundFloat32_nonpos (x : ℚ) (h : x ≤ 0) : roundFloat32 x ≤ 0 := by
  unfold roundFloat32
  split_ifs with h0
  · exact le_rfl
  · have hx : x < 0 := lt_of_le_of_ne h h0
    have hu := twoPow_pos (max (binaryExponent x) (-126) - 23)
    have hq : x / twoPow (max (binaryExponent x) (-126) - 23) < 0 :=
      div_neg_of_neg_of_pos hx hu
    have hr : ((roundHalfEven (x / twoPow (max (binaryExponent x) (-126) - 23)) : Int) : ℚ)
        ≤ 0 := by
      exact_mod_cast roundHalfEven_nonpos _ hq
    simp only []
    nlinarith

theorem stabilize_spec (Height : Int → ℚ) (M : Int) (fuel : Nat) :
    ∀ (t n : Int), SGMarkerReference.stabilize Height M fuel t = some n →
      ∃ j : Nat, j < fuel ∧ n = nextFrame M ((nextFrame M)^[j] t)
        ∧ roundFloat32
            (Height ((nextFrame M)^[j] t) - Height (nextFrame M ((nextFrame M)^[j] t))) < 1 / 4
        ∧ ∀ i : Nat, i < j →
            1 / 4 ≤ roundFloat32 (Height ((nextFrame M)^[i] t)
              - Height (nextFrame M ((nextFrame M)^[i] t))) := by
  induction fuel with
  | zero =>
    intro t n h
    simp [SGMarkerReference.stabilize] at h
  | succ fuel ih =>
    intro t n h
    rw [SGMarkerReference.stabilize] at h
    by_cases hdrop :
        roundFloat32 (Height t - Height (if t = M - 1 then 0 else t + 1)) < 1 / 4
    · rw [if_pos hdrop] at h
      simp only [Option.some.injEq] at h
      refine ⟨0, Nat.succ_pos _, ?_, ?_, ?_⟩
      · simp only [Function.iterate_zero, id_eq]
        rw [← h]
        rfl
      · simpa [nextFrame] using hdrop
      · intro i hi
        omega
    · rw [if_neg hdrop] at h
      obtain ⟨j, hj, hn, hlt, hbefore⟩ := ih _ n h
      refine ⟨j + 1, by omega, ?_, ?_, ?_⟩
      · rw [Function.iterate_succ_apply]
        exact hn
      · rw [Function.iterate_succ_apply]
        exact hlt
      · intro i hi
        cases i with
        | zero =>
          simp only [Function.iterate_zero, id_eq]
          unfold nextFrame
          exact not_lt.mp hdrop
        | succ i =>
          rw [Function.iterate_succ_apply]
          exact hbefore i (by omega)

theorem stabilize_none (Height : Int → ℚ) (M : Int) (fuel : Nat) :
    ∀ t : Int, SGMarkerReference.stabilize Height M (fuel + 1) t = none →
      Height ((nextFrame M)^[fuel + 1] t) < Height t := by
  induction fuel with
  | zero =>
    intro t h
    rw [SGMarkerReference.stabilize] at h
    by_cases hdrop :
        roundFloat32 (Height t - Height (if t = M - 1 then 0 else t + 1)) < 1 / 4
    · rw [if_pos hdrop] at h
      cases h
    · have hpos : 0 < Height t - Height (if t = M - 1 then 0 else t + 1) := by
        by_contra hle
        have := roundFloat32_nonpos _ (not_lt.mp hle)
        linarith [not_lt.mp hdrop]
      simp only [Function.iterate_succ_apply, Function.iterate_zero, id_eq, zero_add]
      have hnext : nextFrame M t = (if t = M - 1 then 0 else t + 1) := rfl
      rw [hnext]
      linarith
  | succ fuel ih =>
    intro t h
    rw [SGMarkerReference.stabilize] at h
    by_cases hdrop :
        roundFloat32 (Height t - Height (if t = M - 1 then 0 else t + 1)) < 1 / 4
    · rw [if_pos hdrop] at h
      cases h
    · rw [if_neg hdrop] at h
      have hrec := ih _ h
      have hpos : 0 < Height t - Height (if t = M - 1 then 0 else t + 1) := by
        by_contra hle
        have := roundFloat32_nonpos _ (not_lt.mp hle)
        linarith [not_lt.mp hdrop]
      rw [Function.iterate_succ_apply]
      have hnext : nextFrame M t = (if t = M - 1 then 0 else t + 1) := rfl
      rw [hnext]
      linarith

theorem nextFrame_emod (M : Int) (x : Int) (h0 : 0 ≤ x) (h1 : x < M) :
    nextFrame M x = (x + 1) % M := by
  unfold nextFrame
  by_cases h : x = M - 1
  · rw [if_pos h, h]
    simp
  · rw [if_neg h, Int.emod_eq_of_lt (by omega) (by omega)]

theorem iterate_nextFrame (M : Int) (t : Int) (h0 : 0 ≤ t) (h1 : t < M) (i : Nat) :
    (nextFrame M)^[i] t = (t + i) % M := by
  induction i with
  | zero =>
    simp only [Function.iterate_zero, id_eq, Nat.cast_zero, add_zero]
    rw [Int.emod_eq_of_lt h0 h1]
  | succ i ih =>
    rw [Function.iterate_succ_apply', ih]
    have hM : 0 < M := by omega
    rw [nextFrame_emod M _ (Int.emod_nonneg _ (by omega)) (Int.emod_lt_of_pos _ hM)]
    rw [Int.emod_add_emod]
    push_cast
    ring_nf

theorem iterate_nextFrame_cycle (M : Int) (t : Int) (h0 : 0 ≤ t) (h1 : t < M) :
    (nextFrame M)^[M.toNat] t = t := by
  rw [iterate_nextFrame M t h0 h1]
  have hcast : ((M.toNat : Nat) : Int) = M := Int.toNat_of_nonneg (by omega)
  rw [hcast, Int.add_emod_self, Int.emod_eq_of_lt h0 h1]

/-- C24: for every cyclic sequence of frame heights of length `M ≥ 1` and every starting frame
of the cycle, the walk reaches its `break` within `M` passes through the loop body: a drop that
is at least `0.25` after rounding is a descent, and the heights cannot descend all the way
around the cycle. -/
theorem stabilize_terminates (Height : Int → ℚ) (M : Int) (hM : 1 ≤ M) (t : Int)
    (h0 : 0 ≤ t) (h1 : t < M) :
    ∃ n, SGMarkerReference.stabilize Height M M.toNat t = some n := by
  cases h : SGMarkerReference.stabilize Height M M.toNat t with
  | some n => exact ⟨n, rfl⟩
  | none =>
    exfalso
    obtain ⟨k, hk⟩ : ∃ k : Nat, M.toNat = k + 1 := ⟨M.toNat - 1, by omega⟩
    have hcycle := iterate_nextFrame_cycle M t h0 h1
    rw [hk] at h hcycle
    have hlt := stabilize_none Height M k t h
    rw [hcycle] at hlt
    exact lt_irrefl _ hlt

/-- The walk over the heights `3, 2, 1` of a cycle of three frames, from the frame `0`: the
drops `1`, `1` are walked over, the drop `-2` from the frame `2` to the frame `0` ends the walk
on its third pass. -/
theorem stabilize_terminates_witness :
    SGMarkerReference.stabilize fallingHeights 3 2 0 = none ∧
    SGMarkerReference.stabilize fallingHeights 3 3 0 = some 0 ∧
    ∃ n, SGMarkerReference.stabilize fallingHeights 3 (3 : Int).toNat 0 = some n :=
  ⟨by decide!, by decide!,
    stabilize_terminates fallingHeights 3 (by decide) 0 (by decide) (by decide)⟩

/-! ## The recorded contact times -/

theorem foldlM_collect_spec {α β γ : Type} (f : α → Option β) (g : β → γ) (l : List α) :
    ∀ (init out : List γ),
      l.foldlM (fun Results t => (f t).map (fun n => Results ++ [g n])) init = some out →
      ∃ rest, out = init ++ rest
        ∧ List.Forall₂ (fun t time => ∃ n, f t = some n ∧ time = g n) l rest := by
  induction l with
  | nil =>
    intro init out h
    simp only [List.foldlM_nil, pure, Option.some.injEq] at h
    exact ⟨[], by simp [h], List.Forall₂.nil⟩
  | cons a l ih =>
    intro init out h
    rw [List.foldlM_cons] at h
    cases hf : f a with
    | none =>
      simp only [hf, Option.map, bind, Option.bind] at h
      cases h
    | some n =>
      simp only [hf, Option.map, bind, Option.bind] at h
      obtain ⟨rest, hout, hall⟩ := ih _ out h
      refine ⟨g n :: rest, ?_, List.Forall₂.cons ⟨n, hf, rfl⟩ hall⟩
      rw [hout]
      simp

theorem foldlM_collect_returns {α β γ : Type} (f : α → Option β) (g : β → γ) (l : List α)
    (hf : ∀ t ∈ l, ∃ n, f t = some n) :
    ∀ init : List γ,
      ∃ out, l.foldlM (fun Results t => (f t).map (fun n => Results ++ [g n])) init
        = some out := by
  induction l with
  | nil =>
    intro init
    exact ⟨init, rfl⟩
  | cons a l ih =>
    intro init
    obtain ⟨n, hn⟩ := hf a (List.mem_cons_self _ _)
    obtain ⟨out, hout⟩ := ih (fun t ht => hf t (List.mem_cons_of_mem _ ht)) (init ++ [g n])
    refine ⟨out, ?_⟩
    rw [List.foldlM_cons]
    simp only [hn, Option.map, bind, Option.bind]
    exact hout

theorem mem_turningPoints_range (Dir : Direction) (NumFrame : Int) (Location : Int → FVector)
    (t : Int) (ht : t ∈ SGMarkerReference.turningPoints Dir NumFrame Location) :
    0 ≤ t ∧ t < NumFrame := by
  have h := turningPoints_eq Dir (NumFrame + 1) Location
  rw [show NumFrame + 1 - 1 = NumFrame by ring] at h
  rw [h, List.mem_map] at ht
  obtain ⟨p, hp, rfl⟩ := ht
  rw [List.mem_filter] at hp
  obtain ⟨h0, h1, _, _⟩ := (mem_examinedFrames (NumFrame + 1) p).mp hp.1
  exact ⟨h0, by omega⟩

theorem getContactTimeFromTurning_returns (Frames : FrameData) (Dir : Direction)
    (AnimationSequence : UAnimSequence) (BoneName : String) :
    ∃ Results, SGMarkerReference.GetContactTimeFromTurning Frames
      (Frames.GetNumberOfFrames AnimationSequence - 1).toNat Dir AnimationSequence BoneName
        = some Results := by
  unfold SGMarkerReference.GetContactTimeFromTurning
  apply foldlM_collect_returns
  intro t ht
  obtain ⟨h0, h1⟩ := mem_turningPoints_range Dir _ _ t ht
  cases h : SGMarkerReference.stabilize
      (fun k => (Frames.BoneLocation AnimationSequence BoneName k).Z)
      (Frames.GetNumberOfFrames AnimationSequence - 1)
      (Frames.GetNumberOfFrames AnimationSequence - 1).toNat t with
  | some n => exact ⟨n, rfl⟩
  | none =>
    exfalso
    obtain ⟨k, hk⟩ : ∃ k : Nat, (Frames.GetNumberOfFrames AnimationSequence - 1).toNat = k + 1 :=
      ⟨(Frames.GetNumberOfFrames AnimationSequence - 1).toNat - 1, by omega⟩
    have hcycle := iterate_nextFrame_cycle _ t h0 h1
    rw [hk] at h hcycle
    have hlt := stabilize_none _ _ k t h
    rw [hcycle] at hlt
    exact lt_irrefl _ hlt

/-- The claim C23 as stated fails when the drop is read as the difference of the two heights:
in `quarterDropCycle` the only turning point of a forward animation is the frame `1`, and the
drop from the frame `1` (height `0.35f`) to the frame `2` (height `0.1f`) is below `0.25`, so
the frame `k` of the claim is `1` and the time would be the one of the frame `2`, which is `4`.
The `float` difference is exactly `0.25`, the walk goes on to the frame `2`, and the recorded
time is the one of the frame `3`, which is `6`. -/
theorem stabilization_passes_rounded_quarter :
    roundFloat32 (7 / 20) = 11744051 / 33554432 ∧
    roundFloat32 (1 / 10) = 13421773 / 134217728 ∧
    SGMarkerReference.turningPoints Direction.f 4
      (quarterDropCycle.BoneLocation oneMarkerSource "b") = [1] ∧
    (quarterDropCycle.BoneLocation oneMarkerSource "b" 1).Z
      - (quarterDropCycle.BoneLocation oneMarkerSource "b" (nextFrame 4 1)).Z < 1 / 4 ∧
    quarterDropCycle.GetTimeAtFrame oneMarkerSource (nextFrame 4 1) = 4 ∧
    roundFloat32 ((quarterDropCycle.BoneLocation oneMarkerSource "b" 1).Z
      - (quarterDropCycle.BoneLocation oneMarkerSource "b" (nextFrame 4 1)).Z) = 1 / 4 ∧
    SGMarkerReference.GetContactTimeFromTurning quarterDropCycle 4 Direction.f oneMarkerSource
      "b" = some [6] := by
  refine ⟨by decide!, by decide!, by decide!, by decide!, by decide!, by decide!, by decide!⟩

/-- C23, amended to the drop the program compares: every turning-point frame `t` gets one
recorded contact time, the timestamp of the frame `succ(k)`, where `k` is reached from `t` by
`j` steps of the cycle, the `float` difference `Z[k] - Z[succ(k)]` (the difference rounded to
`float`) is below `0.25`, and the `float` difference at every frame walked over before `k` is at
least `0.25`; with as many passes as the cycle has frames, every walk ends and the times are
returned. -/
theorem stabilization_rule (Frames : FrameData) (Dir : Direction)
    (AnimationSequence : UAnimSequence) (BoneName : String) :
    (∃ Results, SGMarkerReference.GetContactTimeFromTurning Frames
      (Frames.GetNumberOfFrames AnimationSequence - 1).toNat Dir AnimationSequence BoneName
        = some Results) ∧
    ∀ (fuel : Nat) (Results : List ℚ),
      SGMarkerReference.GetContactTimeFromTurning Frames fuel Dir AnimationSequence BoneName
        = some Results →
      List.Forall₂ (fun (t : Int) (time : ℚ) => ∃ j : Nat,
          time = Frames.GetTimeAtFrame AnimationSequence
            (nextFrame (Frames.GetNumberOfFrames AnimationSequence - 1)
              ((nextFrame (Frames.GetNumberOfFrames AnimationSequence - 1))^[j] t))
          ∧ roundFloat32 ((Frames.BoneLocation AnimationSequence BoneName
                ((nextFrame (Frames.GetNumberOfFrames AnimationSequence - 1))^[j] t)).Z
              - (Frames.BoneLocation AnimationSequence BoneName
                  (nextFrame (Frames.GetNumberOfFrames AnimationSequence - 1)
                    ((nextFrame (Frames.GetNumberOfFrames AnimationSequence - 1))^[j] t))).Z)
              < 1 / 4
          ∧ ∀ i : Nat, i < j →
              1 / 4 ≤ roundFloat32 ((Frames.BoneLocation AnimationSequence BoneName
                  ((nextFrame (Frames.GetNumberOfFrames AnimationSequence - 1))^[i] t)).Z
                - (Frames.BoneLocation AnimationSequence BoneName
                    (nextFrame (Frames.GetNumberOfFrames AnimationSequence - 1)
                      ((nextFrame (Frames.GetNumberOfFrames AnimationSequence - 1))^[i] t))).Z))
        (SGMarkerReference.turningPoints Dir (Frames.GetNumberOfFrames AnimationSequence - 1)
          (Frames.BoneLocation AnimationSequence BoneName))
        Results := by
  refine ⟨getContactTimeFromTurning_returns Frames Dir AnimationSequence BoneName, ?_⟩
  intro fuel Results h
  unfold SGMarkerReference.GetContactTimeFromTurning at h
  obtain ⟨rest, hout, hall⟩ := foldlM_collect_spec _ _ _ [] Results h
  rw [List.nil_append] at hout
  rw [hout]
  refine hall.imp ?_
  intro t time htime
  obtain ⟨n, hn, ht⟩ := htime
  obtain ⟨j, _, hnj, hlt, hbefore⟩ := stabilize_spec _ _ fuel t n hn
  exact ⟨j, by rw [ht, hnj], hlt, hbefore⟩

/-- The detection on `fourFrameCycle`: the only turning point of a forward animation is the
frame `1`; the walk passes the frames `1` and `2` (drops `1` and `2`) and ends at the frame `3`
(drop `0`), whose successor in the cycle is the frame `0`, at time `0`. -/
theorem stabilization_rule_witness :
    SGMarkerReference.turningPoints Direction.f 4 (fourFrameCycle.BoneLocation oneMarkerSource "b")
      = [1] ∧
    SGMarkerReference.GetContactTimeFromTurning fourFrameCycle 4 Direction.f oneMarkerSource "b"
      = some [0] ∧
    SGMarkerReference.GetContactTimeFromTurning fourFrameCycle 2 Direction.f oneMarkerSource "b"
      = none ∧
    ∃ Results, SGMarkerReference.GetContactTimeFromTurning fourFrameCycle
      (fourFrameCycle.GetNumberOfFrames oneMarkerSource - 1).toNat Direction.f oneMarkerSource "b"
        = some Results :=
  ⟨by decide, by decide!, by decide!,
    (stabilization_rule fourFrameCycle Direction.f oneMarkerSource "b").1⟩

/-! ## Chaining of the interval bounds -/

theorem cycleFrom_chain_bounds (o : Bool) (first : ℚ) (A B : List ℚ) :
    List.Chain' (fun x y : FootInterval => x.Right = y.Left) (cycleFrom o first A B) := by
  induction A generalizing B with
  | nil => simp [cycleFrom]
  | cons a A ih =>
    rw [cycleFrom, List.chain'_cons', List.chain'_cons']
    refine ⟨?_, ?_, ih B.tail⟩
    · intro y hy
      simp only [List.head?_cons, Option.mem_def, Option.some.injEq] at hy
      rw [← hy]
      rfl
    · intro y hy
      cases A with
      | nil => simp [cycleFrom] at hy
      | cons a2 A2 =>
        rw [cycleFrom_head?] at hy
        simp only [Option.mem_def, Option.some.injEq] at hy
        rw [← hy]
        rfl

/-- C26: in every valid reference the right bound of each interval equals the left bound of
the next interval in the list, and the right bound of the final interval equals the left bound
of the first interval. -/
theorem construct_bounds_chain (d : ℚ) (dir : Direction) (L R : List ℚ)
    (hvalid : (SGMarkerReference.construct d dir L R).bIsValid = true) :
    List.Chain' (fun x y : FootInterval => x.Right = y.Left)
      (SGMarkerReference.construct d dir L R).Intervals ∧
    ∃ firstInterval lastInterval,
      (SGMarkerReference.construct d dir L R).Intervals.head? = some firstInterval ∧
      (SGMarkerReference.construct d dir L R).Intervals.getLast? = some lastInterval ∧
      lastInterval.Right = firstInterval.Left := by
  obtain ⟨hne, hlen, hcases⟩ := construct_cycle d dir L R hvalid
  have hneR : R.insertionSort (· ≤ ·) ≠ [] := by
    intro h
    rw [h] at hlen
    exact hne (List.length_eq_zero.mp hlen)
  obtain ⟨a, A, hA⟩ := List.exists_cons_of_ne_nil hne
  obtain ⟨b, B, hB⟩ := List.exists_cons_of_ne_nil hneR
  rcases hcases with ⟨_, hI⟩ | ⟨_, hI⟩
  · rw [hI]
    refine ⟨cycleFrom_chain_bounds _ _ _ _, ?_⟩
    rw [hA] at hlen ⊢
    exact ⟨_, _, cycleFrom_head? _ _ _ _ _, cycleFrom_getLast? true _ A a _ hlen, rfl⟩
  · rw [hI]
    refine ⟨cycleFrom_chain_bounds _ _ _ _, ?_⟩
    rw [hB] at hlen ⊢
    exact ⟨_, _, cycleFrom_head? _ _ _ _ _, cycleFrom_getLast? false _ B b _ hlen.symm, rfl⟩

/-- The bounds of the wrap example chain: `(1,3)`, `(3,5)`, `(5,7)`, `(7,1)`. -/
theorem construct_bounds_chain_witness :
    (SGMarkerReference.construct 8 Direction.f [1, 5] [3, 7]).bIsValid = true ∧
    (SGMarkerReference.construct 8 Direction.f [1, 5] [3, 7]).Intervals.map
      (fun iv => (iv.Left, iv.Right)) = [(1, 3), (3, 5), (5, 7), (7, 1)] ∧
    List.Chain' (fun x y : FootInterval => x.Right = y.Left)
      (SGMarkerReference.construct 8 Direction.f [1, 5] [3, 7]).Intervals :=
  ⟨by decide, by decide,
    (construct_bounds_chain 8 Direction.f [1, 5] [3, 7] (by decide)).1⟩

/-! ## Times between the contacts -/

theorem mem_interleave (A : List ℚ) : ∀ (B : List ℚ) (x : ℚ),
    x ∈ interleave A B → x ∈ A ∨ x ∈ B := by
  induction A with
  | nil =>
    intro B x hx
    simp [interleave] at hx
  | cons a A ih =>
    intro B x hx
    cases B with
    | nil => simp [interleave] at hx
    | cons b B =>
      rw [interleave_cons_cons] at hx
      rcases List.mem_cons.mp hx with h | h
      · left; rw [h]; exact List.mem_cons_self _ _
      · rcases List.mem_cons.mp h with h | h
        · right; rw [h]; exact List.mem_cons_self _ _
        · rcases ih B x h with h2 | h2
          · left; exact List.mem_cons_of_mem _ h2
          · right; exact List.mem_cons_of_mem _ h2

theorem strictlyContains_new_of_lt (t l r : ℚ) (o : Bool) (h : l < r) :
    (FootInterval.new l r o).strictlyContains t = decide (l < t ∧ t < r) := by
  have hw : (FootInterval.new l r o).IsWrapped = false := by
    simp only [FootInterval.new, decide_eq_false_iff_not, not_lt, gt_iff_lt]
    exact le_of_lt h
  unfold FootInterval.strictlyContains
  rw [hw]
  simp [FootInterval.new]

theorem strictlyContains_new_of_gt (t l r : ℚ) (o : Bool) (h : r < l) :
    (FootInterval.new l r o).strictlyContains t = decide (t > l ∨ t < r) := by
  have hw : (FootInterval.new l r o).IsWrapped = true := by
    simp only [FootInterval.new, decide_eq_true_eq, gt_iff_lt]
    exact h
  unfold FootInterval.strictlyContains
  rw [hw]
  simp [FootInterval.new]

theorem cycleFrom_countP_strictlyContains (o : Bool) (first t : ℚ) (A : List ℚ) :
    ∀ (a : ℚ) (B : List ℚ), (a :: A).length = B.length →
      (interleave (a :: A) B).Sorted (· < ·) → first ≤ a →
      (∀ x ∈ interleave (a :: A) B, t ≠ x) →
      (cycleFrom o first (a :: A) B).countP (fun iv => iv.strictlyContains t)
        = (if a < t then 1 else 0) + (if t < first then 1 else 0) := by
  induction A with
  | nil =>
    intro a B hlen hs hfa hne
    match B, hlen with
    | [b], _ =>
      rw [interleave_cons_cons] at hs hne
      have hab : a < b := List.rel_of_sorted_cons hs b (List.mem_cons_self _ _)
      have hfb : first < b := lt_of_le_of_lt hfa hab
      have htb : t ≠ b := hne b (by simp)
      simp only [cycleFrom, List.getD_cons_zero, List.headD_nil, List.countP_cons,
        List.countP_nil, strictlyContains_new_of_lt t a b o hab,
        strictlyContains_new_of_gt t b first (!o) hfb, decide_eq_true_eq]
      rcases lt_or_gt_of_ne htb with h5 | h5 <;>
        by_cases h1 : a < t <;> by_cases h3 : t < first <;>
        simp [h1, h3, h5, not_lt.mpr (le_of_lt h5)] <;> linarith
  | cons a2 A2 ih =>
    intro a B hlen hs hfa hne
    match B, hlen with
    | b :: b2 :: B2, hlen =>
      rw [interleave_cons_cons] at hs hne
      have hab : a < b := List.rel_of_sorted_cons hs b (List.mem_cons_self _ _)
      have hs1 := List.Sorted.of_cons hs
      rw [interleave_cons_cons] at hs1
      have hba : b < a2 := List.rel_of_sorted_cons hs1 a2 (List.mem_cons_self _ _)
      have hs2 := List.Sorted.of_cons hs1
      rw [← interleave_cons_cons] at hs2
      have hlen2 : (a2 :: A2).length = (b2 :: B2).length := by
        simp only [List.length_cons] at hlen ⊢
        omega
      have htb : t ≠ b := hne b (by simp)
      have hne2 : ∀ x ∈ interleave (a2 :: A2) (b2 :: B2), t ≠ x := by
        intro x hx
        exact hne x (List.mem_cons_of_mem _ (List.mem_cons_of_mem _ hx))
      have hta2 : t ≠ a2 := hne2 a2 (by rw [interleave_cons_cons]; simp)
      have hrec := ih a2 (b2 :: B2) hlen2 hs2 (by linarith) hne2
      rw [cycleFrom, List.countP_cons, List.countP_cons]
      simp only [List.getD_cons_zero, List.headD_cons, List.tail_cons]
      rw [hrec]
      simp only [strictlyContains_new_of_lt t a b o hab,
        strictlyContains_new_of_lt t b a2 (!o) hba]
      rcases lt_or_gt_of_ne htb with h5 | h5 <;> rcases lt_or_gt_of_ne hta2 with h6 | h6 <;>
        by_cases h1 : a < t <;> by_cases h3 : t < first <;>
        simp [h1, h3, h5, h6, not_lt.mpr (le_of_lt h5), not_lt.mpr (le_of_lt h6)] <;> linarith

theorem new_not_wrapped (l r : ℚ) (o : Bool) (h : l < r) :
    (FootInterval.new l r o).IsWrapped = false := by
  simp only [FootInterval.new, decide_eq_false_iff_not, not_lt, gt_iff_lt]
  exact le_of_lt h

theorem cycleFrom_dropLast_not_wrapped (o : Bool) (first : ℚ) (A : List ℚ) :
    ∀ (a : ℚ) (B : List ℚ), (a :: A).length = B.length →
      (interleave (a :: A) B).Sorted (· < ·) →
      ∀ iv ∈ (cycleFrom o first (a :: A) B).dropLast, iv.IsWrapped = false := by
  induction A with
  | nil =>
    intro a B hlen hs iv hiv
    match B, hlen with
    | [b], _ =>
      rw [interleave_cons_cons] at hs
      have hab : a < b := List.rel_of_sorted_cons hs b (List.mem_cons_self _ _)
      simp only [cycleFrom, List.getD_cons_zero, List.headD_nil, List.dropLast_cons₂,
        List.dropLast_single, List.mem_singleton] at hiv
      rw [hiv]
      exact new_not_wrapped a b o hab
  | cons a2 A2 ih =>
    intro a B hlen hs iv hiv
    match B, hlen with
    | b :: b2 :: B2, hlen =>
      rw [interleave_cons_cons] at hs
      have hab : a < b := List.rel_of_sorted_cons hs b (List.mem_cons_self _ _)
      have hs1 := List.Sorted.of_cons hs
      rw [interleave_cons_cons] at hs1
      have hba : b < a2 := List.rel_of_sorted_cons hs1 a2 (List.mem_cons_self _ _)
      have hs2 := List.Sorted.of_cons hs1
      rw [← interleave_cons_cons] at hs2
      have hlen2 : (a2 :: A2).length = (b2 :: B2).length := by
        simp only [List.length_cons] at hlen ⊢
        omega
      have hne : cycleFrom o first (a2 :: A2) (b2 :: B2) ≠ [] := by
        simp [cycleFrom]
      obtain ⟨x, xs, hx⟩ := List.exists_cons_of_ne_nil hne
      rw [cycleFrom] at hiv
      simp only [List.getD_cons_zero, List.headD_cons, List.tail_cons] at hiv
      rw [hx, List.dropLast_cons₂, List.dropLast_cons₂, ← hx] at hiv
      rcases List.mem_cons.mp hiv with h | h
      · rw [h]
        exact new_not_wrapped a b o hab
      · rcases List.mem_cons.mp h with h | h
        · rw [h]
          exact new_not_wrapped b a2 (!o) hba
        · exact ih a2 (b2 :: B2) hlen2 hs2 iv h

theorem cycle_open_tiling (o : Bool) (a : ℚ) (A B : List ℚ)
    (hlen : (a :: A).length = B.length) (hs : (interleave (a :: A) B).Sorted (· < ·)) :
    (∀ iv ∈ (cycleFrom o a (a :: A) B).dropLast, iv.IsWrapped = false) ∧
    (∃ last, (cycleFrom o a (a :: A) B).getLast? = some last ∧ last.IsWrapped = true) ∧
    (∀ t : ℚ, (∀ x ∈ interleave (a :: A) B, t ≠ x) →
      (cycleFrom o a (a :: A) B).countP (fun iv => iv.strictlyContains t) = 1) := by
  obtain ⟨haM, _, _⟩ := cycleFrom_interleaved o a A a B hlen hs le_rfl
  refine ⟨cycleFrom_dropLast_not_wrapped o a A a B hlen hs, ?_, ?_⟩
  · exact ⟨_, cycleFrom_getLast? o a A a B hlen, decide_eq_true haM⟩
  · intro t hne
    rw [cycleFrom_countP_strictlyContains o a t A a B hlen hs le_rfl hne]
    have hta : t ≠ a := hne a (by
      cases B with
      | nil => simp at hlen
      | cons b B => rw [interleave_cons_cons]; simp)
    rcases lt_or_gt_of_ne hta with h | h
    · simp [h, not_lt.mpr (le_of_lt h)]
    · simp [h, not_lt.mpr (le_of_lt h)]

/-- C25: if the contact lists of a valid reference are sorted, strictly interleaved
(`L[0] < R[0] < L[1] < ... < R[n-1]`, or the same with the feet swapped) and within
`[0, duration]`, then every interval except the last is non-wrapped, the last is wrapped, and
every time in `[0, duration]` that is not a contact time is contained, bounds excluded, in
exactly one interval. -/
theorem open_tiling_of_interleaved (d : ℚ) (dir : Direction) (L R : List ℚ)
    (hL : L.Sorted (· ≤ ·)) (hR : R.Sorted (· ≤ ·)) (hne : L ≠ []) (hlen : L.length = R.length)
    (_hrange : ∀ x ∈ L ++ R, 0 ≤ x ∧ x ≤ d)
    (hint : (interleave L R).Sorted (· < ·) ∨ (interleave R L).Sorted (· < ·)) :
    (∀ iv ∈ (SGMarkerReference.construct d dir L R).Intervals.dropLast, iv.IsWrapped = false) ∧
    (∃ last, (SGMarkerReference.construct d dir L R).Intervals.getLast? = some last
      ∧ last.IsWrapped = true) ∧
    (∀ t : ℚ, 0 ≤ t → t ≤ d → t ∉ L ++ R →
      (SGMarkerReference.construct d dir L R).Intervals.countP
        (fun iv => iv.strictlyContains t) = 1) := by
  have hneR : R ≠ [] := by
    intro h
    rw [h] at hlen
    exact hne (List.length_eq_zero.mp hlen)
  have hv := construct_valid d dir L R hL hR hne hlen
  obtain ⟨a, A, hA⟩ := List.exists_cons_of_ne_nil hne
  obtain ⟨b, B, hB⟩ := List.exists_cons_of_ne_nil hneR
  rcases hint with hs | hs
  · have hlt := interleave_head_lt L R hne hlen hs
    have hI : (SGMarkerReference.construct d dir L R).Intervals
        = cycleFrom true a (a :: A) R := by
      rw [hv]
      simp only [if_pos hlt, loopLeftFirst_eq_cycleFrom]
      rw [hA]
      simp
    rw [hI]
    obtain ⟨h1, h2, h3⟩ := cycle_open_tiling true a A R (hA ▸ hlen) (hA ▸ hs)
    refine ⟨h1, h2, ?_⟩
    intro t _ _ ht
    apply h3 t
    intro x hx heq
    apply ht
    rw [heq, List.mem_append, hA]
    exact mem_interleave _ _ x hx
  · have hlt := interleave_head_lt R L hneR hlen.symm hs
    have hnlt : ¬ L.getD 0 0 < R.getD 0 0 := not_lt.mpr (le_of_lt hlt)
    have hI : (SGMarkerReference.construct d dir L R).Intervals
        = cycleFrom false b (b :: B) L := by
      rw [hv]
      simp only [if_neg hnlt, loopRightFirst_eq_cycleFrom L R hlen]
      rw [hB]
      simp
    rw [hI]
    obtain ⟨h1, h2, h3⟩ := cycle_open_tiling false b B L (hB ▸ hlen.symm) (hB ▸ hs)
    refine ⟨h1, h2, ?_⟩
    intro t _ _ ht
    apply h3 t
    intro x hx heq
    apply ht
    rw [heq, List.mem_append, hB]
    exact (mem_interleave _ _ x hx).symm

/-- The wrap example: the first three intervals are non-wrapped, and the time `7.5` is
contained in exactly one interval, the wrapped one. -/
theorem open_tiling_of_interleaved_witness :
    (interleave [1, 5] [3, 7]).Sorted (· < ·) ∧
    (∀ x ∈ ([1, 5] ++ [3, 7] : List ℚ), 0 ≤ x ∧ x ≤ 8) ∧
    (15 / 2 : ℚ) ∉ ([1, 5] ++ [3, 7] : List ℚ) ∧
    (SGMarkerReference.construct 8 Direction.f [1, 5] [3, 7]).Intervals.countP
      (fun iv => iv.strictlyContains (15 / 2)) = 1 :=
  have hs : (interleave [1, 5] [3, 7]).Sorted (· < ·) := by decide
  have hr : ∀ x ∈ ([1, 5] ++ [3, 7] : List ℚ), 0 ≤ x ∧ x ≤ 8 := by decide
  have ht : (15 / 2 : ℚ) ∉ ([1, 5] ++ [3, 7] : List ℚ) := by decide!
  ⟨hs, hr, ht,
    (open_tiling_of_interleaved 8 Direction.f [1, 5] [3, 7] (by decide) (by decide)
      (by decide) (by decide) hr (Or.inl hs)).2.2 (15 / 2) (by norm_num) (by norm_num) ht⟩

/-! ## Totality of `GetRatioFromTime` -/

theorem findTarget_mem (ref : SGMarkerReference) (t : ℚ) (target : FootInterval)
    (h : ref.findTarget t = some target) : target ∈ ref.Intervals := by
  by_cases hc : ∃ iv ∈ ref.Intervals, t > iv.Left ∧ t < iv.Right
  · obtain ⟨target2, hsel, hmem, _, _⟩ := findTarget_of_contains ref t hc
    rw [hsel] at h
    simp only [Option.some.injEq] at h
    rw [← h]
    exact hmem
  · rw [findTarget_of_not_contains ref t hc] at h
    exact List.mem_of_mem_getLast? h

theorem getRatioFromTime_of_span_pos (ref : SGMarkerReference) (t : ℚ) (target : FootInterval)
    (hsel : ref.findTarget t = some target) (hpos : 0 < target.span ref.PlayLength) :
    ∃ r, ref.GetRatioFromTime t = some (r, target.IsOrderLeftRight) := by
  unfold SGMarkerReference.GetRatioFromTime
  rw [hsel]
  unfold FootInterval.span at hpos
  unfold SGMarkerReference.ratioIn floatDiv
  by_cases hw : target.IsWrapped = true
  · simp only [hw, if_true] at hpos
    have hd : target.Right + ref.PlayLength - target.Left ≠ 0 := ne_of_gt hpos
    simp [hw, hd]
  · have hw2 : target.IsWrapped = false := by
      cases h : target.IsWrapped
      · rfl
      · exact absurd h hw
    simp only [hw2, Bool.false_eq_true, if_false] at hpos
    have hd : target.Right - target.Left ≠ 0 := ne_of_gt hpos
    simp [hw2, hd]

theorem cycle_span_pos (o : Bool) (a d : ℚ) (A B : List ℚ)
    (hlen : (a :: A).length = B.length) (hs : (interleave (a :: A) B).Sorted (· < ·))
    (h0 : 0 ≤ a) (hM : B.getLastD 0 < d) :
    ∀ iv ∈ cycleFrom o a (a :: A) B, 0 < iv.span d := by
  obtain ⟨haM, hall, _⟩ := cycleFrom_interleaved o a A a B hlen hs le_rfl
  have hcons := cycleFrom_constructed o a (a :: A) B
  intro iv hiv
  unfold FootInterval.span
  rcases hall iv hiv with ⟨hlr, _, _⟩ | hfinal
  · have hw : iv.IsWrapped = false := by
      rw [hcons iv hiv]
      simp only [decide_eq_false_iff_not, not_lt, gt_iff_lt]
      exact le_of_lt hlr
    simp only [hw, Bool.false_eq_true, if_false]
    linarith
  · have hL : iv.Left = B.getLastD 0 := by rw [hfinal]; rfl
    have hR : iv.Right = a := by rw [hfinal]; rfl
    have hw : iv.IsWrapped = true := by
      rw [hcons iv hiv, hL, hR]
      exact decide_eq_true haM
    simp only [hw, if_true]
    rw [hL, hR]
    linarith

/-- C27: for every valid reference whose contact lists are sorted, strictly interleaved and
within `[0, duration)` with `duration > 0`, and every query time, the interval list is not
empty (the access `Intervals[Num-1]` is in bounds), the divisor of every interval, and so of
the selected one, is strictly positive, and `GetRatioFromTime` returns a ratio. -/
theorem getRatioFromTime_total (d : ℚ) (dir : Direction) (L R : List ℚ)
    (hL : L.Sorted (· ≤ ·)) (hR : R.Sorted (· ≤ ·)) (hne : L ≠ []) (hlen : L.length = R.length)
    (_hd : 0 < d) (hrange : ∀ x ∈ L ++ R, 0 ≤ x ∧ x < d)
    (hint : (interleave L R).Sorted (· < ·) ∨ (interleave R L).Sorted (· < ·)) (Time : ℚ) :
    (SGMarkerReference.construct d dir L R).Intervals ≠ [] ∧
    (∀ iv ∈ (SGMarkerReference.construct d dir L R).Intervals, 0 < iv.span d) ∧
    (∃ target, (SGMarkerReference.construct d dir L R).findTarget Time = some target
      ∧ 0 < target.span d) ∧
    (∃ ratio flag,
      (SGMarkerReference.construct d dir L R).GetRatioFromTime Time = some (ratio, flag)) := by
  have hneR : R ≠ [] := by
    intro h
    rw [h] at hlen
    exact hne (List.length_eq_zero.mp hlen)
  have hv := construct_valid d dir L R hL hR hne hlen
  have hd : (SGMarkerReference.construct d dir L R).PlayLength = d :=
    (construct_markers d dir L R).2.2
  obtain ⟨a, A, hA⟩ := List.exists_cons_of_ne_nil hne
  obtain ⟨b, B, hB⟩ := List.exists_cons_of_ne_nil hneR
  have hspan : ∀ iv ∈ (SGMarkerReference.construct d dir L R).Intervals, 0 < iv.span d := by
    rcases hint with hs | hs
    · have hlt := interleave_head_lt L R hne hlen hs
      have hI : (SGMarkerReference.construct d dir L R).Intervals
          = cycleFrom true a (a :: A) R := by
        rw [hv]
        simp only [if_pos hlt, loopLeftFirst_eq_cycleFrom]
        rw [hA]
        simp
      rw [hI]
      exact cycle_span_pos true a d A R (hA ▸ hlen) (hA ▸ hs)
        (hrange a (List.mem_append_left _ (hA ▸ List.mem_cons_self _ _))).1
        (hrange _ (List.mem_append_right _ (getLastD_mem R hneR))).2
    · have hlt := interleave_head_lt R L hneR hlen.symm hs
      have hnlt : ¬ L.getD 0 0 < R.getD 0 0 := not_lt.mpr (le_of_lt hlt)
      have hI : (SGMarkerReference.construct d dir L R).Intervals
          = cycleFrom false b (b :: B) L := by
        rw [hv]
        simp only [if_neg hnlt, loopRightFirst_eq_cycleFrom L R hlen]
        rw [hB]
        simp
      rw [hI]
      exact cycle_span_pos false b d B L (hB ▸ hlen.symm) (hB ▸ hs)
        (hrange b (List.mem_append_right _ (hB ▸ List.mem_cons_self _ _))).1
        (hrange _ (List.mem_append_left _ (getLastD_mem L hne))).2
  have hnonempty : (SGMarkerReference.construct d dir L R).Intervals ≠ [] := by
    obtain ⟨hneS, hlenS, hcases⟩ := construct_cycle d dir L R (by rw [hv])
    have hneSR : R.insertionSort (· ≤ ·) ≠ [] := by
      intro h
      rw [h] at hlenS
      exact hneS (List.length_eq_zero.mp hlenS)
    obtain ⟨x, xs, hx⟩ := List.exists_cons_of_ne_nil hneS
    obtain ⟨y, ys, hy⟩ := List.exists_cons_of_ne_nil hneSR
    rcases hcases with ⟨_, hI⟩ | ⟨_, hI⟩
    · rw [hI, hx]
      simp [cycleFrom]
    · rw [hI, hy]
      simp [cycleFrom]
  have hlast : ∃ last, (SGMarkerReference.construct d dir L R).Intervals.getLast? = some last := by
    cases h : (SGMarkerReference.construct d dir L R).Intervals.getLast? with
    | none => exact absurd (List.getLast?_eq_none_iff.mp h) hnonempty
    | some last => exact ⟨last, rfl⟩
  have hsel : ∃ target, (SGMarkerReference.construct d dir L R).findTarget Time = some target := by
    obtain ⟨last, hl⟩ := hlast
    unfold SGMarkerReference.findTarget
    rw [hl]
    exact ⟨_, rfl⟩
  obtain ⟨target, htarget⟩ := hsel
  have htpos := hspan target (findTarget_mem _ Time target htarget)
  refine ⟨hnonempty, hspan, ⟨target, htarget, htpos⟩, ?_⟩
  obtain ⟨r, hr⟩ := getRatioFromTime_of_span_pos _ Time target htarget (by rw [hd]; exact htpos)
  exact ⟨r, _, hr⟩

/-- The wrap example at the contact time `3`: the scan falls back to the final interval, whose
divisor `1 + 8 - 7` is positive, and a ratio is returned. -/
theorem getRatioFromTime_total_witness :
    (interleave [1, 5] [3, 7]).Sorted (· < ·) ∧
    (∀ x ∈ ([1, 5] ++ [3, 7] : List ℚ), 0 ≤ x ∧ x < 8) ∧
    (∃ ratio flag,
      (SGMarkerReference.construct 8 Direction.f [1, 5] [3, 7]).GetRatioFromTime 3
        = some (ratio, flag)) :=
  have hs : (interleave [1, 5] [3, 7]).Sorted (· < ·) := by decide
  have hr : ∀ x ∈ ([1, 5] ++ [3, 7] : List ℚ), 0 ≤ x ∧ x < 8 := by decide
  ⟨hs, hr,
    (getRatioFromTime_total 8 Direction.f [1, 5] [3, 7] (by decide) (by decide)
      (by decide) (by decide) (by norm_num) hr (Or.inl hs) 3).2.2.2⟩

/-! ## Markers on other tracks of a target -/

/-- C28, evaluated at a failing input: the source has the track `T` at index `0` with one marker
and one event at time `2`; the target has the tracks `A` and `T`, and `A` carries a marker and
an event at time `4`.  After the call the marker and the event on the track `A` of the target
are gone; its track `T` carries the inserted times `2` and `6`. -/
theorem sync_clears_other_track_on_shifted_target :
    GetTrackIndexForAnimationNotifyTrackName bystanderTarget "A" = 0 ∧
    twoAnimationModule.SyncReferenceGroup [oneMarkerSource, bystanderTarget] 0 "T"
      = some
        [twoCycleSource,
         { bystanderTarget with
           AuthoredSyncMarkers :=
             [{ MarkerName := "m", Time := 2, TrackIndex := 1 },
              { MarkerName := "m", Time := 6, TrackIndex := 1 }],
           Notifies :=
             [{ NotifyClass := "c", Time := 2, TrackIndex := 1 },
              { NotifyClass := "c", Time := 6, TrackIndex := 1 }] }] := by
  constructor
  · decide
  · decide!

/-! ## Round trip through the wrapped interval -/

/-- The claim C29 as stated fails, in two ways, on the wrap example (final interval `(7, 1)`,
wrapped, contacts within `[0, 8]`).  In exact arithmetic at the time `0`: it is below the right
bound `1` and inside no non-wrapped interval, closed bounds included; `GetRatioFromTime 0` is
`(1/2, right-then-left)`, and `GetTimeFromRatio` of it is `[4, 8]`, which does not contain `0`.
In `float` arithmetic at the time `1e-8f`, the `float` nearest to `10^-8`: the sum with the
play length `8` rounds to `8`, the ratio is again `1/2` and the times are again `[4, 8]`. -/
theorem wrapped_round_trip_fails :
    walkReference.bIsValid = true ∧
    walkReference.Intervals.getLast?
      = some { Left := 7, Right := 1, IsOrderLeftRight := false, IsWrapped := true } ∧
    (∀ x ∈ walkReference.LeftMarkers ++ walkReference.RightMarkers,
      0 ≤ x ∧ x ≤ walkReference.PlayLength) ∧
    ((0 : ℚ) ≤ 0 ∧ (0 : ℚ) ≤ walkReference.PlayLength ∧ (0 : ℚ) < 1) ∧
    (∀ iv ∈ walkReference.Intervals, iv.IsWrapped = false → ¬ (iv.Left ≤ 0 ∧ (0 : ℚ) ≤ iv.Right)) ∧
    walkReference.GetRatioFromTime 0 = some (1 / 2, false) ∧
    walkReference.GetTimeFromRatio (1 / 2) false = [4, 8] ∧
    (0 : ℚ) ∉ walkReference.GetTimeFromRatio (1 / 2) false ∧
    roundFloat32 (1 / 100000000) = 11258999 / 2 ^ 50 ∧
    ((0 : ℚ) < 11258999 / 2 ^ 50 ∧ (11258999 / 2 ^ 50 : ℚ) ≤ walkReference.PlayLength
      ∧ (11258999 / 2 ^ 50 : ℚ) < 1) ∧
    (∀ iv ∈ walkReference.Intervals, iv.IsWrapped = false →
      ¬ (iv.Left ≤ 11258999 / 2 ^ 50 ∧ (11258999 / 2 ^ 50 : ℚ) ≤ iv.Right)) ∧
    walkReference.GetRatioFromTimeRounded roundFloat32 (11258999 / 2 ^ 50)
      = some (1 / 2, false) ∧
    walkReference.GetTimeFromRatioRounded roundFloat32 (1 / 2) false = [4, 8] ∧
    (11258999 / 2 ^ 50 : ℚ) ∉ walkReference.GetTimeFromRatioRounded roundFloat32 (1 / 2)
      false := by
  refine ⟨by decide, by decide, by decide, by decide, by decide, by decide!, by decide!,
    by decide!, by decide!, by decide!, by decide!, by decide!, by decide!, by decide!⟩

theorem wrapped_round_trip_general (ref : SGMarkerReference) (hc : ref.IntervalsConstructed)
    (last : FootInterval) (hlast : ref.Intervals.getLast? = some last)
    (hw : last.IsWrapped = true) (hR : 0 ≤ last.Right) (hLd : last.Left ≤ ref.PlayLength)
    (t : ℚ) (ht0 : 0 < t) (htd : t ≤ ref.PlayLength)
    (hin : t > last.Left ∨ t < last.Right)
    (hnone : ∀ iv ∈ ref.Intervals, iv.IsWrapped = false → ¬ (iv.Left < t ∧ t < iv.Right)) :
    ∃ ratio flag, ref.GetRatioFromTime t = some (ratio, flag)
      ∧ t ∈ ref.GetTimeFromRatio ratio flag := by
  have hmem : last ∈ ref.Intervals := List.mem_of_mem_getLast? hlast
  have hgt : last.Right < last.Left := by
    have := hc last hmem
    rw [hw] at this
    exact of_decide_eq_true this.symm
  have hno : ¬ ∃ iv ∈ ref.Intervals, t > iv.Left ∧ t < iv.Right := by
    rintro ⟨iv, hiv, hl, hr⟩
    cases hwi : iv.IsWrapped with
    | false => exact hnone iv hiv hwi ⟨hl, hr⟩
    | true =>
      have := hc iv hiv
      rw [hwi] at this
      have hlr : iv.Left > iv.Right := of_decide_eq_true this.symm
      linarith
  have hsel : ref.findTarget t = some last := by
    rw [findTarget_of_not_contains ref t hno, hlast]
  have hW : 0 < last.Right + ref.PlayLength - last.Left := by
    rcases hin with h | h <;> linarith
  have hd : last.Right + ref.PlayLength - last.Left ≠ 0 := ne_of_gt hW
  refine ⟨((if t < last.Left then t + ref.PlayLength else t) - last.Left)
      / (last.Right + ref.PlayLength - last.Left), last.IsOrderLeftRight, ?_, ?_⟩
  · unfold SGMarkerReference.GetRatioFromTime
    rw [hsel]
    simp [SGMarkerReference.ratioIn, hw, floatDiv, hd]
  · rw [getTimeFromRatio_eq, List.mem_map]
    refine ⟨last, ?_, ?_⟩
    · rw [List.mem_filter]
      exact ⟨hmem, by simp⟩
    · have hloc : last.Left + (last.Right - last.Left + ref.PlayLength)
            * (((if t < last.Left then t + ref.PlayLength else t) - last.Left)
                / (last.Right + ref.PlayLength - last.Left))
          = (if t < last.Left then t + ref.PlayLength else t) := by
        have : last.Right - last.Left + ref.PlayLength
            = last.Right + ref.PlayLength - last.Left := by ring
        rw [this]
        field_simp
      unfold specCandidateTime
      simp only [hw, if_true]
      rw [hloc]
      by_cases hlt : t < last.Left
      · rw [if_pos hlt]
        have : t + ref.PlayLength > ref.PlayLength := by linarith
        rw [if_pos this]
        ring
      · rw [if_neg hlt]
        have : ¬ t > ref.PlayLength := not_lt.mpr htd
        rw [if_neg this]

theorem cycleFrom_bounds_mem (o : Bool) (first : ℚ) :
    ∀ (A B : List ℚ), A.length = B.length → ∀ iv ∈ cycleFrom o first A B,
      (iv.Left ∈ A ∨ iv.Left ∈ B) ∧ (iv.Right = first ∨ iv.Right ∈ A ∨ iv.Right ∈ B) := by
  intro A
  induction A with
  | nil => intro B _ iv hiv; simp [cycleFrom] at hiv
  | cons a A ih =>
    intro B hlen iv hiv
    match B, hlen with
    | b :: B, hlen =>
      simp only [cycleFrom, List.mem_cons, List.getD_cons_zero, List.tail_cons] at hiv
      rcases hiv with h | h | h
      · subst h
        simp [FootInterval.new]
      · subst h
        cases A with
        | nil => simp [FootInterval.new]
        | cons a2 A2 => simp [FootInterval.new]
      · have := ih B (by simpa using hlen) iv h
        rcases this with ⟨h1, h2⟩
        constructor
        · rcases h1 with h1 | h1
          · exact Or.inl (List.mem_cons_of_mem _ h1)
          · exact Or.inr (List.mem_cons_of_mem _ h1)
        · rcases h2 with h2 | h2 | h2
          · exact Or.inl h2
          · exact Or.inr (Or.inl (List.mem_cons_of_mem _ h2))
          · exact Or.inr (Or.inr (List.mem_cons_of_mem _ h2))

theorem construct_bounds_mem (d : ℚ) (dir : Direction) (L R : List ℚ)
    (hvalid : (SGMarkerReference.construct d dir L R).bIsValid = true) :
    ∀ iv ∈ (SGMarkerReference.construct d dir L R).Intervals,
      iv.Left ∈ L ++ R ∧ iv.Right ∈ L ++ R := by
  obtain ⟨hne, hlen, hcases⟩ := construct_cycle d dir L R hvalid
  have hneR : R.insertionSort (· ≤ ·) ≠ [] := by
    intro h
    rw [h] at hlen
    exact hne (List.length_eq_zero.mp hlen)
  have hpL : ∀ x, x ∈ L.insertionSort (· ≤ ·) ↔ x ∈ L :=
    fun x => (List.perm_insertionSort (· ≤ ·) L).mem_iff
  have hpR : ∀ x, x ∈ R.insertionSort (· ≤ ·) ↔ x ∈ R :=
    fun x => (List.perm_insertionSort (· ≤ ·) R).mem_iff
  obtain ⟨a, A, hA⟩ := List.exists_cons_of_ne_nil hne
  obtain ⟨b, B, hB⟩ := List.exists_cons_of_ne_nil hneR
  have haL : a ∈ L := (hpL a).mp (by rw [hA]; exact List.mem_cons_self _ _)
  have hbR : b ∈ R := (hpR b).mp (by rw [hB]; exact List.mem_cons_self _ _)
  intro iv hiv
  rcases hcases with ⟨_, hI⟩ | ⟨_, hI⟩
  · rw [hI] at hiv
    have := cycleFrom_bounds_mem true _ _ _ hlen iv hiv
    rw [hA] at this
    simp only [List.getD_cons_zero] at this
    rw [← hA] at this
    simp only [hpL, hpR] at this
    rcases this with ⟨h1, h2⟩
    refine ⟨List.mem_append.mpr h1, ?_⟩
    rcases h2 with h2 | h2
    · rw [h2]; exact List.mem_append_left _ haL
    · exact List.mem_append.mpr h2
  · rw [hI] at hiv
    have := cycleFrom_bounds_mem false _ _ _ hlen.symm iv hiv
    rw [hB] at this
    simp only [List.getD_cons_zero] at this
    rw [← hB] at this
    simp only [hpL, hpR] at this
    rcases this with ⟨h1, h2⟩
    refine ⟨List.mem_append.mpr h1.symm, ?_⟩
    rcases h2 with h2 | h2
    · rw [h2]; exact List.mem_append_right _ hbR
    · exact List.mem_append.mpr h2.symm

/-- C29, amended to exact arithmetic and to times in `(0, duration]`: in exact arithmetic, for
every valid reference whose final interval is wrapped and whose contact times lie in
`[0, duration]`, and every time `t` with `0 < t ≤ duration`, with `t > Left` or `t < Right` of
that final interval, and strictly inside no non-wrapped interval, `GetRatioFromTime t` returns a
pair and `GetTimeFromRatio` applied to that pair contains `t`. -/
theorem wrapped_round_trip (d : ℚ) (dir : Direction) (L R : List ℚ)
    (hvalid : (SGMarkerReference.construct d dir L R).bIsValid = true)
    (last : FootInterval)
    (hlast : (SGMarkerReference.construct d dir L R).Intervals.getLast? = some last)
    (hw : last.IsWrapped = true)
    (hrange : ∀ x ∈ L ++ R, 0 ≤ x ∧ x ≤ d)
    (t : ℚ) (ht0 : 0 < t) (htd : t ≤ d)
    (hin : t > last.Left ∨ t < last.Right)
    (hnone : ∀ iv ∈ (SGMarkerReference.construct d dir L R).Intervals,
      iv.IsWrapped = false → ¬ (iv.Left < t ∧ t < iv.Right)) :
    ∃ ratio flag,
      (SGMarkerReference.construct d dir L R).GetRatioFromTime t = some (ratio, flag)
      ∧ t ∈ (SGMarkerReference.construct d dir L R).GetTimeFromRatio ratio flag := by
  have hd : (SGMarkerReference.construct d dir L R).PlayLength = d :=
    (construct_markers d dir L R).2.2
  have hmem := construct_bounds_mem d dir L R hvalid last (List.mem_of_mem_getLast? hlast)
  exact wrapped_round_trip_general _ (construct_intervalsConstructed d dir L R) last hlast hw
    (hrange _ hmem.2).1 (by rw [hd]; exact (hrange _ hmem.1).2) t ht0 (by rw [hd]; exact htd)
    hin hnone

/-- Witness for C29 (amended): the wrap example at the time `1/2`, inside the wrapped interval
`(7, 1)`; the ratio is `3/4`, no operation rounds there, and the `float` arithmetic gives the
same ratio and the same times. -/
theorem wrapped_round_trip_witness :
    (∃ ratio flag,
      (SGMarkerReference.construct 8 Direction.f [1, 5] [3, 7]).GetRatioFromTime (1 / 2)
        = some (ratio, flag)
      ∧ (1 / 2 : ℚ) ∈ (SGMarkerReference.construct 8 Direction.f [1, 5] [3, 7]).GetTimeFromRatio
          ratio flag) ∧
    walkReference.GetRatioFromTime (1 / 2) = some (3 / 4, false) ∧
    walkReference.GetRatioFromTimeRounded roundFloat32 (1 / 2) = some (3 / 4, false) ∧
    walkReference.GetTimeFromRatioRounded roundFloat32 (3 / 4) false = [9 / 2, 1 / 2] :=
  ⟨wrapped_round_trip 8 Direction.f [1, 5] [3, 7] (by decide)
    { Left := 7, Right := 1, IsOrderLeftRight := false, IsWrapped := true } (by decide) rfl
    (by decide) (1 / 2) (by norm_num) (by norm_num) (Or.inr (by norm_num)) (by decide!),
   by decide!, by decide!, by decide!⟩

/-! ## Output range of `GetTimeFromRatio` -/

theorem covers_indicator (d t : ℚ) (ht0 : 0 ≤ t) (htd : t < d) (iv : FootInterval)
    (hc : iv.IsWrapped = decide (iv.Left > iv.Right)) :
    ((if iv.covers d t = true then 1 else 0 : Int))
      = (if iv.Left ≤ t then 1 else 0) - (if iv.Right ≤ t then 1 else 0)
        + (if iv.IsWrapped = true then 1 else 0) := by
  unfold FootInterval.covers
  by_cases hw : iv.Left > iv.Right
  · have hwt : iv.IsWrapped = true := by rw [hc]; exact decide_eq_true hw
    simp only [hwt, if_true]
    by_cases h1 : iv.Left ≤ t
    · have h2 : iv.Right ≤ t := by linarith
      have hcov : decide ((iv.Left ≤ t ∧ t < d) ∨ (0 ≤ t ∧ t < iv.Right)) = true :=
        decide_eq_true (Or.inl ⟨h1, htd⟩)
      rw [hcov]
      simp [h1, h2]
    · by_cases h2 : iv.Right ≤ t
      · have hcov : decide ((iv.Left ≤ t ∧ t < d) ∨ (0 ≤ t ∧ t < iv.Right)) = false := by
          apply decide_eq_false
          rintro (⟨h, _⟩ | ⟨_, h⟩)
          · exact h1 h
          · exact absurd h2 (not_le.mpr h)
        rw [hcov]
        simp [h1, h2]
      · have hcov : decide ((iv.Left ≤ t ∧ t < d) ∨ (0 ≤ t ∧ t < iv.Right)) = true :=
          decide_eq_true (Or.inr ⟨ht0, not_le.mp h2⟩)
        rw [hcov]
        simp [h1, h2]
  · have hwf : iv.IsWrapped = false := by rw [hc]; exact decide_eq_false hw
    simp only [hwf, Bool.false_eq_true, if_false]
    by_cases h1 : iv.Left ≤ t
    · by_cases h2 : iv.Right ≤ t
      · have hcov : decide (iv.Left ≤ t ∧ t < iv.Right) = false := by
          apply decide_eq_false
          rintro ⟨_, h⟩
          exact absurd h2 (not_le.mpr h)
        rw [hcov]
        simp [h1, h2]
      · have hcov : decide (iv.Left ≤ t ∧ t < iv.Right) = true :=
          decide_eq_true ⟨h1, not_le.mp h2⟩
        rw [hcov]
        simp [h1, h2]
    · have h2 : ¬ iv.Right ≤ t := by
        intro h
        exact h1 (by linarith [not_lt.mp hw])
      have hcov : decide (iv.Left ≤ t ∧ t < iv.Right) = false := by
        apply decide_eq_false
        rintro ⟨h, _⟩
        exact h1 h
      rw [hcov]
      simp [h1, h2]

theorem chain_countP_covers (d t : ℚ) (ht0 : 0 ≤ t) (htd : t < d) :
    ∀ (l : List FootInterval) (x : FootInterval),
      List.Chain (fun x y : FootInterval => x.Right = y.Left) x l →
      (∀ iv ∈ x :: l, iv.IsWrapped = decide (iv.Left > iv.Right)) →
      (((x :: l).countP (fun iv => iv.covers d t) : Nat) : Int)
        = (((x :: l).countP (fun iv => iv.IsWrapped) : Nat) : Int)
          + (if x.Left ≤ t then 1 else 0)
          - (if ((x :: l).getLast (List.cons_ne_nil x l)).Right ≤ t then 1 else 0) := by
  intro l
  induction l with
  | nil =>
    intro x _ hc
    have h := covers_indicator d t ht0 htd x (hc x (List.mem_cons_self _ _))
    simp only [List.countP_cons, List.countP_nil, zero_add, List.getLast_singleton]
    push_cast
    rw [h]
    ring
  | cons y l ih =>
    intro x hchain hc
    rw [List.chain_cons] at hchain
    have hx := covers_indicator d t ht0 htd x (hc x (List.mem_cons_self _ _))
    have hrec := ih y hchain.2 (fun iv hiv => hc iv (List.mem_cons_of_mem _ hiv))
    rw [List.countP_cons, List.countP_cons (fun iv : FootInterval => iv.IsWrapped)]
    rw [List.getLast_cons (List.cons_ne_nil y l)]
    push_cast
    rw [hrec, hx, hchain.1]
    ring

theorem closed_chain_countP_covers (d t : ℚ) (ht0 : 0 ≤ t) (htd : t < d)
    (l : List FootInterval)
    (hchain : List.Chain' (fun x y : FootInterval => x.Right = y.Left) l)
    (hc : ∀ iv ∈ l, iv.IsWrapped = decide (iv.Left > iv.Right))
    (firstInterval lastInterval : FootInterval) (hhead : l.head? = some firstInterval)
    (hlast : l.getLast? = some lastInterval)
    (hclose : lastInterval.Right = firstInterval.Left) :
    l.countP (fun iv => iv.covers d t) = l.countP (fun iv => iv.IsWrapped) := by
  cases l with
  | nil => simp
  | cons x l =>
    have h := chain_countP_covers d t ht0 htd l x hchain hc
    simp only [List.head?_cons, Option.some.injEq] at hhead
    rw [List.getLast?_eq_getLast _ (List.cons_ne_nil x l)] at hlast
    simp only [Option.some.injEq] at hlast
    rw [hlast, hclose, ← hhead] at h
    have h2 : (((x :: l).countP (fun iv => iv.covers d t) : Nat) : Int)
        = (((x :: l).countP (fun iv => iv.IsWrapped) : Nat) : Int) := by
      rw [h]
      ring
    exact_mod_cast h2

theorem construct_closed_chain (d : ℚ) (dir : Direction) (L R : List ℚ)
    (hvalid : (SGMarkerReference.construct d dir L R).bIsValid = true) :
    List.Chain' (fun x y : FootInterval => x.Right = y.Left)
      (SGMarkerReference.construct d dir L R).Intervals ∧
    ∃ firstInterval lastInterval,
      (SGMarkerReference.construct d dir L R).Intervals.head? = some firstInterval ∧
      (SGMarkerReference.construct d dir L R).Intervals.getLast? = some lastInterval ∧
      lastInterval.Right = firstInterval.Left := by
  obtain ⟨hne, hlen, hcases⟩ := construct_cycle d dir L R hvalid
  have hneR : R.insertionSort (· ≤ ·) ≠ [] := by
    intro h
    rw [h] at hlen
    exact hne (List.length_eq_zero.mp hlen)
  obtain ⟨a, A, hA⟩ := List.exists_cons_of_ne_nil hne
  obtain ⟨b, B, hB⟩ := List.exists_cons_of_ne_nil hneR
  rcases hcases with ⟨_, hI⟩ | ⟨_, hI⟩
  · rw [hI]
    refine ⟨cycleFrom_chain_bounds _ _ _ _, ?_⟩
    rw [hA] at hlen ⊢
    exact ⟨_, _, cycleFrom_head? _ _ _ _ _, cycleFrom_getLast? true _ A a _ hlen, rfl⟩
  · rw [hI]
    refine ⟨cycleFrom_chain_bounds _ _ _ _, ?_⟩
    rw [hB] at hlen ⊢
    exact ⟨_, _, cycleFrom_head? _ _ _ _ _, cycleFrom_getLast? false _ B b _ hlen.symm, rfl⟩

/-- Counting the wrapped intervals of three references: the contact lists `[1, 3]` and `[3, 5]`
are not strictly interleaved and exactly one of their intervals `(1, 3)`, `(3, 3)`, `(3, 5)`,
`(5, 1)` is wrapped; the contact lists `[1, 1]` and `[3, 3]`, and `[1, 2]` and `[3, 4]`, give
two wrapped intervals each. -/
theorem wrapped_count_examples :
    ¬ ((interleave [1, 3] [3, 5]).Sorted (· < ·) ∨ (interleave [3, 5] [1, 3]).Sorted (· < ·)) ∧
    (SGMarkerReference.construct 8 Direction.f [1, 3] [3, 5]).Intervals.countP
      (fun iv => iv.IsWrapped) = 1 ∧
    (SGMarkerReference.construct 8 Direction.f [1, 1] [3, 3]).Intervals.countP
      (fun iv => iv.IsWrapped) = 2 ∧
    (SGMarkerReference.construct 8 Direction.f [1, 2] [3, 4]).Intervals.countP
      (fun iv => iv.IsWrapped) = 2 := by
  refine ⟨by decide, by decide, by decide, by decide⟩

/-- C4, amended: for every valid reference and every duration `d > 0` (as when the contact
times lie within `[0, duration)`), a wrapped interval being read as
`[Left, duration) ∪ [0, Right)`, every time in `[0, duration)` lies in exactly as many
constructed intervals as are wrapped.  So every time in `[0, duration)` lies in exactly one
interval if and only if exactly one interval of the reference is wrapped. -/
theorem tiling_iff_one_wrapped (d : ℚ) (dir : Direction) (L R : List ℚ)
    (hvalid : (SGMarkerReference.construct d dir L R).bIsValid = true) (hd : 0 < d) :
    (∀ t : ℚ, 0 ≤ t → t < d →
      (SGMarkerReference.construct d dir L R).Intervals.countP (fun iv => iv.covers d t)
        = (SGMarkerReference.construct d dir L R).Intervals.countP (fun iv => iv.IsWrapped)) ∧
    ((∀ t : ℚ, 0 ≤ t → t < d →
        (SGMarkerReference.construct d dir L R).Intervals.countP (fun iv => iv.covers d t) = 1)
      ↔ (SGMarkerReference.construct d dir L R).Intervals.countP (fun iv => iv.IsWrapped)
          = 1) := by
  obtain ⟨hchain, firstInterval, lastInterval, hhead, hlast, hclose⟩ :=
    construct_closed_chain d dir L R hvalid
  have hcount : ∀ t : ℚ, 0 ≤ t → t < d →
      (SGMarkerReference.construct d dir L R).Intervals.countP (fun iv => iv.covers d t)
        = (SGMarkerReference.construct d dir L R).Intervals.countP (fun iv => iv.IsWrapped) :=
    fun t ht0 htd => closed_chain_countP_covers d t ht0 htd _ hchain
      (construct_intervalsConstructed d dir L R) firstInterval lastInterval hhead hlast hclose
  refine ⟨hcount, ?_, ?_⟩
  · intro h
    rw [← hcount 0 le_rfl hd]
    exact h 0 le_rfl hd
  · intro h t ht0 htd
    rw [hcount t ht0 htd, h]

/-- Witness for C4 (amended): the contact lists `[1, 3]` and `[3, 5]`, which are not strictly
interleaved, give one wrapped interval, and the time `3` lies in exactly one interval. -/
theorem tiling_iff_one_wrapped_witness :
    (∀ x ∈ ([1, 3] ++ [3, 5] : List ℚ), 0 ≤ x ∧ x < 8) ∧
    (SGMarkerReference.construct 8 Direction.f [1, 3] [3, 5]).Intervals.countP
      (fun iv => iv.IsWrapped) = 1 ∧
    (SGMarkerReference.construct 8 Direction.f [1, 3] [3, 5]).Intervals.countP
      (fun iv => iv.covers 8 3) = 1 :=
  ⟨by decide, by decide,
    (tiling_iff_one_wrapped 8 Direction.f [1, 3] [3, 5] (by decide) (by norm_num)).2.mpr
      (by decide) 3 (by norm_num) (by norm_num)⟩

/-! ## The two methods in `float` arithmetic -/

theorem getRatioFromTimeRounded_id (ref : SGMarkerReference) (Time : ℚ) :
    ref.GetRatioFromTimeRounded id Time = ref.GetRatioFromTime Time := rfl

theorem getTimeFromRatioRounded_id (ref : SGMarkerReference) (RefRatio : ℚ)
    (IsOrderLeftRight : Bool) :
    ref.GetTimeFromRatioRounded id RefRatio IsOrderLeftRight
      = ref.GetTimeFromRatio RefRatio IsOrderLeftRight := rfl

/-- The claim C13 as stated fails, in two ways.  In exact arithmetic: the valid reference of the
contact lists `[2]` and `[2]` has the left-then-right interval `(2, 2)` only; for the ratio `0`
and the flag left-then-right `GetTimeFromRatio` returns the time `2`, which is inside no
left-then-right interval.  In `float` arithmetic, on the wrap example, whose intervals all have
positive length: for the ratio `1 - 2^-24`, the largest `float` below `1`, and the flag
left-then-right the rounded sums are the right bounds `3` and `7`, which are inside no
left-then-right interval. -/
theorem getTimeFromRatio_outside_matching_interval :
    (SGMarkerReference.construct 8 Direction.f [2] [2]).bIsValid = true ∧
    (SGMarkerReference.construct 8 Direction.f [2] [2]).GetTimeFromRatio 0 true = [2] ∧
    (∀ iv ∈ (SGMarkerReference.construct 8 Direction.f [2] [2]).Intervals,
      iv.IsOrderLeftRight = true → iv.inside 2 = false) ∧
    roundFloat32 (1 - 1 / 2 ^ 24) = 1 - 1 / 2 ^ 24 ∧
    ((0 : ℚ) ≤ 1 - 1 / 2 ^ 24 ∧ (1 - 1 / 2 ^ 24 : ℚ) < 1) ∧
    (∀ iv ∈ walkReference.Intervals, 0 < iv.span walkReference.PlayLength) ∧
    walkReference.GetTimeFromRatioRounded roundFloat32 (1 - 1 / 2 ^ 24) true = [3, 7] ∧
    (∀ iv ∈ walkReference.Intervals,
      iv.IsOrderLeftRight = true → iv.inside 3 = false ∧ iv.inside 7 = false) := by
  refine ⟨by decide, by decide!, by decide!, by decide!, ?_, by decide!, by decide!, by decide!⟩
  constructor <;> norm_num

/-- The claim C19 as stated fails in `float` arithmetic: on the wrap example (contacts `[1, 5]`
and `[3, 7]`, strictly interleaved within `[0, 8)`), for the ratio `r = 1 - 2^-24`, the largest
`float` below `1`, and the flag left-then-right, `GetTimeFromRatio` returns the times `3` and
`7`; the time `3` is a bound, and `GetRatioFromTime 3` is `(2, right-then-left)`, not
`(r, left-then-right)`. -/
theorem resampling_not_invertible_in_float :
    ([1, 5] : List ℚ).Sorted (· ≤ ·) ∧ ([3, 7] : List ℚ).Sorted (· ≤ ·) ∧
    (interleave [1, 5] [3, 7]).Sorted (· < ·) ∧
    (∀ x ∈ ([1, 5] ++ [3, 7] : List ℚ), 0 ≤ x ∧ x < 8) ∧
    roundFloat32 (1 - 1 / 2 ^ 24) = 1 - 1 / 2 ^ 24 ∧
    ((0 : ℚ) < 1 - 1 / 2 ^ 24 ∧ (1 - 1 / 2 ^ 24 : ℚ) < 1) ∧
    (SGMarkerReference.construct 8 Direction.f [1, 5] [3, 7]).GetTimeFromRatioRounded
      roundFloat32 (1 - 1 / 2 ^ 24) true = [3, 7] ∧
    (SGMarkerReference.construct 8 Direction.f [1, 5] [3, 7]).GetRatioFromTimeRounded
      roundFloat32 3 = some (2, false) ∧
    (SGMarkerReference.construct 8 Direction.f [1, 5] [3, 7]).GetRatioFromTime 3
      = some (2, false) := by
  refine ⟨by decide, by decide, by decide, by decide, by decide!, ?_, by decide!, by decide!,
    by decide!⟩
  constructor <;> norm_num
